import Mathlib

/-!
Verification of the interval/set core of the `math` (crate name `analytic`) Rust library.

The Rust sources are shallowly embedded: the element type `E : Integer + Copy` is
modelled by `Int` (the spec treats element-type overflow as out of scope), values
of the numeric type `T : Copy + Num` are modelled by `Int`, `Vec`/`BTreeMap` are
modelled by (sorted) lists, and fallible operations (Rust panics) return
`Option`/an explicit outcome type.
-/
/-- Embeds `ContiguousIntegerSet<E>` (src/set/contiguous_integer_set.rs): the set
of integers in the closed interval `[start, end]`.  The Rust field `end` is a Lean
keyword and is rendered `end_`. -/
structure ContiguousIntegerSet where
  start : Int
  end_ : Int
deriving DecidableEq, Repr

instance : Inhabited ContiguousIntegerSet := ⟨⟨0, 0⟩⟩

namespace ContiguousIntegerSet

/-- Embeds `Set::is_empty`: `self.start > self.end`. -/
def is_empty (s : ContiguousIntegerSet) : Bool := s.start > s.end_

/-- Embeds `Set::contains`: `item >= self.start && item <= self.end`. -/
def contains (s : ContiguousIntegerSet) (item : Int) : Bool :=
  item ≥ s.start && item ≤ s.end_

/-- Embeds `Interval::length`. -/
def length (s : ContiguousIntegerSet) : Int :=
  if s.start > s.end_ then 0 else s.end_ - s.start + 1

/-- Embeds `Finite::size` (`to_usize` cannot fail here because the value is
non-negative in the else branch). -/
def size (s : ContiguousIntegerSet) : Nat :=
  if s.start > s.end_ then 0 else (s.end_ - s.start + 1).toNat

/-- Embeds `Intersect::intersect` for two contiguous sets. -/
def intersect (a b : ContiguousIntegerSet) : Option ContiguousIntegerSet :=
  if a.is_empty || b.is_empty || b.end_ < a.start || b.start > a.end_ then
    none
  else
    some ⟨max a.start b.start, min a.end_ b.end_⟩

/-- Embeds `has_non_empty_intersection_with`. -/
def has_non_empty_intersection_with (a b : ContiguousIntegerSet) : Bool :=
  (a.intersect b).isSome

/-- Embeds `Coalesce<Self>::coalesce_with` for `ContiguousIntegerSet`. -/
def coalesce_with (a b : ContiguousIntegerSet) : Option ContiguousIntegerSet :=
  if a.is_empty && b.is_empty then none
  else if a.is_empty then some b
  else if b.is_empty then some a
  else if a.start > b.end_ + 1 || a.end_ + 1 < b.start then none
  else some ⟨min a.start b.start, max a.end_ b.end_⟩

/-- Embeds `Coalesce<E>::coalesce_with` (coalescing with a single element). -/
def coalesce_with_elem (a : ContiguousIntegerSet) (x : Int) : Option ContiguousIntegerSet :=
  if a.is_empty then some ⟨x, x⟩
  else if a.start > x + 1 || a.end_ + 1 < x then none
  else some ⟨min a.start x, max a.end_ x⟩

/-- Embeds `ContiguousIntegerSet::is_subset_of`
(src/set/contiguous_integer_set.rs lines 37-40): the empty set is a subset of
any set. -/
def is_subset_of (a b : ContiguousIntegerSet) : Bool :=
  a.is_empty || (b.start ≤ a.start && a.end_ ≤ b.end_)

/-- Embeds `ContiguousIntegerSet::is_strict_subset_of`. -/
def is_strict_subset_of (a b : ContiguousIntegerSet) : Bool :=
  a.is_subset_of b && !(a == b) && !b.is_empty

end ContiguousIntegerSet

/-- Proof-level membership predicate for a contiguous set. -/
def memC (c : ContiguousIntegerSet) (x : Int) : Prop := c.start ≤ x ∧ x ≤ c.end_

instance (c : ContiguousIntegerSet) (x : Int) : Decidable (memC c x) :=
  inferInstanceAs (Decidable (_ ∧ _))

/-- Membership in an optional contiguous set (the result of `intersect`). -/
def memOptC (o : Option ContiguousIntegerSet) (x : Int) : Prop :=
  ∃ c, o = some c ∧ memC c x

/-- Membership in a list of contiguous sets. -/
def memL (l : List ContiguousIntegerSet) (x : Int) : Prop :=
  ∃ c ∈ l, memC c x

/-! ## Sorting and coalescing interval lists

Rust's `Vec::sort_by_key` is a stable sort; any two stable sorts produce the
same output, so we model it by a stable insertion sort. -/
/-- Stable insertion of an interval into a list sorted by `start`: the new
element goes after all existing elements whose key is less than or equal. -/
def insertByStart (x : ContiguousIntegerSet) :
    List ContiguousIntegerSet → List ContiguousIntegerSet
  | [] => [x]
  | y :: ys => if y.start ≤ x.start then y :: insertByStart x ys else x :: y :: ys

/-- Models `self.sort_by_key(|i| i.get_start())` (stable). -/
def sort_by_start (l : List ContiguousIntegerSet) : List ContiguousIntegerSet :=
  l.foldr insertByStart []

/-- The left fold of `CoalesceIntervals for Vec<I>::coalesce_intervals_inplace`
(src/interval/trait_impl.rs): each element is coalesced into the last
accumulated interval when possible, otherwise pushed.  Only the most recently
pushed interval is ever merged with, so the fold is equivalent to this
head-to-head recursion. -/
def coalesce_go (cur : ContiguousIntegerSet) :
    List ContiguousIntegerSet → List ContiguousIntegerSet
  | [] => [cur]
  | b :: rest =>
    match cur.coalesce_with b with
    | some merged => coalesce_go merged rest
    | none => cur :: coalesce_go b rest

/-- Embeds `Vec::coalesce_intervals_inplace`: sort by start, then fold. -/
def coalesce_intervals (l : List ContiguousIntegerSet) : List ContiguousIntegerSet :=
  match sort_by_start l with
  | [] => []
  | a :: rest => coalesce_go a rest

/-- The canonical invariant of an ordered integer set: all fragments non-empty
and successive fragments non-coalescable (`A.end + 1 < B.start`). -/
def Canon (l : List ContiguousIntegerSet) : Prop :=
  (∀ c ∈ l, c.start ≤ c.end_) ∧ l.Chain' (fun a b => a.end_ + 1 < b.start)

/-- Sortedness by start used as the intermediate invariant of the sort. -/
def SortedByStart (l : List ContiguousIntegerSet) : Prop :=
  l.Chain' (fun a b => a.start ≤ b.start)

/-! ## OrderedIntegerSet -/
/-- Embeds `OrderedIntegerSet<E>` (src/set/ordered_integer_set.rs). -/
structure OrderedIntegerSet where
  intervals : List ContiguousIntegerSet
deriving DecidableEq, Repr

namespace OrderedIntegerSet

/-- Embeds `OrderedIntegerSet::new`. -/
def new : OrderedIntegerSet := ⟨[]⟩

/-- Embeds `OrderedIntegerSet::from_slice` (build raw, then
`into_coalesced` through the OrderedIntegerSet impl of CoalesceIntervals, which
first drops empty intervals and then runs the Vec coalescing pass). -/
def from_slice (slice : List (Int × Int)) : OrderedIntegerSet :=
  ⟨coalesce_intervals ((slice.map fun p => (⟨p.1, p.2⟩ : ContiguousIntegerSet)).filter
    fun c => !c.is_empty)⟩

/-- Embeds `OrderedIntegerSet::from_contiguous_integer_sets` (Vec coalescing
pass only; empty intervals are not dropped first). -/
def from_contiguous_integer_sets (sets : List ContiguousIntegerSet) : OrderedIntegerSet :=
  ⟨coalesce_intervals sets⟩

/-- Embeds `from_ordered_coalesced_contiguous_integer_sets` (no processing). -/
def from_ordered_coalesced_contiguous_integer_sets
    (sets : List ContiguousIntegerSet) : OrderedIntegerSet :=
  ⟨sets⟩

/-- Embeds `Set::is_empty` for ordered sets: empty after discarding
zero-length fragments. -/
def is_empty (s : OrderedIntegerSet) : Bool :=
  (s.intervals.filter fun i => !i.is_empty).isEmpty

/-- Embeds `into_non_empty_intervals`. -/
def into_non_empty_intervals (s : OrderedIntegerSet) : OrderedIntegerSet :=
  ⟨s.intervals.filter fun i => !i.is_empty⟩

/-- Embeds the `CoalesceIntervals` impl for `OrderedIntegerSet`
(`coalesce_intervals_inplace`: drop empty intervals, then Vec coalescing). -/
def into_coalesced (s : OrderedIntegerSet) : OrderedIntegerSet :=
  ⟨coalesce_intervals (s.intervals.filter fun i => !i.is_empty)⟩

end OrderedIntegerSet

/-- Membership in an ordered integer set. -/
def memO (s : OrderedIntegerSet) (x : Int) : Prop := memL s.intervals x

/-- Embeds `Sub<&ContiguousIntegerSet> for ContiguousIntegerSet`
(src/set/ordered_integer_set/arithmetic.rs lines 15-42): `[a,b] - [c,d]`. -/
def ContiguousIntegerSet.sub (a rhs : ContiguousIntegerSet) : OrderedIntegerSet :=
  if a.is_empty then
    OrderedIntegerSet.from_ordered_coalesced_contiguous_integer_sets []
  else if rhs.is_empty then
    OrderedIntegerSet.from_ordered_coalesced_contiguous_integer_sets [a]
  else
    let c := rhs.start
    let d := rhs.end_
    let diff₁ : List ContiguousIntegerSet :=
      if c > a.start then [⟨a.start, min a.end_ (c - 1)⟩] else []
    let i : ContiguousIntegerSet := ⟨max (d + 1) a.start, a.end_⟩
    let diff₂ : List ContiguousIntegerSet := if !i.is_empty then [i] else []
    OrderedIntegerSet.from_ordered_coalesced_contiguous_integer_sets (diff₁ ++ diff₂)

/-! ## BinnedIntervalIter construction (src/iter/binned_interval_iter.rs) -/
/-- Embeds `AggregateOp`. -/
inductive AggregateOp where
  | Max
  | Min
  | Sum
deriving DecidableEq, Repr

/-- Embeds the `BinnedIntervalIter` state (the dyn extractor is specialized to
the identity on `(interval, value)` pairs, and the backing iterator to a
list). -/
structure BinnedIntervalIter (V : Type) where
  iter : List (ContiguousIntegerSet × V)
  bin_size : Int
  aggregate_op : AggregateOp
  current_interval_val : Option (ContiguousIntegerSet × V)
  current_bin : Option ContiguousIntegerSet
deriving DecidableEq

/-- Outcome of a Rust function that either returns a value or aborts through a
failed assertion (a panic).  The Rust signature of `BinnedIntervalIter::new`
returns `Self`, so the type has no recoverable-error constructor. -/
inductive PanicOr (α : Type) where
  | panicked (msg : String)
  | ok (a : α)
deriving DecidableEq

/-- Embeds `BinnedIntervalIter::new` (lines 146-164): `assert!(bin_size >= 1,
"bin_size must be at least 1")`, then pull the first item. -/
def BinnedIntervalIter.new {V : Type} (iter : List (ContiguousIntegerSet × V))
    (bin_size : Int) (aggregate_op : AggregateOp) : PanicOr (BinnedIntervalIter V) :=
  if bin_size < 1 then PanicOr.panicked "bin_size must be at least 1"
  else
    match iter with
    | [] => PanicOr.ok ⟨[], bin_size, aggregate_op, none, none⟩
    | x :: rest => PanicOr.ok ⟨rest, bin_size, aggregate_op, some x, none⟩

/-! ## Binary search (src/search/binary_search.rs)

The Rust comparator takes `(stored_element, target)`; the target is fixed
throughout one search, so the embedding closes over it: `cmp e` stands for
`cmp(&self[i], target)`.  The while loop is embedded with explicit fuel (the
top-level wrapper supplies `end - start + 1`, which the loop's measure never
exceeds). -/
def binary_search_loop {α : Type} [Inhabited α] (v : List α) (cmp : α → Ordering) :
    Nat → Nat → Nat → Except (Option Nat) Nat
  | 0, _, _ => Except.error none
  | fuel + 1, start, end_ =>
    let mid := (start + end_) / 2
    if start < end_ then
      match cmp (v.getD mid default) with
      | Ordering.lt => binary_search_loop v cmp fuel (mid + 1) end_
      | Ordering.gt => binary_search_loop v cmp fuel start mid
      | Ordering.eq => Except.ok mid
    else
      match cmp (v.getD mid default) with
      | Ordering.eq => Except.ok mid
      | Ordering.lt => Except.error (some (mid + 1))
      | Ordering.gt => Except.error (some mid)

/-- Embeds `BinarySearch::binary_search_with_cmp` for `Vec`: `Ok(index)` when a
comparator-equal element is found, `Err(Some(insertion_point))` otherwise, and
`Err(None)` when the queried sub-range `[start, end_exclusive)` is empty. -/
def binary_search_with_cmp {α : Type} [Inhabited α] (v : List α)
    (start end_exclusive : Nat) (cmp : α → Ordering) : Except (Option Nat) Nat :=
  if start ≥ end_exclusive then Except.error none
  else
    let end_ := end_exclusive - 1
    if cmp (v.getD start default) = Ordering.gt then Except.error (some start)
    else if cmp (v.getD end_ default) = Ordering.lt then Except.error (some (end_ + 1))
    else binary_search_loop v cmp (end_ - start + 1) start end_

/-- A comparator is monotone on a region when lt-results propagate left and
gt-results propagate right. -/
def CmpMono {α : Type} [Inhabited α] (v : List α) (cmp : α → Ordering)
    (lo hi : Nat) : Prop :=
  ∀ i j, lo ≤ i → i ≤ j → j ≤ hi →
    (cmp (v.getD j default) = Ordering.lt → cmp (v.getD i default) = Ordering.lt) ∧
    (cmp (v.getD i default) = Ordering.gt → cmp (v.getD j default) = Ordering.gt)

instance memL_decidable (l : List ContiguousIntegerSet) (x : Int) :
    Decidable (memL l x) :=
  inferInstanceAs (Decidable (∃ c ∈ l, memC c x))

instance memO_decidable (s : OrderedIntegerSet) (x : Int) : Decidable (memO s x) :=
  inferInstanceAs (Decidable (memL s.intervals x))

/-- Executable check of the gap chain of the canonical invariant. -/
def chainGapB : List ContiguousIntegerSet → Bool
  | [] => true
  | [_] => true
  | a :: b :: rest => (decide (a.end_ + 1 < b.start)) && chainGapB (b :: rest)

/-- Executable check of the canonical invariant. -/
def canonB (l : List ContiguousIntegerSet) : Bool :=
  l.all (fun c => decide (c.start ≤ c.end_)) && chainGapB l

/-! ## Element insertion: OrderedIntegerSet::collect
(src/set/ordered_integer_set.rs lines 524-577) -/
/-- The `Ok(i)` branch of `collect`: coalesce the found interval with the item
(the unwrap cannot fail since the comparator returned Equal; the impossible
case falls back to `default`), then try to merge with the left neighbour
(removing slot `i` on success) and then with the slot following index `i` of
the possibly already shortened list, mirroring the source's index usage. -/
def collect_ok (l : List ContiguousIntegerSet) (i : Nat) (item : Int) :
    List ContiguousIntegerSet :=
  let l1 := l.set i (((l.getD i default).coalesce_with_elem item).getD default)
  let l2 :=
    if i > 0 then
      match (l1.getD (i - 1) default).coalesce_with (l1.getD i default) with
      | some merged => (l1.set (i - 1) merged).eraseIdx i
      | none => l1
    else l1
  match l2[i + 1]? with
  | some next =>
    match next.coalesce_with (l2.getD i default) with
    | some merged => (l2.set i merged).eraseIdx (i + 1)
    | none => l2
  | none => l2

/-- Embeds `Collecting::collect` for `OrderedIntegerSet`: fast path against the
last interval, otherwise a binary search with the adjacency-aware 3-way
comparator.  The `Err(None)` case of the search unwraps in Rust; it is
unreachable because the fast path guarantees a non-empty interval list
(check (1) in the source), and the embedding returns the set unchanged there. -/
def OrderedIntegerSet.collect (s : OrderedIntegerSet) (item : Int) : OrderedIntegerSet :=
  match s.intervals.getLast? with
  | some last_interval =>
    if item > last_interval.end_ + 1 then
      ⟨s.intervals ++ [⟨item, item⟩]⟩
    else
      match last_interval.coalesce_with_elem item with
      | some interval => ⟨s.intervals.dropLast ++ [interval]⟩
      | none =>
        match binary_search_with_cmp s.intervals 0 s.intervals.length
          (fun interval => if interval.start > item + 1 then Ordering.gt
            else if interval.end_ + 1 < item then Ordering.lt else Ordering.eq) with
        | Except.ok i => ⟨collect_ok s.intervals i item⟩
        | Except.error (some p) => ⟨s.intervals.insertIdx p ⟨item, item⟩⟩
        | Except.error none => s
  | none => ⟨[⟨item, item⟩]⟩

/-! ## Ordered interval partitions and their common refinement
(src/partition/ordered_interval_partitions.rs) -/
/-- Embeds `OrderedIntervalPartitions<E>`. -/
structure OrderedIntervalPartitions where
  partitions : List ContiguousIntegerSet
deriving DecidableEq, Repr

/-- The loop of `get_common_refinement` (lines 132-203), embedded with the
indices `i`/`j` replaced by list suffixes and explicit fuel (the wrapper
supplies enough: each iteration consumes at least one element overall).  The
remnant options mirror `lhs_remnant`/`rhs_remnant`; on loop exit each pending
remnant is flushed in place of the element it came from. -/
def gcr_loop : Nat → List ContiguousIntegerSet → List ContiguousIntegerSet →
    Option ContiguousIntegerSet → Option ContiguousIntegerSet →
    List ContiguousIntegerSet
  | 0, _, _, _, _ => []
  | fuel + 1, ls, rs, lr, rr =>
    match ls, rs with
    | l0 :: ltail, r0 :: rtail =>
      let lhs := lr.getD l0
      let rhs := rr.getD r0
      match lhs.intersect rhs with
      | none =>
        if lhs.start ≤ rhs.start then
          lhs :: gcr_loop fuel ltail (r0 :: rtail) none rr
        else
          rhs :: gcr_loop fuel (l0 :: ltail) rtail lr none
      | some intersection =>
        let pre1 : List ContiguousIntegerSet :=
          if lhs.start < intersection.start
            then [⟨lhs.start, intersection.start - 1⟩] else []
        let pre2 : List ContiguousIntegerSet :=
          if rhs.start < intersection.start
            then [⟨rhs.start, intersection.start - 1⟩] else []
        let nextL : List ContiguousIntegerSet × Option ContiguousIntegerSet :=
          if lhs.end_ > intersection.end_
            then (l0 :: ltail, some ⟨intersection.end_ + 1, lhs.end_⟩)
            else (ltail, none)
        let nextR : List ContiguousIntegerSet × Option ContiguousIntegerSet :=
          if rhs.end_ > intersection.end_
            then (r0 :: rtail, some ⟨intersection.end_ + 1, rhs.end_⟩)
            else (rtail, none)
        pre1 ++ pre2 ++ intersection :: gcr_loop fuel nextL.1 nextR.1 nextL.2 nextR.2
    | ls', rs' =>
      (match lr with | some r => [r] | none => []) ++
        (match rr with | some r => [r] | none => []) ++
        (match lr with | some _ => ls'.drop 1 | none => ls') ++
        (match rr with | some _ => rs'.drop 1 | none => rs')

/-- Embeds `Refineable::get_common_refinement` for partitions (the two-pointer
sweep). -/
def OrderedIntervalPartitions.get_common_refinement
    (p other : OrderedIntervalPartitions) : OrderedIntervalPartitions :=
  ⟨gcr_loop (p.partitions.length + other.partitions.length + 1)
    p.partitions other.partitions none none⟩

/-- The partition invariant: non-empty ranges, ascending and pairwise disjoint
(the gap between consecutive ranges is at least 1, adjacency allowed). -/
def PartOK (l : List ContiguousIntegerSet) : Prop :=
  (∀ c ∈ l, c.start ≤ c.end_) ∧ l.Chain' (fun a b => a.end_ < b.start)

/-- The effective list of a side of the sweep: the remnant, when present,
stands for the not-yet-consumed tail of the current head element. -/
def effList (ls : List ContiguousIntegerSet) (lr : Option ContiguousIntegerSet) :
    List ContiguousIntegerSet :=
  match lr with
  | some r => r :: ls.drop 1
  | none => ls

def chainDisjB : List ContiguousIntegerSet → Bool
  | [] => true
  | [_] => true
  | a :: b :: rest => (decide (a.end_ < b.start)) && chainDisjB (b :: rest)

/-- Executable check of the partition invariant. -/
def partB (l : List ContiguousIntegerSet) : Bool :=
  l.all (fun c => decide (c.start ≤ c.end_)) && chainDisjB l

/-! ## Positional slicing of ordered integer sets
(src/set/ordered_integer_set.rs, `Slicing for Range<usize>`, lines 115-166) -/
/-- Embeds `Slicing<&ContiguousIntegerSet<E>> for Range<usize>`: slicing a
contiguous range by positions `s..e` (end exclusive). -/
def slice_contiguous (s e : Nat) (input : ContiguousIntegerSet) :
    Option ContiguousIntegerSet :=
  if s ≥ e ∨ s ≥ input.size then none
  else some ⟨input.start + (s : Int), input.start + (e : Int) - 1⟩

/-- The fragment loop of `Slicing<&OrderedIntegerSet<E>>::slice`, with the
mutable `skip`/`remaining` counters passed explicitly; the `remaining == 0`
break is the first pattern. -/
def slice_go : List ContiguousIntegerSet → Nat → Nat → List ContiguousIntegerSet
  | _, _, 0 => []
  | [], _, _ => []
  | interval :: rest, skip, remaining =>
    if skip > 0 then
      if skip ≥ interval.size then
        slice_go rest (skip - interval.size) remaining
      else
        (match slice_contiguous skip (min (skip + remaining) interval.size) interval with
          | some s => [s]
          | none => []) ++
          slice_go rest 0 (remaining - (min (skip + remaining) interval.size - skip))
    else
      (match slice_contiguous 0 (min remaining interval.size) interval with
        | some s => [s]
        | none => []) ++
        slice_go rest 0 (remaining - min remaining interval.size)

/-- Embeds `Slicing<&OrderedIntegerSet<E>>::slice` for `Range<usize>`
(`i..j`): the `end` index is exclusive. -/
def slice_ordered (i j : Nat) (input : OrderedIntegerSet) : OrderedIntegerSet :=
  if i ≥ j then OrderedIntegerSet.new
  else OrderedIntegerSet.from_contiguous_integer_sets (slice_go input.intervals i (j - i))

/-- The ascending list of members of a contiguous range. -/
def membersC (c : ContiguousIntegerSet) : List Int :=
  (List.range c.size).map (fun (i : Nat) => c.start + (i : Int))

/-- The concatenated member list of a fragment list. -/
def membersJ (l : List ContiguousIntegerSet) : List Int :=
  (l.map membersC).join

/-- The ascending list of members of an ordered integer set. -/
def membersO (s : OrderedIntegerSet) : List Int :=
  membersJ s.intervals

/-! ## The N-way common-refinement zip
(src/iter/common_refinement_zip.rs; `IntInterval` is a type alias of
`ContiguousIntegerSet`) -/
/-- One zipped source: its current interval, the not-yet-consumed tail of the
iterator (items already paired by the extractor), and the current value.
Mirrors one index of the parallel `intervals`/`iters`/`values` vectors. -/
structure ZipSlot where
  interval : Option ContiguousIntegerSet
  iter : List (ContiguousIntegerSet × Int)
  value : Option Int
deriving DecidableEq, Repr

/-- Sorted-distinct insertion: the model of `BTreeSet` insertion. -/
def setInsert (x : Int) : List Int → List Int
  | [] => [x]
  | y :: ys => if x < y then x :: y :: ys else if x = y then y :: ys else y :: setInsert x ys

/-- The model of collecting into a `BTreeSet` and iterating it in ascending
order. -/
def btreeSet (l : List Int) : List Int := l.foldr setInsert []

/-- The per-slot body of the `for` loop in `next` (lines 200-241): the first
component is the value pushed onto `refinement_values`, the second the updated
slot. -/
def slotStep (mr : ContiguousIntegerSet) (sl : ZipSlot) : Option Int × ZipSlot :=
  match sl.interval with
  | some i =>
    if i.has_non_empty_intersection_with mr then
      if (ContiguousIntegerSet.mk (mr.end_ + 1) i.end_).is_empty then
        match sl.iter with
        | [] => (sl.value, ⟨none, [], none⟩)
        | (p, val) :: tl => (sl.value, ⟨some p, tl, some val⟩)
      else (sl.value, ⟨some ⟨mr.end_ + 1, i.end_⟩, sl.iter, sl.value⟩)
    else (none, sl)
  | none => (none, sl)

/-- Embeds `CommonRefinementZipped::next` (lines 167-241).  The middle match
arm (`_ :: _, []`) models the `unwrap` on the ends set; it is unreachable
because the starts and ends sets are collected from the same intervals. -/
def zip_next (s : List ZipSlot) :
    Option ((ContiguousIntegerSet × List (Option Int)) × List ZipSlot) :=
  match btreeSet ((s.filterMap ZipSlot.interval).map ContiguousIntegerSet.start),
      btreeSet ((s.filterMap ZipSlot.interval).map ContiguousIntegerSet.end_) with
  | [], _ => none
  | _ :: _, [] => none
  | min_start :: rest, min_end :: _ =>
    let min_refinement : ContiguousIntegerSet :=
      match rest with
      | second :: _ =>
        if second ≤ min_end then ⟨min_start, second - 1⟩ else ⟨min_start, min_end⟩
      | [] => ⟨min_start, min_end⟩
    some ((min_refinement, (s.map (slotStep min_refinement)).map Prod.fst),
      (s.map (slotStep min_refinement)).map Prod.snd)

/-- Initial slot of one source: the constructor pulls the first item. -/
def mkSlot (items : List (ContiguousIntegerSet × Int)) : ZipSlot :=
  match items with
  | [] => ⟨none, [], none⟩
  | (i, v) :: tl => ⟨some i, tl, some v⟩

/-- Embeds `common_refinement_zip` for two sources. -/
def common_refinement_zip (s1 s2 : List (ContiguousIntegerSet × Int)) : List ZipSlot :=
  [mkSlot s1, mkSlot s2]

/-- Runs the zip iterator to completion (with fuel), collecting the emitted
(boundary, values) pairs. -/
def runZip : Nat → List ZipSlot → List (ContiguousIntegerSet × List (Option Int))
  | 0, _ => []
  | fuel + 1, s =>
    match zip_next s with
    | none => []
    | some ((b, vals), s') => (b, vals) :: runZip fuel s'

/-- The set of start boundaries of the present intervals. -/
def zipStarts (s : List ZipSlot) : Set Int :=
  {x | ∃ sl ∈ s, ∃ i, sl.interval = some i ∧ i.start = x}

/-- The set of end boundaries of the present intervals. -/
def zipEnds (s : List ZipSlot) : Set Int :=
  {x | ∃ sl ∈ s, ∃ i, sl.interval = some i ∧ i.end_ = x}

/-! ## IntegerIntervalMap and aggregate
(src/partition/integer_interval_map.rs; supporting set algebra from
src/set/ordered_integer_set.rs and src/set/ordered_integer_set/arithmetic.rs) -/
/-- The derived lexicographic `Ord` on `ContiguousIntegerSet`: start first,
then end. -/
def lex_lt (a b : ContiguousIntegerSet) : Prop :=
  a.start < b.start ∨ (a.start = b.start ∧ a.end_ < b.end_)

instance (a b : ContiguousIntegerSet) : Decidable (lex_lt a b) :=
  inferInstanceAs (Decidable (_ ∨ _))

/-- Embeds `IntegerIntervalMap<i64>`: the `BTreeMap` is modeled as an
association list kept sorted strictly by `lex_lt` on the keys. -/
abbrev IntegerIntervalMap := List (ContiguousIntegerSet × Int)

/-- `BTreeMap::insert` on the sorted association list (overwrites an
exactly-equal key). -/
def map_insert (k : ContiguousIntegerSet) (v : Int) :
    IntegerIntervalMap → IntegerIntervalMap
  | [] => [(k, v)]
  | (k', v') :: rest =>
    if lex_lt k k' then (k, v) :: (k', v') :: rest
    else if k = k' then (k, v) :: rest
    else (k', v') :: map_insert k v rest

/-- `BTreeMap::remove` (drops the entry with the exactly-equal key). -/
def map_remove (k : ContiguousIntegerSet) :
    IntegerIntervalMap → IntegerIntervalMap
  | [] => []
  | (k', v') :: rest => if k = k' then rest else (k', v') :: map_remove k rest

/-- Embeds `IntegerIntervalMap::get` (lines 155-157): `Some` only on an
exactly-equal key. -/
def IntegerIntervalMap.get (m : IntegerIntervalMap)
    (key : ContiguousIntegerSet) : Option Int :=
  (m.find? fun e => decide (e.1 = key)).map Prod.snd

/-- The leading skip loop of `Intersect<&OrderedIntegerSet> for
OrderedIntegerSet` (`while ... rhs[j].end < interval.start`), modeled on the
remaining suffix of the right-hand fragment list. -/
def ois_inter_skip (interval : ContiguousIntegerSet) :
    List ContiguousIntegerSet → List ContiguousIntegerSet
  | [] => []
  | r :: rest =>
    if r.end_ < interval.start then ois_inter_skip interval rest else r :: rest

/-- The collecting loop of the ordered-set intersection
(`while ... rhs[j].start <= interval.end`): returns the pushed intersection
pieces and the suffix left for the next outer iteration. -/
def ois_inter_inner (interval : ContiguousIntegerSet) :
    List ContiguousIntegerSet →
    List ContiguousIntegerSet × List ContiguousIntegerSet
  | [] => ([], [])
  | r :: rest =>
    if r.start ≤ interval.end_ then
      let piece : List ContiguousIntegerSet :=
        match interval.intersect r with
        | some i => [i]
        | none => []
      if r.end_ ≤ interval.end_ then
        let p := ois_inter_inner interval rest
        (piece ++ p.1, p.2)
      else (piece, r :: rest)
    else ([], r :: rest)

/-- The outer fragment loop of `Intersect<&OrderedIntegerSet> for
OrderedIntegerSet`. -/
def ois_inter_outer : List ContiguousIntegerSet → List ContiguousIntegerSet →
    List ContiguousIntegerSet
  | [], _ => []
  | interval :: selfRest, rhs =>
    let p := ois_inter_inner interval (ois_inter_skip interval rhs)
    p.1 ++ ois_inter_outer selfRest p.2

/-- Embeds `Intersect<&OrderedIntegerSet> for OrderedIntegerSet`. -/
def OrderedIntegerSet.intersectO (s other : OrderedIntegerSet) : OrderedIntegerSet :=
  OrderedIntegerSet.from_contiguous_integer_sets
    (ois_inter_outer s.intervals other.intervals)

/-- Embeds `Intersect<&OrderedIntegerSet> for ContiguousIntegerSet`. -/
def cis_intersect_ois (c : ContiguousIntegerSet) (other : OrderedIntegerSet) :
    OrderedIntegerSet :=
  if c.is_empty then OrderedIntegerSet.new
  else OrderedIntegerSet.intersectO
    (OrderedIntegerSet.from_ordered_coalesced_contiguous_integer_sets [c]) other

/-- The fragment loop of `Sub<&ContiguousIntegerSet> for OrderedIntegerSet`
from `copy_first_n` onward; the `interval.start > rhs.end` test is the
`copy_from_i_to_end` break, which copies the whole remaining suffix. -/
def ois_sub_loop (rhs : ContiguousIntegerSet) :
    List ContiguousIntegerSet → List ContiguousIntegerSet
  | [] => []
  | interval :: rest =>
    if interval.start > rhs.end_ then interval :: rest
    else
      (if (interval.sub rhs).is_empty then [] else (interval.sub rhs).intervals) ++
        ois_sub_loop rhs rest

/-- Embeds `Sub<&ContiguousIntegerSet> for OrderedIntegerSet`
(arithmetic.rs lines 53-105).  The binary search's comparator never returns
`Equal`, so the `Ok` arm (whose `unwrap_err` would panic) is unreachable; it
is mapped to 0 like the `unwrap_or(0)` of the `Err(None)` case. -/
def ois_sub_contiguous (s : OrderedIntegerSet) (rhs : ContiguousIntegerSet) :
    OrderedIntegerSet :=
  if s.is_empty then s
  else if rhs.is_empty then s
  else if rhs.end_ < (s.intervals.headD default).start then s
  else if rhs.start > (s.intervals.getLastD default).end_ then s
  else
    let copy_first_n :=
      match binary_search_with_cmp s.intervals 0 s.intervals.length
        (fun interval =>
          if interval.end_ < rhs.start then Ordering.lt else Ordering.gt) with
      | Except.error (some p) => p
      | Except.error none => 0
      | Except.ok _ => 0
    OrderedIntegerSet.from_ordered_coalesced_contiguous_integer_sets
      (s.intervals.take copy_first_n ++
        ois_sub_loop rhs (s.intervals.drop copy_first_n))

/-- Embeds `OrderedIntegerSet::from(Vec<ContiguousIntegerSet>)`
(build raw, then coalesce in place). -/
def ois_from_vec (l : List ContiguousIntegerSet) : OrderedIntegerSet :=
  OrderedIntegerSet.into_coalesced ⟨l⟩

/-- Embeds `Sub<&OrderedIntegerSet> for ContiguousIntegerSet`. -/
def cis_sub_ois (c : ContiguousIntegerSet) (rhs : OrderedIntegerSet) :
    OrderedIntegerSet :=
  (rhs.intervals.foldl (fun acc interval => ois_sub_contiguous acc interval)
    (ois_from_vec [c])).into_coalesced

/-- The candidate loop of `aggregate` (lines 80-94): for each candidate entry,
subtract the intersection pieces from the remaining interval and stage the
additions. -/
def aggLoop (value : Int) :
    List (ContiguousIntegerSet × Int) → OrderedIntegerSet →
    List (ContiguousIntegerSet × Int) →
    OrderedIntegerSet × List (ContiguousIntegerSet × Int)
  | [], remaining, to_add => (remaining, to_add)
  | (interval, val) :: rest, remaining, to_add =>
    let intersection := cis_intersect_ois interval remaining
    let remaining' := intersection.intervals.foldl
      (fun acc ci => ois_sub_contiguous acc ci) remaining
    let adds1 := intersection.intervals.map (fun ci => (ci, val + value))
    let adds2 := (cis_sub_ois interval intersection).intervals.map (fun ci => (ci, val))
    aggLoop value rest remaining' (to_add ++ adds1 ++ adds2)

/-- Embeds `IntegerIntervalMap::aggregate` (lines 59-108).  `none` models the
panic of `BTreeMap::range` on a lexicographically inverted query range, which
happens exactly when `key.start > key.end + 1`.  The candidates are the
entries in the key range `(start,start)..(end+1,end+1)` in ascending order
followed by the last entry below `(start,start)` — the
`.range(..).rev().take(1)` chain. -/
def IntegerIntervalMap.aggregate (m : IntegerIntervalMap)
    (key : ContiguousIntegerSet) (value : Int) : Option IntegerIntervalMap :=
  if key.start > key.end_ + 1 then none
  else
    let inRange := m.filter fun e =>
      !decide (lex_lt e.1 ⟨key.start, key.start⟩) &&
        decide (lex_lt e.1 ⟨key.end_ + 1, key.end_ + 1⟩)
    let below := (m.filter fun e => decide (lex_lt e.1 ⟨key.start, key.start⟩)).getLast?
    let cands := inRange ++ (match below with | some e => [e] | none => [])
    let res := aggLoop value cands
      (OrderedIntegerSet.from_contiguous_integer_sets [key]) []
    let to_add := res.2 ++
      (res.1.into_non_empty_intervals).intervals.map (fun i => (i, value))
    let removed := cands.foldl (fun acc e => map_remove e.1 acc) m
    some (to_add.foldl (fun acc e => map_insert e.1 e.2 acc) removed)

/-- The superposed total at a point: the sum of the values of all entries
whose key contains the point (with pairwise-disjoint keys this is the value
of the unique containing key, or 0). -/
def sumAt (l : List (ContiguousIntegerSet × Int)) (x : Int) : Int :=
  l.foldr (fun e acc => (if memC e.1 x then e.2 else 0) + acc) 0

/-- The staged contribution of the candidate entries, relative to the initial
remaining set. -/
def sumContrib (value : Int) (cs : List (ContiguousIntegerSet × Int))
    (rem : OrderedIntegerSet) (x : Int) : Int :=
  cs.foldr (fun e acc =>
    (if memC e.1 x then (if memO rem x then e.2 + value else e.2) else 0) + acc) 0

/-- Strict key distinctness of the association list. -/
def KeysDistinct (m : IntegerIntervalMap) : Prop :=
  m.Pairwise (fun a b => a.1 ≠ b.1)

/-- The candidate entries of one `aggregate` call: the entries in the key
range in ascending order, then the last entry below the key's start. -/
def aggCands (m : IntegerIntervalMap) (key : ContiguousIntegerSet) :
    List (ContiguousIntegerSet × Int) :=
  (m.filter fun e => !decide (lex_lt e.1 ⟨key.start, key.start⟩) &&
    decide (lex_lt e.1 ⟨key.end_ + 1, key.end_ + 1⟩)) ++
  (match (m.filter fun e =>
      decide (lex_lt e.1 ⟨key.start, key.start⟩)).getLast? with
    | some e => [e]
    | none => [])

theorem contains_iff_memC (c : ContiguousIntegerSet) (x : Int) :
    c.contains x = true ↔ memC c x := by
  simp [ContiguousIntegerSet.contains, memC, and_comm]

theorem memL_nil (x : Int) : ¬ memL [] x := by simp [memL]

theorem memL_cons (c : ContiguousIntegerSet) (l : List ContiguousIntegerSet) (x : Int) :
    memL (c :: l) x ↔ memC c x ∨ memL l x := by
  simp [memL]

theorem memL_append (l₁ l₂ : List ContiguousIntegerSet) (x : Int) :
    memL (l₁ ++ l₂) x ↔ memL l₁ x ∨ memL l₂ x := by
  simp [memL, List.mem_append]
  constructor
  · rintro ⟨c, h | h, hm⟩
    · exact Or.inl ⟨c, h, hm⟩
    · exact Or.inr ⟨c, h, hm⟩
  · rintro (⟨c, h, hm⟩ | ⟨c, h, hm⟩)
    · exact ⟨c, Or.inl h, hm⟩
    · exact ⟨c, Or.inr h, hm⟩

theorem Canon.nil : Canon [] := ⟨by simp, List.chain'_nil⟩

theorem Canon.cons_iff (c : ContiguousIntegerSet) (l : List ContiguousIntegerSet) :
    Canon (c :: l) ↔
      c.start ≤ c.end_ ∧ Canon l ∧ (∀ b ∈ l.head?, c.end_ + 1 < b.start) := by
  unfold Canon
  rw [List.chain'_cons']
  constructor
  · rintro ⟨hne, hh, hch⟩
    exact ⟨hne c (by simp), ⟨fun d hd => hne d (by simp [hd]), hch⟩, hh⟩
  · rintro ⟨hc, ⟨hne, hch⟩, hh⟩
    refine ⟨?_, hh, hch⟩
    intro d hd
    rcases List.mem_cons.1 hd with h | h
    · exact h ▸ hc
    · exact hne d h

theorem Canon.of_cons {c : ContiguousIntegerSet} {l : List ContiguousIntegerSet}
    (h : Canon (c :: l)) : Canon l :=
  ((Canon.cons_iff c l).1 h).2.1

/-- In a canonical list every element's start is at least the head's start. -/
theorem Canon.head_le_starts {c : ContiguousIntegerSet} {l : List ContiguousIntegerSet}
    (h : Canon (c :: l)) : ∀ d ∈ l, c.start ≤ d.start := by
  induction l generalizing c with
  | nil => simp
  | cons b rest ih =>
    rcases (Canon.cons_iff c (b :: rest)).1 h with ⟨hc, htail, hh⟩
    have hcb : c.end_ + 1 < b.start := hh b (by simp)
    intro d hd
    rcases List.mem_cons.1 hd with rfl | hd'
    · omega
    · have := ih htail d hd'
      omega

/-- In a canonical list, any member of the head bounds all tail members away. -/
theorem Canon.mem_head_lt_tail {c : ContiguousIntegerSet} {l : List ContiguousIntegerSet}
    (h : Canon (c :: l)) {x : Int} (hx : memL l x) : c.end_ + 1 < x := by
  rcases hx with ⟨d, hd, hxd⟩
  rcases (Canon.cons_iff c l).1 h with ⟨_, htail, hh⟩
  rcases l with _ | ⟨b, rest⟩
  · simp at hd
  · have hcb : c.end_ + 1 < b.start := hh b (by simp)
    rcases List.mem_cons.1 hd with rfl | hd'
    · rcases hxd with ⟨h1, _⟩; omega
    · have := Canon.head_le_starts htail d hd'
      rcases hxd with ⟨h1, _⟩
      omega

/-- All members of a canonical list are at least the head's start. -/
theorem Canon.head_start_le_mem {c : ContiguousIntegerSet} {l : List ContiguousIntegerSet}
    (h : Canon (c :: l)) {x : Int} (hx : memL (c :: l) x) : c.start ≤ x := by
  rcases (memL_cons c l x).1 hx with hm | hm
  · exact hm.1
  · have h1 := Canon.mem_head_lt_tail h hm
    rcases (Canon.cons_iff c l).1 h with ⟨hc, _, _⟩
    omega

theorem sortedByStart_head_le {b : ContiguousIntegerSet} {l : List ContiguousIntegerSet}
    (h : SortedByStart (b :: l)) : ∀ d ∈ l, b.start ≤ d.start := by
  induction l generalizing b with
  | nil => simp
  | cons c rest ih =>
    rcases List.chain'_cons.1 h with ⟨hbc, hc⟩
    intro d hd
    rcases List.mem_cons.1 hd with rfl | hd'
    · exact hbc
    · exact le_trans hbc (ih hc d hd')

theorem insertByStart_perm (x : ContiguousIntegerSet) (l : List ContiguousIntegerSet) :
    (insertByStart x l).Perm (x :: l) := by
  induction l with
  | nil => simp [insertByStart]
  | cons y ys ih =>
    by_cases h : y.start ≤ x.start
    · simp only [insertByStart, if_pos h]
      exact (List.Perm.cons y ih).trans (List.Perm.swap x y ys)
    · simp [insertByStart, if_neg h]

theorem insertByStart_sorted (x : ContiguousIntegerSet) (l : List ContiguousIntegerSet)
    (h : SortedByStart l) : SortedByStart (insertByStart x l) := by
  induction l with
  | nil => simp [insertByStart, SortedByStart]
  | cons y ys ih =>
    by_cases hc : y.start ≤ x.start
    · simp only [insertByStart, if_pos hc]
      have hys : SortedByStart ys := (List.chain'_cons'.1 h).2
      have hins := ih hys
      rw [SortedByStart, List.chain'_cons']
      refine ⟨?_, hins⟩
      intro z hz
      have hzmem : z ∈ insertByStart x ys := List.mem_of_mem_head? hz
      have hzx : z ∈ x :: ys := (insertByStart_perm x ys).subset hzmem
      rcases List.mem_cons.1 hzx with rfl | hzys
      · exact hc
      · exact sortedByStart_head_le h z hzys
    · push_neg at hc
      simp only [insertByStart, if_neg (not_le.2 hc)]
      rw [SortedByStart, List.chain'_cons]
      exact ⟨hc.le, h⟩

theorem sort_by_start_perm (l : List ContiguousIntegerSet) :
    (sort_by_start l).Perm l := by
  induction l with
  | nil => simp [sort_by_start]
  | cons x xs ih =>
    have h0 : sort_by_start (x :: xs) = insertByStart x (sort_by_start xs) := rfl
    rw [h0]
    exact (insertByStart_perm x (sort_by_start xs)).trans (List.Perm.cons x ih)

theorem sort_by_start_sorted (l : List ContiguousIntegerSet) :
    SortedByStart (sort_by_start l) := by
  induction l with
  | nil => simp [sort_by_start, SortedByStart]
  | cons x xs ih => exact insertByStart_sorted x (sort_by_start xs) ih

/-- Coalescing two non-empty touching intervals yields their hull, and success
implies the intervals intersect or are adjacent. -/
theorem coalesce_with_some_nonempty {a b m : ContiguousIntegerSet}
    (ha : a.start ≤ a.end_) (hb : b.start ≤ b.end_)
    (h : a.coalesce_with b = some m) :
    m.start = min a.start b.start ∧ m.end_ = max a.end_ b.end_ ∧
      b.start ≤ a.end_ + 1 ∧ a.start ≤ b.end_ + 1 := by
  unfold ContiguousIntegerSet.coalesce_with ContiguousIntegerSet.is_empty at h
  split_ifs at h with h1 h2 h3 h4
  · exfalso; simp only [decide_eq_true_eq] at h2; omega
  · exfalso; simp only [decide_eq_true_eq] at h3; omega
  · rcases Option.some.inj h with rfl
    simp only [Bool.or_eq_true, decide_eq_true_eq, not_or, not_lt] at h4
    exact ⟨rfl, rfl, by omega, by omega⟩

theorem coalesce_with_none_nonempty {a b : ContiguousIntegerSet}
    (ha : a.start ≤ a.end_) (hb : b.start ≤ b.end_)
    (h : a.coalesce_with b = none) :
    a.start > b.end_ + 1 ∨ a.end_ + 1 < b.start := by
  unfold ContiguousIntegerSet.coalesce_with ContiguousIntegerSet.is_empty at h
  split_ifs at h with h1 h2 h3 h4
  · exfalso; simp only [Bool.and_eq_true, decide_eq_true_eq] at h1; omega
  · simp only [Bool.or_eq_true, decide_eq_true_eq] at h4
    exact h4

/-- Main specification of the coalescing fold: on a sorted list of non-empty
intervals it produces a canonical list with the same integer members, whose
head keeps the first start. -/
theorem coalesce_go_spec :
    ∀ (rest : List ContiguousIntegerSet) (cur : ContiguousIntegerSet),
    cur.start ≤ cur.end_ → (∀ c ∈ rest, c.start ≤ c.end_) →
    SortedByStart (cur :: rest) →
    Canon (coalesce_go cur rest) ∧
      (∀ x, memL (coalesce_go cur rest) x ↔ memC cur x ∨ memL rest x) ∧
      (∃ c₀ tail, coalesce_go cur rest = c₀ :: tail ∧ c₀.start = cur.start) := by
  intro rest
  induction rest with
  | nil =>
    intro cur hcur _ _
    have hunf : coalesce_go cur [] = [cur] := rfl
    rw [hunf]
    refine ⟨?_, ?_, cur, [], rfl, rfl⟩
    · constructor
      · intro c hc
        simp only [List.mem_singleton] at hc
        subst hc; exact hcur
      · simp
    · intro x
      rw [memL_cons]
  | cons b rest ih =>
    intro cur hcur hne hsorted
    have hb : b.start ≤ b.end_ := hne b (by simp)
    have hrest : ∀ c ∈ rest, c.start ≤ c.end_ := fun c hc => hne c (by simp [hc])
    have hcb : cur.start ≤ b.start := (List.chain'_cons.1 hsorted).1
    have hbrest : SortedByStart (b :: rest) := (List.chain'_cons.1 hsorted).2
    cases hm : cur.coalesce_with b with
    | some merged =>
      have hunf : coalesce_go cur (b :: rest) = coalesce_go merged rest := by
        simp only [coalesce_go, hm]
      rw [hunf]
      rcases coalesce_with_some_nonempty hcur hb hm with ⟨hms, hme, ht1, ht2⟩
      have hms' : merged.start = cur.start := by omega
      have hmerged_ne : merged.start ≤ merged.end_ := by omega
      have hsorted' : SortedByStart (merged :: rest) := by
        rw [SortedByStart, List.chain'_cons']
        refine ⟨?_, (List.chain'_cons'.1 hbrest).2⟩
        intro z hz
        have := (List.chain'_cons'.1 hbrest).1 z hz
        omega
      rcases ih merged hmerged_ne hrest hsorted' with ⟨hcanon, hmem, c₀, tail, heq, hstart⟩
      refine ⟨hcanon, ?_, c₀, tail, heq, by omega⟩
      intro x
      rw [hmem x]
      have hiff : memC merged x ↔ memC cur x ∨ memC b x := by
        unfold memC
        omega
      rw [hiff, memL_cons]
      tauto
    | none =>
      have hunf : coalesce_go cur (b :: rest) = cur :: coalesce_go b rest := by
        simp only [coalesce_go, hm]
      rw [hunf]
      have hgap := coalesce_with_none_nonempty hcur hb hm
      have hgap' : cur.end_ + 1 < b.start := by omega
      rcases ih b hb hrest hbrest with ⟨hcanon, hmem, c₀, tail, heq, hstart⟩
      refine ⟨?_, ?_, cur, coalesce_go b rest, rfl, rfl⟩
      · rw [Canon.cons_iff]
        refine ⟨hcur, hcanon, ?_⟩
        intro d hd
        rw [heq] at hd
        simp only [List.head?_cons, Option.mem_def, Option.some.injEq] at hd
        subst hd
        omega
      · intro x
        rw [memL_cons, hmem x, memL_cons]

/-- Specification of the full sort-and-coalesce pass: for any list of non-empty
intervals it returns a canonical list with the same members. -/
theorem coalesce_intervals_spec (l : List ContiguousIntegerSet)
    (hne : ∀ c ∈ l, c.start ≤ c.end_) :
    Canon (coalesce_intervals l) ∧
      (∀ x, memL (coalesce_intervals l) x ↔ memL l x) := by
  have hperm := sort_by_start_perm l
  have hsorted := sort_by_start_sorted l
  have hmemperm : ∀ x, memL (sort_by_start l) x ↔ memL l x := by
    intro x
    unfold memL
    constructor
    · rintro ⟨c, hc, hm⟩; exact ⟨c, hperm.subset hc, hm⟩
    · rintro ⟨c, hc, hm⟩; exact ⟨c, hperm.symm.subset hc, hm⟩
  have hne' : ∀ c ∈ sort_by_start l, c.start ≤ c.end_ := fun c hc => hne c (hperm.subset hc)
  unfold coalesce_intervals
  cases hs : sort_by_start l with
  | nil =>
    constructor
    · exact Canon.nil
    · intro x
      rw [← hmemperm x, hs]
  | cons a rest =>
    rw [hs] at hne' hsorted hmemperm
    rcases coalesce_go_spec rest a (hne' a (by simp)) (fun c hc => hne' c (by simp [hc]))
      hsorted with ⟨hcanon, hmem, _⟩
    refine ⟨hcanon, ?_⟩
    intro x
    rw [hmem x, ← hmemperm x, memL_cons]

/-- A canonical fragment list is uniquely determined by its integer members. -/
theorem canon_unique :
    ∀ (l₁ l₂ : List ContiguousIntegerSet), Canon l₁ → Canon l₂ →
    (∀ x, memL l₁ x ↔ memL l₂ x) → l₁ = l₂ := by
  intro l₁
  induction l₁ with
  | nil =>
    intro l₂ _ h₂ hsem
    cases l₂ with
    | nil => rfl
    | cons b l₂' =>
      exfalso
      have hb : b.start ≤ b.end_ := ((Canon.cons_iff b l₂').1 h₂).1
      have : memL (b :: l₂') b.start := ⟨b, by simp, le_refl _, hb⟩
      exact memL_nil b.start ((hsem b.start).2 this)
  | cons a l₁' ih =>
    intro l₂ h₁ h₂ hsem
    have ha : a.start ≤ a.end_ := ((Canon.cons_iff a l₁').1 h₁).1
    cases l₂ with
    | nil =>
      exfalso
      have : memL (a :: l₁') a.start := ⟨a, by simp, le_refl _, ha⟩
      exact memL_nil a.start ((hsem a.start).1 this)
    | cons b l₂' =>
      have hb : b.start ≤ b.end_ := ((Canon.cons_iff b l₂').1 h₂).1
      have hstart : a.start = b.start := by
        have h1 : b.start ≤ a.start :=
          Canon.head_start_le_mem h₂ ((hsem a.start).1 ⟨a, by simp, le_refl _, ha⟩)
        have h2 : a.start ≤ b.start :=
          Canon.head_start_le_mem h₁ ((hsem b.start).2 ⟨b, by simp, le_refl _, hb⟩)
        omega
      have hend : a.end_ = b.end_ := by
        by_contra hne
        rcases lt_or_gt_of_ne hne with hlt | hgt
        · have hmem : memL (b :: l₂') (a.end_ + 1) := ⟨b, by simp, by omega, by omega⟩
          have : memL (a :: l₁') (a.end_ + 1) := (hsem _).2 hmem
          rcases (memL_cons _ _ _).1 this with hin | htail
          · rcases hin with ⟨_, h2⟩; omega
          · have := Canon.mem_head_lt_tail h₁ htail; omega
        · have hmem : memL (a :: l₁') (b.end_ + 1) := ⟨a, by simp, by omega, by omega⟩
          have : memL (b :: l₂') (b.end_ + 1) := (hsem _).1 hmem
          rcases (memL_cons _ _ _).1 this with hin | htail
          · rcases hin with ⟨_, h2⟩; omega
          · have := Canon.mem_head_lt_tail h₂ htail; omega
      have hab : a = b := by
        cases a; cases b
        simp only [ContiguousIntegerSet.mk.injEq]
        exact ⟨hstart, hend⟩
      subst hab
      have htails : ∀ x, memL l₁' x ↔ memL l₂' x := by
        intro x
        constructor
        · intro hx
          have hgt := Canon.mem_head_lt_tail h₁ hx
          have : memL (a :: l₂') x := (hsem x).1 ((memL_cons _ _ _).2 (Or.inr hx))
          rcases (memL_cons _ _ _).1 this with hin | htail
          · rcases hin with ⟨_, h2⟩; omega
          · exact htail
        · intro hx
          have hgt := Canon.mem_head_lt_tail h₂ hx
          have : memL (a :: l₁') x := (hsem x).2 ((memL_cons _ _ _).2 (Or.inr hx))
          rcases (memL_cons _ _ _).1 this with hin | htail
          · rcases hin with ⟨_, h2⟩; omega
          · exact htail
      rw [ih l₂' (Canon.of_cons h₁) (Canon.of_cons h₂) htails]

theorem is_empty_iff (c : ContiguousIntegerSet) :
    c.is_empty = true ↔ c.end_ < c.start := by
  simp [ContiguousIntegerSet.is_empty]

theorem is_empty_false_iff (c : ContiguousIntegerSet) :
    c.is_empty = false ↔ c.start ≤ c.end_ := by
  simp [ContiguousIntegerSet.is_empty]

theorem memC_mk (s e x : Int) : memC ⟨s, e⟩ x ↔ s ≤ x ∧ x ≤ e := Iff.rfl

theorem memL_single (u : ContiguousIntegerSet) (x : Int) : memL [u] x ↔ memC u x := by
  simp [memL]

theorem memL_two (u v : ContiguousIntegerSet) (x : Int) :
    memL [u, v] x ↔ memC u x ∨ memC v x := by
  simp [memL]

theorem canon_single {u : ContiguousIntegerSet} (h : u.start ≤ u.end_) : Canon [u] :=
  ⟨by simpa using h, List.chain'_singleton u⟩

theorem canon_two {u v : ContiguousIntegerSet} (h1 : u.start ≤ u.end_)
    (h2 : v.start ≤ v.end_) (h3 : u.end_ + 1 < v.start) : Canon [u, v] := by
  refine ⟨?_, ?_⟩
  · intro c hc
    rcases List.mem_cons.1 hc with rfl | hc
    · exact h1
    · simp only [List.mem_singleton] at hc; subst hc; exact h2
  · rw [List.chain'_cons]
    exact ⟨h3, List.chain'_singleton v⟩

/-- Pointwise specification of `intersect`: its members are exactly the common
members. -/
theorem intersect_mem (a b : ContiguousIntegerSet) (x : Int) :
    memOptC (a.intersect b) x ↔ memC a x ∧ memC b x := by
  unfold ContiguousIntegerSet.intersect
  split_ifs with h
  · simp only [Bool.or_eq_true, ContiguousIntegerSet.is_empty, decide_eq_true_eq] at h
    simp only [memOptC, memC]
    constructor
    · rintro ⟨c, hc, _⟩; cases hc
    · rintro ⟨⟨h1, h2⟩, ⟨h3, h4⟩⟩; omega
  · simp only [Bool.or_eq_true, ContiguousIntegerSet.is_empty, decide_eq_true_eq,
      not_or, not_lt] at h
    simp only [memOptC, memC]
    constructor
    · rintro ⟨c, hc, hm⟩
      rcases Option.some.inj hc with rfl
      simp only [le_max_iff, min_le_iff] at hm
      refine ⟨⟨?_, ?_⟩, ?_, ?_⟩ <;> omega
    · rintro ⟨⟨h1, h2⟩, ⟨h3, h4⟩⟩
      refine ⟨⟨max a.start b.start, min a.end_ b.end_⟩, rfl, ?_, ?_⟩
      · show max a.start b.start ≤ x
        omega
      · show x ≤ min a.end_ b.end_
        omega

/-- The result of `intersect`, when it exists, is non-empty and has the hull
boundaries. -/
theorem intersect_some_bounds {a b i : ContiguousIntegerSet}
    (h : a.intersect b = some i) :
    i.start = max a.start b.start ∧ i.end_ = min a.end_ b.end_ ∧
      i.start ≤ i.end_ := by
  unfold ContiguousIntegerSet.intersect at h
  split_ifs at h with hc
  rcases Option.some.inj h with rfl
  simp only [Bool.or_eq_true, decide_eq_true_eq, not_or, not_lt,
    ContiguousIntegerSet.is_empty] at hc
  refine ⟨rfl, rfl, ?_⟩
  show max a.start b.start ≤ min a.end_ b.end_
  omega

theorem intersect_none_disjoint {a b : ContiguousIntegerSet}
    (h : a.intersect b = none) (x : Int) : ¬(memC a x ∧ memC b x) := by
  intro hx
  have := (intersect_mem a b x).2 hx
  rw [h] at this
  rcases this with ⟨c, hc, _⟩
  cases hc

/-- Pointwise and structural specification of contiguous subtraction. -/
theorem sub_cc_spec (a b : ContiguousIntegerSet) :
    Canon (a.sub b).intervals ∧
      (∀ x, memL (a.sub b).intervals x ↔ memC a x ∧ ¬ memC b x) := by
  by_cases h1 : a.is_empty = true
  · rw [ContiguousIntegerSet.is_empty, decide_eq_true_eq] at h1
    have he : (a.sub b).intervals = [] := by
      unfold ContiguousIntegerSet.sub
      rw [if_pos (by rw [ContiguousIntegerSet.is_empty, decide_eq_true_eq]; exact h1)]
      rfl
    rw [he]
    refine ⟨Canon.nil, fun x => ?_⟩
    constructor
    · intro hx; exact absurd hx (memL_nil x)
    · rintro ⟨⟨hx1, hx2⟩, _⟩; omega
  · rw [ContiguousIntegerSet.is_empty, decide_eq_true_eq, not_lt] at h1
    by_cases h2 : b.is_empty = true
    · rw [ContiguousIntegerSet.is_empty, decide_eq_true_eq] at h2
      have he : (a.sub b).intervals = [a] := by
        unfold ContiguousIntegerSet.sub
        rw [if_neg (by rw [ContiguousIntegerSet.is_empty, decide_eq_true_eq]; omega),
          if_pos (by rw [ContiguousIntegerSet.is_empty, decide_eq_true_eq]; exact h2)]
        rfl
      rw [he]
      refine ⟨canon_single h1, fun x => ?_⟩
      rw [memL_single]
      unfold memC
      constructor
      · intro hx; exact ⟨hx, by omega⟩
      · exact fun hx => hx.1
    · rw [ContiguousIntegerSet.is_empty, decide_eq_true_eq, not_lt] at h2
      have he : (a.sub b).intervals =
          (if b.start > a.start
            then [(⟨a.start, min a.end_ (b.start - 1)⟩ : ContiguousIntegerSet)] else []) ++
          (if max (b.end_ + 1) a.start ≤ a.end_
            then [(⟨max (b.end_ + 1) a.start, a.end_⟩ : ContiguousIntegerSet)] else []) := by
        unfold ContiguousIntegerSet.sub
        rw [if_neg (by rw [ContiguousIntegerSet.is_empty, decide_eq_true_eq]; omega),
          if_neg (by rw [ContiguousIntegerSet.is_empty, decide_eq_true_eq]; omega)]
        show _ ++ (if !(⟨max (b.end_ + 1) a.start, a.end_⟩ :
          ContiguousIntegerSet).is_empty then _ else _) = _
        congr 1
        by_cases hle : max (b.end_ + 1) a.start ≤ a.end_
        · rw [if_pos hle]
          have hd : (⟨max (b.end_ + 1) a.start, a.end_⟩ :
              ContiguousIntegerSet).is_empty = false := by
            rw [ContiguousIntegerSet.is_empty, decide_eq_false_iff_not]
            show ¬ max (b.end_ + 1) a.start > a.end_
            omega
          rw [hd]
          simp
        · rw [if_neg hle]
          have hd : (⟨max (b.end_ + 1) a.start, a.end_⟩ :
              ContiguousIntegerSet).is_empty = true := by
            rw [ContiguousIntegerSet.is_empty, decide_eq_true_eq]
            show max (b.end_ + 1) a.start > a.end_
            omega
          rw [hd]
          simp
      rw [he]
      by_cases hg1 : b.start > a.start <;>
        by_cases hg2 : max (b.end_ + 1) a.start ≤ a.end_
      · rw [if_pos hg1, if_pos hg2, List.singleton_append]
        refine ⟨canon_two (by show a.start ≤ min a.end_ (b.start - 1); omega)
          (by show max (b.end_ + 1) a.start ≤ a.end_; omega)
          (by show min a.end_ (b.start - 1) + 1 < max (b.end_ + 1) a.start; omega),
          fun x => ?_⟩
        rw [memL_two, memC_mk, memC_mk]
        unfold memC
        omega
      · rw [if_pos hg1, if_neg hg2, List.append_nil]
        refine ⟨canon_single (by show a.start ≤ min a.end_ (b.start - 1); omega), fun x => ?_⟩
        rw [memL_single, memC_mk]
        unfold memC
        omega
      · rw [if_neg hg1, if_pos hg2, List.nil_append]
        refine ⟨canon_single (by show max (b.end_ + 1) a.start ≤ a.end_; omega), fun x => ?_⟩
        rw [memL_single, memC_mk]
        unfold memC
        omega
      · rw [if_neg hg1, if_neg hg2, List.nil_append]
        refine ⟨Canon.nil, fun x => ?_⟩
        constructor
        · intro hx; exact absurd hx (memL_nil x)
        · unfold memC
          omega

/-! ## Claim theorems: C5, C6, C7, C8 -/
/-- C5: for all ranges A and B (including empty ones), the union of
`A.intersect(B)` and `A - B` equals A as a set of integers, and their
intersection is empty. -/
theorem claim_C5 : ∀ (A B : ContiguousIntegerSet) (x : Int),
    ((memOptC (A.intersect B) x ∨ memL (A.sub B).intervals x) ↔ memC A x) ∧
      ¬(memOptC (A.intersect B) x ∧ memL (A.sub B).intervals x) := by
  intro A B x
  have h1 := intersect_mem A B x
  have h2 := (sub_cc_spec A B).2 x
  rw [h1, h2]
  constructor
  · tauto
  · tauto

/-- C6 counterexample: for the empty range a = [5,2] and b = [10,20],
`a.coalesce_with(&b)` succeeds even though the claimed condition
`a.end + 1 >= b.start` fails, and the result is b rather than
`[min(a.start, b.start), max(a.end, b.end)]`. -/
theorem claim_C6_counterexample :
    (((⟨5, 2⟩ : ContiguousIntegerSet).coalesce_with ⟨10, 20⟩).isSome = true) ∧
      ¬((2 : Int) + 1 ≥ 10 ∧ (20 : Int) + 1 ≥ 5) ∧
      (⟨5, 2⟩ : ContiguousIntegerSet).coalesce_with ⟨10, 20⟩ ≠
        some ⟨min (5 : Int) 10, max (2 : Int) 20⟩ := by
  refine ⟨rfl, by omega, by decide⟩

/-- C6 (amended): for all NON-EMPTY ranges a and b, `a.coalesce_with(&b)`
returns Some iff the two ranges intersect or are adjacent
(`a.end + 1 >= b.start` and `b.end + 1 >= a.start`), and then the result is
`[min(a.start, b.start), max(a.end, b.end)]`.  (When exactly one side is empty
the code instead returns the other side unchanged, and None when both are
empty.) -/
theorem claim_C6 (a b : ContiguousIntegerSet)
    (ha : a.is_empty = false) (hb : b.is_empty = false) :
    (((a.coalesce_with b).isSome = true) ↔
      (a.end_ + 1 ≥ b.start ∧ b.end_ + 1 ≥ a.start)) ∧
      (∀ r, a.coalesce_with b = some r →
        r = ⟨min a.start b.start, max a.end_ b.end_⟩) := by
  rw [is_empty_false_iff] at ha hb
  constructor
  · constructor
    · intro hsome
      rcases Option.isSome_iff_exists.1 hsome with ⟨r, hr⟩
      rcases coalesce_with_some_nonempty ha hb hr with ⟨_, _, h3, h4⟩
      omega
    · intro hcond
      cases hc : a.coalesce_with b with
      | none =>
        have := coalesce_with_none_nonempty ha hb hc
        omega
      | some r => simp
  · intro r hr
    rcases coalesce_with_some_nonempty ha hb hr with ⟨h1, h2, _, _⟩
    cases r
    simp only [ContiguousIntegerSet.mk.injEq]
    exact ⟨h1, h2⟩

/-- C6 witness: the amended claim applied at the non-empty ranges [1,3] and
[4,5] (adjacent, so coalescing succeeds with hull [1,5]). -/
theorem claim_C6_witness :
    ((⟨1, 3⟩ : ContiguousIntegerSet).is_empty = false) ∧
      ((⟨4, 5⟩ : ContiguousIntegerSet).is_empty = false) ∧
      ((((⟨1, 3⟩ : ContiguousIntegerSet).coalesce_with ⟨4, 5⟩).isSome = true) ↔
        ((⟨1, 3⟩ : ContiguousIntegerSet).end_ + 1 ≥ (⟨4, 5⟩ : ContiguousIntegerSet).start ∧
          (⟨4, 5⟩ : ContiguousIntegerSet).end_ + 1 ≥ (⟨1, 3⟩ : ContiguousIntegerSet).start)) ∧
      (∀ r, (⟨1, 3⟩ : ContiguousIntegerSet).coalesce_with ⟨4, 5⟩ = some r →
        r = ⟨min (⟨1, 3⟩ : ContiguousIntegerSet).start (⟨4, 5⟩ : ContiguousIntegerSet).start,
          max (⟨1, 3⟩ : ContiguousIntegerSet).end_ (⟨4, 5⟩ : ContiguousIntegerSet).end_⟩) :=
  ⟨by decide, by decide, (claim_C6 ⟨1, 3⟩ ⟨4, 5⟩ (by decide) (by decide)).1,
    (claim_C6 ⟨1, 3⟩ ⟨4, 5⟩ (by decide) (by decide)).2⟩

/-- C7: the empty range is a subset of everything, and the strict-subset test
holds exactly when the subset test holds, the ranges differ, and the superset
is non-empty. -/
theorem claim_C7 :
    (∀ Em R : ContiguousIntegerSet, Em.is_empty = true → Em.is_subset_of R = true) ∧
      (∀ a b : ContiguousIntegerSet,
        a.is_strict_subset_of b = true ↔
          (a.is_subset_of b = true ∧ a ≠ b ∧ b.is_empty = false)) := by
  constructor
  · intro Em R h
    simp [ContiguousIntegerSet.is_subset_of, h]
  · intro a b
    simp only [ContiguousIntegerSet.is_strict_subset_of, Bool.and_eq_true,
      Bool.not_eq_true', beq_eq_false_iff_ne, ne_eq]
    tauto

/-- C7 witness: the empty range [3,1] is a subset of [0,0]. -/
theorem claim_C7_witness :
    ((⟨3, 1⟩ : ContiguousIntegerSet).is_empty = true) ∧
      ((⟨3, 1⟩ : ContiguousIntegerSet).is_subset_of ⟨0, 0⟩ = true) :=
  ⟨by decide, claim_C7.1 ⟨3, 1⟩ ⟨0, 0⟩ (by decide)⟩

/-- C8 counterexample: constructing the fixed-bin aggregator with bin size 0 is
a fatal assertion failure (a panic carrying the assertion message), not a
recoverable error value: the constructor's return type has no error variant at
all. -/
theorem claim_C8_counterexample :
    BinnedIntervalIter.new [((⟨0, 1⟩ : ContiguousIntegerSet), (1 : Int))] 0 AggregateOp.Sum =
      PanicOr.panicked "bin_size must be at least 1" := rfl

/-- C8 (amended): constructing `BinnedIntervalIter` with a non-positive bin
size is a fatal assertion failure (`assert!(bin_size >= 1, "bin_size must be
at least 1")`), not a recoverable error result. -/
theorem claim_C8 {V : Type} (iter : List (ContiguousIntegerSet × V))
    (bin_size : Int) (aggregate_op : AggregateOp) (h : bin_size ≤ 0) :
    BinnedIntervalIter.new iter bin_size aggregate_op =
      PanicOr.panicked "bin_size must be at least 1" := by
  unfold BinnedIntervalIter.new
  rw [if_pos (by omega)]

/-- C8 witness: the amended claim applied at bin size -3. -/
theorem claim_C8_witness :
    ((-3 : Int) ≤ 0) ∧
      BinnedIntervalIter.new [((⟨0, 1⟩ : ContiguousIntegerSet), (1 : Int))] (-3)
          AggregateOp.Max =
        PanicOr.panicked "bin_size must be at least 1" :=
  ⟨by decide, claim_C8 [((⟨0, 1⟩ : ContiguousIntegerSet), (1 : Int))] (-3)
    AggregateOp.Max (by decide)⟩

theorem binary_search_loop_spec {α : Type} [Inhabited α] (v : List α)
    (cmp : α → Ordering) (lo hi : Nat) (hmono : CmpMono v cmp lo hi) :
    ∀ (fuel start end_ : Nat), lo ≤ start → start ≤ end_ → end_ ≤ hi →
    end_ - start < fuel →
    (∀ i, lo ≤ i → i < start → cmp (v.getD i default) = Ordering.lt) →
    (∀ i, end_ < i → i ≤ hi → cmp (v.getD i default) = Ordering.gt) →
    (match binary_search_loop v cmp fuel start end_ with
      | Except.ok idx => lo ≤ idx ∧ idx ≤ hi ∧ cmp (v.getD idx default) = Ordering.eq
      | Except.error (some p) => lo ≤ p ∧ p ≤ hi + 1 ∧
          (∀ i, lo ≤ i → i < p → cmp (v.getD i default) = Ordering.lt) ∧
          (∀ i, p ≤ i → i ≤ hi → cmp (v.getD i default) = Ordering.gt)
      | Except.error none => False) := by
  intro fuel
  induction fuel with
  | zero =>
    intro start end_ _ _ _ hf _ _
    omega
  | succ fuel ih =>
    intro start end_ hlo hse hhi hf hleft hright
    have hmidlo : lo ≤ (start + end_) / 2 := by omega
    have hmidhi : (start + end_) / 2 ≤ hi := by omega
    show (match (if start < end_ then
        match cmp (v.getD ((start + end_) / 2) default) with
        | Ordering.lt => binary_search_loop v cmp fuel ((start + end_) / 2 + 1) end_
        | Ordering.gt => binary_search_loop v cmp fuel start ((start + end_) / 2)
        | Ordering.eq => Except.ok ((start + end_) / 2)
      else
        match cmp (v.getD ((start + end_) / 2) default) with
        | Ordering.eq => Except.ok ((start + end_) / 2)
        | Ordering.lt => Except.error (some ((start + end_) / 2 + 1))
        | Ordering.gt => Except.error (some ((start + end_) / 2))) with
      | Except.ok idx => _ | Except.error (some p) => _ | Except.error none => False)
    by_cases hlt : start < end_
    · rw [if_pos hlt]
      cases hcm : cmp (v.getD ((start + end_) / 2) default) with
      | lt =>
        have hmid2 : (start + end_) / 2 < end_ := by omega
        have := ih ((start + end_) / 2 + 1) end_ (by omega) (by omega) hhi (by omega)
          (fun i hi1 hi2 => by
            rcases Nat.lt_or_ge i start with hc | hc
            · exact hleft i hi1 hc
            · exact (hmono i ((start + end_) / 2) (by omega) (by omega) (by omega)).1 hcm)
          hright
        exact this
      | gt =>
        have hmid2 : (start + end_) / 2 < end_ := by omega
        have := ih start ((start + end_) / 2) hlo (by omega) (by omega) (by omega)
          hleft
          (fun i hi1 hi2 => by
            rcases Nat.lt_or_ge end_ i with hc | hc
            · exact hright i hc hi2
            · exact (hmono ((start + end_) / 2) i (by omega) (by omega) (by omega)).2 hcm)
        exact this
      | eq => exact ⟨hmidlo, hmidhi, hcm⟩
    · rw [if_neg hlt]
      have hmideq : (start + end_) / 2 = start := by omega
      have heq2 : start = end_ := by omega
      cases hcm : cmp (v.getD ((start + end_) / 2) default) with
      | eq => exact ⟨hmidlo, hmidhi, hcm⟩
      | lt =>
        refine ⟨by omega, by omega, ?_, ?_⟩
        · intro i hi1 hi2
          rcases Nat.lt_or_ge i start with hc | hc
          · exact hleft i hi1 hc
          · have : i = (start + end_) / 2 := by omega
            rw [this]; exact hcm
        · intro i hi1 hi2
          exact hright i (by omega) hi2
      | gt =>
        refine ⟨by omega, by omega, ?_, ?_⟩
        · intro i hi1 hi2
          exact hleft i hi1 (by omega)
        · intro i hi1 hi2
          rcases Nat.lt_or_ge end_ i with hc | hc
          · exact hright i hc hi2
          · have : i = (start + end_) / 2 := by omega
            rw [this]; exact hcm

/-- Top-level specification of the binary search on a comparator-monotone
region: it returns either an index with an Equal comparison, or the unique
order-preserving insertion point; Err(None) occurs only for an empty query
range. -/
theorem binary_search_with_cmp_spec {α : Type} [Inhabited α] (v : List α)
    (cmp : α → Ordering) (start end_exclusive : Nat)
    (hmono : CmpMono v cmp start (end_exclusive - 1))
    (hlt : start < end_exclusive) :
    (match binary_search_with_cmp v start end_exclusive cmp with
      | Except.ok idx => start ≤ idx ∧ idx < end_exclusive ∧
          cmp (v.getD idx default) = Ordering.eq
      | Except.error (some p) => start ≤ p ∧ p ≤ end_exclusive ∧
          (∀ i, start ≤ i → i < p → cmp (v.getD i default) = Ordering.lt) ∧
          (∀ i, p ≤ i → i < end_exclusive → cmp (v.getD i default) = Ordering.gt)
      | Except.error none => False) := by
  unfold binary_search_with_cmp
  rw [if_neg (by omega)]
  by_cases hg : cmp (v.getD start default) = Ordering.gt
  · rw [if_pos hg]
    refine ⟨le_refl _, by omega, by omega, ?_⟩
    intro i hi1 hi2
    exact (hmono start i (le_refl _) hi1 (by omega)).2 hg
  · rw [if_neg hg]
    by_cases hl : cmp (v.getD (end_exclusive - 1) default) = Ordering.lt
    · rw [if_pos hl]
      refine ⟨by omega, by omega, ?_, by omega⟩
      intro i hi1 hi2
      exact (hmono i (end_exclusive - 1) hi1 (by omega) (le_refl _)).1 hl
    · rw [if_neg hl]
      have := binary_search_loop_spec v cmp start (end_exclusive - 1) hmono
        (end_exclusive - 1 - start + 1) start (end_exclusive - 1)
        (le_refl _) (by omega) (le_refl _) (by omega)
        (by omega) (by intro i h1 h2; omega)
      cases hres : binary_search_loop v cmp (end_exclusive - 1 - start + 1) start
          (end_exclusive - 1) with
      | ok idx =>
        rw [hres] at this
        exact ⟨this.1, by omega, this.2.2⟩
      | error e =>
        cases e with
        | none => rw [hres] at this; exact this
        | some p =>
          rw [hres] at this
          rcases this with ⟨h1, h2, h3, h4⟩
          exact ⟨h1, by omega, h3, fun i hi1 hi2 => h4 i hi1 (by omega)⟩

theorem chainGapB_iff : ∀ (l : List ContiguousIntegerSet),
    chainGapB l = true ↔ l.Chain' (fun a b => a.end_ + 1 < b.start) := by
  intro l
  induction l with
  | nil => simp [chainGapB]
  | cons a t ih =>
    cases t with
    | nil => simp [chainGapB]
    | cons b rest =>
      rw [List.chain'_cons, ← ih]
      show ((decide (a.end_ + 1 < b.start)) && chainGapB (b :: rest)) = true ↔ _
      rw [Bool.and_eq_true, decide_eq_true_eq]

theorem canonB_iff (l : List ContiguousIntegerSet) : canonB l = true ↔ Canon l := by
  unfold canonB Canon
  rw [Bool.and_eq_true, List.all_eq_true, chainGapB_iff]
  simp

/-- Characterizations of the 3-way comparator used by `collect`. -/
theorem collect_cmp_lt (x : Int) (c : ContiguousIntegerSet) :
    ((if c.start > x + 1 then Ordering.gt
      else if c.end_ + 1 < x then Ordering.lt else Ordering.eq) = Ordering.lt) ↔
      (¬ c.start > x + 1 ∧ c.end_ + 1 < x) := by
  split_ifs with h1 h2 <;> simp_all

theorem collect_cmp_gt (x : Int) (c : ContiguousIntegerSet) :
    ((if c.start > x + 1 then Ordering.gt
      else if c.end_ + 1 < x then Ordering.lt else Ordering.eq) = Ordering.gt) ↔
      c.start > x + 1 := by
  split_ifs with h1 h2 <;> simp_all

theorem collect_cmp_eq (x : Int) (c : ContiguousIntegerSet) :
    ((if c.start > x + 1 then Ordering.gt
      else if c.end_ + 1 < x then Ordering.lt else Ordering.eq) = Ordering.eq) ↔
      (¬ c.start > x + 1 ∧ ¬ c.end_ + 1 < x) := by
  split_ifs with h1 h2 <;> simp_all

theorem coalesce_with_elem_some_nonempty {a : ContiguousIntegerSet} {x : Int}
    (ha : a.start ≤ a.end_) :
    (a.coalesce_with_elem x = if a.start > x + 1 ∨ a.end_ + 1 < x then none
      else some ⟨min a.start x, max a.end_ x⟩) := by
  unfold ContiguousIntegerSet.coalesce_with_elem
  rw [if_neg (by rw [ContiguousIntegerSet.is_empty, decide_eq_true_eq]; omega)]
  by_cases hc : a.start > x + 1 ∨ a.end_ + 1 < x
  · rw [if_pos hc, if_pos (by rcases hc with hc | hc <;> simp [hc])]
  · rw [if_neg hc, if_neg (by push_neg at hc; simp; omega)]

/-- Index-wise gap property of a canonical list. -/
theorem canon_getD_lt {l : List ContiguousIntegerSet} (h : Canon l) :
    ∀ i j, i < j → j < l.length →
      (l.getD i default).end_ + 1 < (l.getD j default).start := by
  have hstep : ∀ k, k + 1 < l.length →
      (l.getD k default).end_ + 1 < (l.getD (k + 1) default).start := by
    intro k hk
    have := List.chain'_iff_get.1 h.2 k (by omega)
    simpa [List.getD, List.get?_eq_getElem?, List.getD_eq_getElem?_getD,
      List.getElem?_eq_getElem (by omega : k < l.length),
      List.getElem?_eq_getElem (by omega : k + 1 < l.length), List.get_eq_getElem] using this
  intro i j hij hj
  induction j with
  | zero => omega
  | succ j ih =>
    rcases Nat.lt_or_ge i j with hc | hc
    · have h1 := ih (by omega) (by omega)
      have h2 := hstep j (by omega)
      have hne : (l.getD j default).start ≤ (l.getD j default).end_ := by
        have hmem : l.getD j default ∈ l := by
          rw [List.getD_eq_getElem?_getD, List.getElem?_eq_getElem (by omega : j < l.length)]
          exact List.getElem_mem _
        exact h.1 _ hmem
      omega
    · have : i = j := by omega
      subst this
      exact hstep i (by omega)

theorem canon_getD_nonempty {l : List ContiguousIntegerSet} (h : Canon l) :
    ∀ i, i < l.length → (l.getD i default).start ≤ (l.getD i default).end_ := by
  intro i hi
  have hmem : l.getD i default ∈ l := by
    rw [List.getD_eq_getElem?_getD, List.getElem?_eq_getElem hi]
    exact List.getElem_mem _
  exact h.1 _ hmem

theorem coalesce_with_none_of_gap {a b : ContiguousIntegerSet}
    (ha : a.start ≤ a.end_) (hb : b.start ≤ b.end_)
    (h : a.start > b.end_ + 1 ∨ a.end_ + 1 < b.start) :
    a.coalesce_with b = none := by
  unfold ContiguousIntegerSet.coalesce_with
  rw [if_neg (by rw [Bool.and_eq_true, ContiguousIntegerSet.is_empty,
      ContiguousIntegerSet.is_empty]; simp; omega),
    if_neg (by rw [ContiguousIntegerSet.is_empty, decide_eq_true_eq]; omega),
    if_neg (by rw [ContiguousIntegerSet.is_empty, decide_eq_true_eq]; omega),
    if_pos (by rcases h with h | h <;> simp [h])]

theorem set_getD_self (l : List ContiguousIntegerSet) (i : Nat) (h : i < l.length) :
    l.set i (l.getD i default) = l := by
  apply List.ext_getElem?
  intro n
  by_cases hn : n = i
  · subst hn
    rw [List.getElem?_set_self h, List.getD_eq_getElem?_getD,
      List.getElem?_eq_getElem h]
    rfl
  · exact List.getElem?_set_ne (by omega)

theorem getD_eq_of_getElem? {l : List ContiguousIntegerSet} {i : Nat}
    {v : ContiguousIntegerSet} (h : l[i]? = some v) : l.getD i default = v := by
  rw [List.getD_eq_getElem?_getD, h]
  rfl

/-- In a canonical list all members are bounded by the last fragment's end. -/
theorem canon_mem_le_last :
    ∀ (l : List ContiguousIntegerSet) (last : ContiguousIntegerSet), Canon l →
    l.getLast? = some last → ∀ x, memL l x → x ≤ last.end_ := by
  intro l
  induction l with
  | nil => intro last _ h; cases h
  | cons c t ih =>
    intro last hcanon hlast x hx
    cases t with
    | nil =>
      simp only [List.getLast?_singleton, Option.some.injEq] at hlast
      subst hlast
      rcases (memL_cons _ _ _).1 hx with hm | hm
      · exact hm.2
      · exact absurd hm (memL_nil x)
    | cons b t' =>
      have hlast' : (b :: t').getLast? = some last := by
        rw [← hlast]
        exact (List.getLast?_cons_cons ..).symm
      have htail : Canon (b :: t') := Canon.of_cons hcanon
      have hb : b.start ≤ b.end_ := ((Canon.cons_iff b t').1 htail).1
      rcases (memL_cons _ _ _).1 hx with hm | hm
      · have hgap : c.end_ + 1 < b.start := by
          rcases (Canon.cons_iff c (b :: t')).1 hcanon with ⟨_, _, hh⟩
          exact hh b (by simp)
        have hbs : b.start ≤ last.end_ :=
          ih last htail hlast' b.start ((memL_cons _ _ _).2 (Or.inl ⟨le_refl _, hb⟩))
        have := hm.2
        omega
      · exact ih last htail hlast' x hm

/-- When the collected item already lies inside fragment `i` of a canonical
list, the `Ok` branch of `collect` leaves the list unchanged. -/
theorem collect_ok_id {l : List ContiguousIntegerSet} (hcanon : Canon l)
    {i : Nat} (hi : i < l.length) {x : Int}
    (hmem : memC (l.getD i default) x) : collect_ok l i x = l := by
  have hne := canon_getD_nonempty hcanon i hi
  have h1 : (l.getD i default).coalesce_with_elem x = some (l.getD i default) := by
    rw [coalesce_with_elem_some_nonempty hne,
      if_neg (by rcases hmem with ⟨hm1, hm2⟩; omega)]
    have hmin : min (l.getD i default).start x = (l.getD i default).start := by
      rcases hmem with ⟨hm1, hm2⟩; omega
    have hmax : max (l.getD i default).end_ x = (l.getD i default).end_ := by
      rcases hmem with ⟨hm1, hm2⟩; omega
    rw [hmin, hmax]
  have hset : l.set i (((l.getD i default).coalesce_with_elem x).getD default) = l := by
    rw [h1, Option.getD_some]
    exact set_getD_self l i hi
  have hphase1 : collect_ok l i x =
      (match l[i + 1]? with
        | some next =>
          match next.coalesce_with (l.getD i default) with
          | some merged => (l.set i merged).eraseIdx (i + 1)
          | none => l
        | none => l) := by
    by_cases hipos : i > 0
    · have hgap := canon_getD_lt hcanon (i - 1) i (by omega) hi
      have hnone : (l.getD (i - 1) default).coalesce_with (l.getD i default) = none :=
        coalesce_with_none_of_gap (canon_getD_nonempty hcanon _ (by omega)) hne
          (Or.inr hgap)
      simp only [collect_ok, hset, if_pos hipos, hnone]
    · simp only [collect_ok, hset, if_neg hipos]
  rw [hphase1]
  cases hnext : l[i + 1]? with
  | none => rfl
  | some next =>
    have hlen : i + 1 < l.length := by
      by_contra hcon
      rw [List.getElem?_eq_none (by omega)] at hnext
      cases hnext
    have hnextd : l.getD (i + 1) default = next := getD_eq_of_getElem? hnext
    have hgap2 := canon_getD_lt hcanon i (i + 1) (by omega) hlen
    have hnone2 : next.coalesce_with (l.getD i default) = none := by
      refine coalesce_with_none_of_gap ?_ hne (Or.inl ?_)
      · rw [← hnextd]
        exact canon_getD_nonempty hcanon _ hlen
      · rw [← hnextd]
        omega
    simp only [hnone2]

/-- C9: for every OrderedIntegerSet satisfying the canonical invariant and
every integer x already contained in it, `collect(x)` leaves the set
completely unchanged. -/
theorem claim_C9 (S : OrderedIntegerSet) (x : Int) (hcanon : Canon S.intervals)
    (hx : memO S x) : S.collect x = S := by
  rcases S with ⟨l⟩
  simp only [memO] at hx
  simp only at hcanon
  rcases hx with ⟨c, hcl, hxc⟩
  have hlne : l ≠ [] := by intro h; subst h; cases hcl
  have hlast := List.getLast?_eq_getLast l hlne
  have hlastmem : l.getLast hlne ∈ l := List.mem_of_mem_getLast? hlast
  have hlast_ne : (l.getLast hlne).start ≤ (l.getLast hlne).end_ := hcanon.1 _ hlastmem
  have hxle : x ≤ (l.getLast hlne).end_ :=
    canon_mem_le_last l (l.getLast hlne) hcanon hlast x ⟨c, hcl, hxc⟩
  -- index of the containing fragment
  rcases List.mem_iff_getElem.1 hcl with ⟨k, hk, hkc⟩
  have hkd : l.getD k default = c := by
    rw [List.getD_eq_getElem?_getD, List.getElem?_eq_getElem hk, hkc]
    rfl
  have hlastd : l.getD (l.length - 1) default = l.getLast hlne := by
    rw [List.getD_eq_getElem?_getD,
      List.getElem?_eq_getElem (by
        have := List.length_pos.2 hlne
        omega : l.length - 1 < l.length)]
    simp [List.getLast_eq_getElem]
  show OrderedIntegerSet.collect ⟨l⟩ x = ⟨l⟩
  unfold OrderedIntegerSet.collect
  simp only [hlast]
  rw [if_neg (by omega)]
  by_cases hin : memC (l.getLast hlne) x
  · -- the item lies in the last fragment: fast path, replaced by itself
    have hco : (l.getLast hlne).coalesce_with_elem x = some (l.getLast hlne) := by
      rw [coalesce_with_elem_some_nonempty hlast_ne,
        if_neg (by rcases hin with ⟨h1, h2⟩; omega)]
      have hmin : min (l.getLast hlne).start x = (l.getLast hlne).start := by
        rcases hin with ⟨h1, h2⟩; omega
      have hmax : max (l.getLast hlne).end_ x = (l.getLast hlne).end_ := by
        rcases hin with ⟨h1, h2⟩; omega
      rw [hmin, hmax]
    simp only [hco]
    rw [OrderedIntegerSet.mk.injEq]
    exact List.dropLast_concat_getLast hlne
  · -- the item lies in an earlier fragment
    have hklast : k < l.length - 1 := by
      by_contra hcon
      have : k = l.length - 1 := by omega
      subst this
      rw [hlastd] at hkd
      rw [hkd] at hin
      exact hin hxc
    have hstartgap : (l.getLast hlne).start > x + 1 := by
      have := canon_getD_lt hcanon k (l.length - 1) hklast
        (by have := List.length_pos.2 hlne; omega)
      rw [hkd, hlastd] at this
      rcases hxc with ⟨h1, h2⟩
      omega
    have hco : (l.getLast hlne).coalesce_with_elem x = none := by
      rw [coalesce_with_elem_some_nonempty hlast_ne, if_pos (Or.inl hstartgap)]
    simp only [hco]
    -- binary search path
    have hlpos : 0 < l.length := List.length_pos.2 hlne
    have hmono : CmpMono l
        (fun interval => if interval.start > x + 1 then Ordering.gt
          else if interval.end_ + 1 < x then Ordering.lt else Ordering.eq)
        0 (l.length - 1) := by
      intro i j hi0 hij hjh
      constructor
      · intro hj
        simp only at hj ⊢
        rw [collect_cmp_lt] at hj ⊢
        rcases Nat.lt_or_ge i j with hij' | hij'
        · have hgap := canon_getD_lt hcanon i j (by omega) (by omega)
          have hnei := canon_getD_nonempty hcanon i (by omega)
          have hnej := canon_getD_nonempty hcanon j (by omega)
          omega
        · have : i = j := by omega
          rw [this]
          exact hj
      · intro hi
        simp only at hi ⊢
        rw [collect_cmp_gt] at hi ⊢
        rcases Nat.lt_or_ge i j with hij' | hij'
        · have hgap := canon_getD_lt hcanon i j (by omega) (by omega)
          have hnei := canon_getD_nonempty hcanon i (by omega)
          have hnej := canon_getD_nonempty hcanon j (by omega)
          omega
        · have : i = j := by omega
          rw [← this]
          exact hi
    have hspec := binary_search_with_cmp_spec l
      (fun interval => if interval.start > x + 1 then Ordering.gt
        else if interval.end_ + 1 < x then Ordering.lt else Ordering.eq)
      0 l.length hmono hlpos
    have hkcmp : (if (l.getD k default).start > x + 1 then Ordering.gt
        else if (l.getD k default).end_ + 1 < x then Ordering.lt
        else Ordering.eq) = Ordering.eq := by
      rw [hkd]
      rcases hxc with ⟨h1, h2⟩
      rw [if_neg (by omega), if_neg (by omega)]
    cases hres : binary_search_with_cmp l 0 l.length
        (fun interval => if interval.start > x + 1 then Ordering.gt
          else if interval.end_ + 1 < x then Ordering.lt else Ordering.eq) with
    | ok idx =>
      rw [hres] at hspec
      rcases hspec with ⟨_, hidxlen, hidxeq⟩
      simp only at hidxeq
      -- the found index is the containing fragment's index
      have hidxk : idx = k := by
        rw [collect_cmp_eq] at hidxeq
        by_contra hne2
        rcases Nat.lt_or_ge idx k with hc | hc
        · have hgap := canon_getD_lt hcanon idx k hc hk
          have hnei := canon_getD_nonempty hcanon idx (by omega)
          rw [hkd] at hgap
          rcases hxc with ⟨h1, h2⟩
          omega
        · have hc' : k < idx := by omega
          have hgap := canon_getD_lt hcanon k idx hc' (by omega)
          rw [hkd] at hgap
          rcases hxc with ⟨h1, h2⟩
          omega
      subst hidxk
      rw [OrderedIntegerSet.mk.injEq]
      exact collect_ok_id hcanon hk (by rw [hkd]; exact hxc)
    | error e =>
      cases e with
      | none => rw [hres] at hspec
      | some p =>
        rw [hres] at hspec
        rcases hspec with ⟨_, hple, hlt, hgt⟩
        exfalso
        rcases Nat.lt_or_ge k p with hc | hc
        · have := hlt k (by omega) hc
          simp only at this
          rw [collect_cmp_lt, hkd] at this
          rcases hxc with ⟨h1, h2⟩
          omega
        · have := hgt k hc hk
          simp only at this
          rw [collect_cmp_gt, hkd] at this
          rcases hxc with ⟨h1, h2⟩
          omega

/-- C9 witness: collecting the already present element 6 into the canonical
set {[1,3], [5,7]} leaves it unchanged. -/
theorem claim_C9_witness :
    Canon (⟨[⟨1, 3⟩, ⟨5, 7⟩]⟩ : OrderedIntegerSet).intervals ∧
      memO ⟨[⟨1, 3⟩, ⟨5, 7⟩]⟩ 6 ∧
      OrderedIntegerSet.collect ⟨[⟨1, 3⟩, ⟨5, 7⟩]⟩ 6 = ⟨[⟨1, 3⟩, ⟨5, 7⟩]⟩ :=
  ⟨(canonB_iff _).1 (by decide), by decide,
    claim_C9 ⟨[⟨1, 3⟩, ⟨5, 7⟩]⟩ 6 ((canonB_iff _).1 (by decide)) (by decide)⟩

theorem OrderedIntegerSet.eq_of_intervals {s t : OrderedIntegerSet}
    (h : s.intervals = t.intervals) : s = t := by
  cases s; cases t; simpa using h

/-- One sorted `collect` step: when the inserted element is at least every
current member, `collect` preserves canonicity and adds exactly that element
(this is the fast path of the source). -/
theorem collect_sorted_step (s : OrderedIntegerSet) (x : Int)
    (hcanon : Canon s.intervals)
    (hmax : ∀ y, memO s y → y ≤ x) :
    Canon (s.collect x).intervals ∧
      (∀ y, memO (s.collect x) y ↔ memO s y ∨ y = x) ∧
      (∀ y, memO (s.collect x) y → y ≤ x) := by
  rcases s with ⟨l⟩
  simp only [memO] at *
  cases hlast : l.getLast? with
  | none =>
    have hnil : l = [] := List.getLast?_eq_none_iff.mp hlast
    subst hnil
    show Canon (OrderedIntegerSet.collect ⟨[]⟩ x).intervals ∧ _
    unfold OrderedIntegerSet.collect
    simp only [List.getLast?_nil]
    refine ⟨canon_single (le_refl x), ?_, ?_⟩
    · intro y
      rw [memL_single, memC_mk]
      constructor
      · intro h; right; omega
      · rintro (h | rfl)
        · exact absurd h (memL_nil y)
        · omega
    · intro y h
      rw [memL_single, memC_mk] at h
      omega
  | some last =>
    have hlne : l ≠ [] := by
      intro h; subst h; cases hlast
    have hlastmem : last ∈ l := List.mem_of_mem_getLast? hlast
    have hlast_ne : last.start ≤ last.end_ := hcanon.1 _ hlastmem
    have hlastle : last.end_ ≤ x :=
      hmax last.end_ ⟨last, hlastmem, by omega, le_refl _⟩
    have hgl : l.getLast hlne = last := by
      rw [List.getLast?_eq_getLast l hlne] at hlast
      exact Option.some.inj hlast
    have hdecomp : l.dropLast ++ [last] = l := by
      rw [← hgl]
      exact List.dropLast_concat_getLast hlne
    unfold OrderedIntegerSet.collect
    simp only [hlast]
    by_cases hgt : x > last.end_ + 1
    · rw [if_pos hgt]
      have hchain := hcanon.2
      refine ⟨⟨?_, ?_⟩, ?_, ?_⟩
      · intro c hc
        rcases List.mem_append.1 hc with hc | hc
        · exact hcanon.1 c hc
        · simp only [List.mem_singleton] at hc; subst hc; exact le_refl _
      · rw [List.chain'_append]
        refine ⟨hchain, List.chain'_singleton _, ?_⟩
        intro a ha b hb
        simp only [List.head?_cons, Option.mem_def, Option.some.injEq] at hb
        subst hb
        rw [hlast] at ha
        simp only [Option.mem_def, Option.some.injEq] at ha
        subst ha
        show last.end_ + 1 < x
        omega
      · intro y
        rw [memL_append, memL_single, memC_mk]
        constructor
        · rintro (h | h)
          · exact Or.inl h
          · right; omega
        · rintro (h | rfl)
          · exact Or.inl h
          · right; omega
      · intro y h
        rw [memL_append, memL_single, memC_mk] at h
        rcases h with h | h
        · exact hmax y h
        · omega
    · rw [if_neg hgt]
      have hco : last.coalesce_with_elem x = some ⟨last.start, max last.end_ x⟩ := by
        rw [coalesce_with_elem_some_nonempty hlast_ne, if_neg (by omega)]
        have hmin : min last.start x = last.start := by omega
        rw [hmin]
      simp only [hco]
      have hchain := hcanon.2
      rw [← hdecomp, List.chain'_append] at hchain
      obtain ⟨hch1, _, hlink⟩ := hchain
      have hsem : ∀ y, memL l y ↔ memL l.dropLast y ∨ memC last y := by
        intro y
        conv_lhs => rw [← hdecomp]
        rw [memL_append, memL_single]
      refine ⟨⟨?_, ?_⟩, ?_, ?_⟩
      · intro c hc
        rcases List.mem_append.1 hc with hc | hc
        · exact hcanon.1 c (List.dropLast_subset l hc)
        · simp only [List.mem_singleton] at hc; subst hc
          show last.start ≤ max last.end_ x
          omega
      · rw [List.chain'_append]
        refine ⟨hch1, List.chain'_singleton _, ?_⟩
        intro a ha b hb
        simp only [List.head?_cons, Option.mem_def, Option.some.injEq] at hb
        subst hb
        show a.end_ + 1 < last.start
        exact hlink a ha last (by simp)
      · intro y
        rw [memL_append, memL_single, memC_mk, hsem y]
        unfold memC
        constructor
        · rintro (h | h)
          · exact Or.inl (Or.inl h)
          · by_cases hyx : y = x
            · exact Or.inr hyx
            · left; right; constructor <;> omega
        · rintro ((h | h) | rfl)
          · exact Or.inl h
          · right; omega
          · right; omega
      · intro y h
        rw [memL_append, memL_single, memC_mk] at h
        rcases h with h | h
        · exact hmax y ((hsem y).2 (Or.inl h))
        · omega

/-- Folding sorted elements through `collect` builds the canonical set of
exactly those elements. -/
theorem foldl_collect_sorted :
    ∀ (xs : List Int) (s : OrderedIntegerSet),
    xs.Sorted (fun a b : Int => a ≤ b) → Canon s.intervals →
    (∀ y, memO s y → ∀ z ∈ xs, y ≤ z) →
    Canon (xs.foldl (fun t x => t.collect x) s).intervals ∧
      (∀ y, memO (xs.foldl (fun t x => t.collect x) s) y ↔ memO s y ∨ y ∈ xs) := by
  intro xs
  induction xs with
  | nil =>
    intro s _ hcanon _
    exact ⟨hcanon, fun y => by simp⟩
  | cons x xs' ih =>
    intro s hsorted hcanon hbound
    rcases List.sorted_cons.1 hsorted with ⟨hxall, hsorted'⟩
    have hstep := collect_sorted_step s x hcanon
      (fun y hy => hbound y hy x (by simp))
    have hbound' : ∀ y, memO (s.collect x) y → ∀ z ∈ xs', y ≤ z := by
      intro y hy z hz
      rcases (hstep.2.1 y).1 hy with hm | rfl
      · exact hbound y hm z (by simp [hz])
      · exact hxall z hz
    have hrec := ih (s.collect x) hsorted' hstep.1 hbound'
    refine ⟨hrec.1, ?_⟩
    intro y
    rw [show (x :: xs').foldl (fun t x => t.collect x) s =
      xs'.foldl (fun t x => t.collect x) (s.collect x) from rfl, hrec.2 y, hstep.2.1 y]
    simp only [List.mem_cons]
    tauto

/-- Specification of `from_slice` on singleton pairs: it builds the canonical
set of the listed elements. -/
theorem from_slice_singletons_spec (xs : List Int) :
    Canon (OrderedIntegerSet.from_slice (xs.map fun x => (x, x))).intervals ∧
      (∀ y, memO (OrderedIntegerSet.from_slice (xs.map fun x => (x, x))) y ↔ y ∈ xs) := by
  unfold OrderedIntegerSet.from_slice
  have hne : ∀ c ∈ (((xs.map fun x => (x, x)).map
      (fun p => (⟨p.1, p.2⟩ : ContiguousIntegerSet))).filter (fun c => !c.is_empty)),
      c.start ≤ c.end_ := by
    intro c hc
    have := List.of_mem_filter hc
    rw [Bool.not_eq_true', is_empty_false_iff] at this
    exact this
  rcases coalesce_intervals_spec _ hne with ⟨hcanon, hmem⟩
  refine ⟨hcanon, ?_⟩
  intro y
  show memL _ y ↔ _
  rw [hmem y]
  unfold memL
  constructor
  · rintro ⟨c, hc, hm⟩
    have hc2 := List.mem_of_mem_filter hc
    rcases List.mem_map.1 hc2 with ⟨p, hp, rfl⟩
    rcases List.mem_map.1 hp with ⟨x, hx, rfl⟩
    rw [memC_mk] at hm
    have : y = x := by omega
    subst this
    exact hx
  · intro hy
    refine ⟨⟨y, y⟩, ?_, le_refl y, le_refl y⟩
    rw [List.mem_filter]
    constructor
    · exact List.mem_map.2 ⟨(y, y), List.mem_map.2 ⟨y, hy, rfl⟩, rfl⟩
    · rw [Bool.not_eq_true', is_empty_false_iff]

/-- C4 counterexample: collecting the elements 0, 2, 1 one at a time produces
the fragments [0,0],[1,2] (the fast path extends the last fragment leftward
without re-merging with its left neighbour), while bulk construction from the
singletons produces [0,2]. -/
theorem claim_C4_counterexample :
    ¬ (([0, 2, 1] : List Int).foldl (fun s x => s.collect x) OrderedIntegerSet.new =
      OrderedIntegerSet.from_slice (([0, 2, 1] : List Int).map fun x => (x, x))) := by
  decide

/-- C4 (amended): for every NON-DECREASING list of integers xs, inserting the
elements one at a time via `collect` starting from the empty set produces
exactly the same canonical fragment list as bulk construction via `from_slice`
from the singleton ranges.  (For unsorted input the two can differ, because
the fast path of `collect` can extend the last fragment leftward into
adjacency with its left neighbour without re-coalescing.) -/
theorem claim_C4 (xs : List Int) (hsorted : xs.Sorted (fun a b : Int => a ≤ b)) :
    xs.foldl (fun s x => s.collect x) OrderedIntegerSet.new =
      OrderedIntegerSet.from_slice (xs.map fun x => (x, x)) := by
  have hfold := foldl_collect_sorted xs OrderedIntegerSet.new hsorted
    ⟨(by intro c hc; cases hc), List.chain'_nil⟩
    (by intro y hy; rcases hy with ⟨c, hc, _⟩; cases hc)
  have hslice := from_slice_singletons_spec xs
  apply OrderedIntegerSet.eq_of_intervals
  apply canon_unique _ _ hfold.1 hslice.1
  intro y
  show memO _ y ↔ memO _ y
  rw [hfold.2 y, hslice.2 y]
  constructor
  · rintro (h | h)
    · rcases h with ⟨c, hc, _⟩; cases hc
    · exact h
  · exact fun h => Or.inr h

/-- C4 witness: the amended claim applied to the sorted list [1,4,5,7,8,9]. -/
theorem claim_C4_witness :
    (([1, 4, 5, 7, 8, 9] : List Int).Sorted (fun a b : Int => a ≤ b)) ∧
      ([1, 4, 5, 7, 8, 9] : List Int).foldl (fun s x => s.collect x)
          OrderedIntegerSet.new =
        OrderedIntegerSet.from_slice
          (([1, 4, 5, 7, 8, 9] : List Int).map fun x => (x, x)) :=
  ⟨by decide, claim_C4 [1, 4, 5, 7, 8, 9] (by decide)⟩

theorem partOK_nil : PartOK [] := ⟨by simp, List.chain'_nil⟩

theorem partOK_cons_iff (c : ContiguousIntegerSet) (l : List ContiguousIntegerSet) :
    PartOK (c :: l) ↔
      c.start ≤ c.end_ ∧ PartOK l ∧ (∀ b ∈ l.head?, c.end_ < b.start) := by
  unfold PartOK
  rw [List.chain'_cons']
  constructor
  · rintro ⟨hne, hh, hch⟩
    exact ⟨hne c (by simp), ⟨fun d hd => hne d (by simp [hd]), hch⟩, hh⟩
  · rintro ⟨hc, ⟨hne, hch⟩, hh⟩
    refine ⟨?_, hh, hch⟩
    intro d hd
    rcases List.mem_cons.1 hd with h | h
    · exact h ▸ hc
    · exact hne d h

theorem partOK_head_lt_tail {c : ContiguousIntegerSet} {l : List ContiguousIntegerSet}
    (h : PartOK (c :: l)) : ∀ d ∈ l, c.end_ < d.start := by
  induction l generalizing c with
  | nil => simp
  | cons b rest ih =>
    rcases (partOK_cons_iff c (b :: rest)).1 h with ⟨hc, htail, hh⟩
    have hcb : c.end_ < b.start := hh b (by simp)
    have hb : b.start ≤ b.end_ := ((partOK_cons_iff b rest).1 htail).1
    intro d hd
    rcases List.mem_cons.1 hd with rfl | hd'
    · omega
    · have := ih htail d hd'
      omega

theorem intersect_none_cases {a b : ContiguousIntegerSet}
    (ha : a.start ≤ a.end_) (hb : b.start ≤ b.end_)
    (h : a.intersect b = none) : a.end_ < b.start ∨ b.end_ < a.start := by
  unfold ContiguousIntegerSet.intersect at h
  split_ifs at h with hc
  simp only [Bool.or_eq_true, is_empty_iff, decide_eq_true_eq] at hc
  omega

theorem effList_cons (l0 : ContiguousIntegerSet) (ltail : List ContiguousIntegerSet)
    (lr : Option ContiguousIntegerSet) :
    effList (l0 :: ltail) lr = lr.getD l0 :: ltail := by
  cases lr <;> rfl

/-- Pure-interval cover identity for the intersecting step of the sweep: the
prefix pieces, the intersection and the remnant pieces cover exactly the two
current ranges. -/
theorem some_branch_cover (L R inter : ContiguousIntegerSet)
    (hL : L.start ≤ L.end_) (hR : R.start ≤ R.end_)
    (hIs : inter.start = max L.start R.start)
    (hIe : inter.end_ = min L.end_ R.end_)
    (hIne : inter.start ≤ inter.end_) (x : Int) :
    memL ((if L.start < inter.start then [⟨L.start, inter.start - 1⟩] else []) ++
        (if R.start < inter.start then [⟨R.start, inter.start - 1⟩] else []) ++
        [inter] ++
        (if inter.end_ < L.end_ then [⟨inter.end_ + 1, L.end_⟩] else []) ++
        (if inter.end_ < R.end_ then [⟨inter.end_ + 1, R.end_⟩] else [])) x ↔
      memC L x ∨ memC R x := by
  have hb1 : L.start ≤ inter.start := by rw [hIs]; exact le_max_left _ _
  have hb2 : R.start ≤ inter.start := by rw [hIs]; exact le_max_right _ _
  have hb3 : inter.start = L.start ∨ inter.start = R.start := by
    rw [hIs]; exact max_choice _ _
  have he1 : inter.end_ ≤ L.end_ := by rw [hIe]; exact min_le_left _ _
  have he2 : inter.end_ ≤ R.end_ := by rw [hIe]; exact min_le_right _ _
  have he3 : inter.end_ = L.end_ ∨ inter.end_ = R.end_ := by
    rw [hIe]; exact min_choice _ _
  by_cases h1 : L.start < inter.start <;> by_cases h2 : R.start < inter.start <;>
    by_cases h3 : inter.end_ < L.end_ <;> by_cases h4 : inter.end_ < R.end_ <;>
    simp only [h1, h2, h3, h4, if_true, if_false, memL_append, memL_single,
      memL_nil, memC, false_or, or_false] <;>
    rcases hb3 with hb3 | hb3 <;> rcases he3 with he3 | he3 <;> omega

theorem effList_none (ls : List ContiguousIntegerSet) : effList ls none = ls := rfl

theorem memL_nil_iff (x : Int) : memL [] x ↔ False := by simp [memL]

theorem memL_ite_single (p : Prop) [Decidable p] (c : ContiguousIntegerSet) (x : Int) :
    memL (if p then [c] else []) x ↔ (if p then memC c x else False) := by
  split_ifs <;> simp [memL_single, memL_nil_iff]

/-- Propositional skeleton combining the interval cover identity with the
recursive membership description. -/
theorem cover_prop {P1 P2 I R1 R2 CL CR ML MR RC : Prop}
    (hcov : (((P1 ∨ P2) ∨ I) ∨ R1) ∨ R2 ↔ CL ∨ CR)
    (hM : RC ↔ (R1 ∨ ML) ∨ (R2 ∨ MR)) :
    (P1 ∨ P2) ∨ (I ∨ RC) ↔ (CL ∨ ML) ∨ (CR ∨ MR) := by
  tauto

/-- Assembly of one intersecting step of the refinement sweep: prefix pieces,
then the intersection, then the recursive result (whose behaviour is given by
the remnant-adjusted membership `hrecM` and the lower bound `hrecLB`). -/
theorem glue_spec (L R inter : ContiguousIntegerSet)
    (rec : List ContiguousIntegerSet) (MrecL MrecR : Int → Prop)
    (hLne : L.start ≤ L.end_) (hRne : R.start ≤ R.end_)
    (hIs : inter.start = max L.start R.start)
    (hIe : inter.end_ = min L.end_ R.end_)
    (hIne : inter.start ≤ inter.end_)
    (hPrec : PartOK rec)
    (hrecLB : ∀ c ∈ rec, inter.end_ + 1 ≤ c.start)
    (hrecM : ∀ x, memL rec x ↔
      ((if inter.end_ < L.end_ then memC ⟨inter.end_ + 1, L.end_⟩ x else False) ∨ MrecL x) ∨
      ((if inter.end_ < R.end_ then memC ⟨inter.end_ + 1, R.end_⟩ x else False) ∨ MrecR x)) :
    PartOK ((if L.start < inter.start then [⟨L.start, inter.start - 1⟩] else []) ++
        (if R.start < inter.start then [⟨R.start, inter.start - 1⟩] else []) ++
        inter :: rec) ∧
    (∀ x, memL ((if L.start < inter.start then [⟨L.start, inter.start - 1⟩] else []) ++
        (if R.start < inter.start then [⟨R.start, inter.start - 1⟩] else []) ++
        inter :: rec) x ↔ (memC L x ∨ MrecL x) ∨ (memC R x ∨ MrecR x)) ∧
    (∀ b : Int, b ≤ L.start → b ≤ R.start →
      ∀ c ∈ ((if L.start < inter.start then [⟨L.start, inter.start - 1⟩] else []) ++
        (if R.start < inter.start then [⟨R.start, inter.start - 1⟩] else []) ++
        inter :: rec), b ≤ c.start) := by
  have hIsL : L.start ≤ inter.start := by rw [hIs]; exact le_max_left _ _
  have hIsR : R.start ≤ inter.start := by rw [hIs]; exact le_max_right _ _
  have hIeL : inter.end_ ≤ L.end_ := by rw [hIe]; exact min_le_left _ _
  have hIeR : inter.end_ ≤ R.end_ := by rw [hIe]; exact min_le_right _ _
  have hPrecI : PartOK (inter :: rec) := by
    refine (partOK_cons_iff _ _).2 ⟨hIne, hPrec, ?_⟩
    intro c hc
    have := hrecLB c (List.mem_of_mem_head? hc)
    omega
  refine ⟨?_, ?_, ?_⟩
  · by_cases hp1 : L.start < inter.start <;> by_cases hp2 : R.start < inter.start
    · exfalso
      rcases max_choice L.start R.start with h | h <;> rw [h] at hIs <;> omega
    · rw [if_pos hp1, if_neg hp2]
      show PartOK (ContiguousIntegerSet.mk L.start (inter.start - 1) :: inter :: rec)
      refine (partOK_cons_iff _ _).2 ⟨?_, hPrecI, ?_⟩
      · show L.start ≤ inter.start - 1
        omega
      · intro c hc
        simp only [List.head?_cons, Option.mem_def, Option.some.injEq] at hc
        subst hc
        show inter.start - 1 < inter.start
        omega
    · rw [if_neg hp1, if_pos hp2]
      show PartOK (ContiguousIntegerSet.mk R.start (inter.start - 1) :: inter :: rec)
      refine (partOK_cons_iff _ _).2 ⟨?_, hPrecI, ?_⟩
      · show R.start ≤ inter.start - 1
        omega
      · intro c hc
        simp only [List.head?_cons, Option.mem_def, Option.some.injEq] at hc
        subst hc
        show inter.start - 1 < inter.start
        omega
    · rw [if_neg hp1, if_neg hp2]
      show PartOK (inter :: rec)
      exact hPrecI
  · intro x
    have hcov := some_branch_cover L R inter hLne hRne hIs hIe hIne x
    simp only [memL_append, memL_single, memL_cons, memL_ite_single, memL_nil_iff,
      or_false, false_or] at hcov ⊢
    exact cover_prop hcov (hrecM x)
  · intro b hbL hbR c hc
    rcases List.mem_append.1 hc with hc1 | hc2
    · rcases List.mem_append.1 hc1 with hcp | hcp
      · by_cases hp1 : L.start < inter.start
        · rw [if_pos hp1] at hcp
          simp only [List.mem_singleton] at hcp
          subst hcp
          show b ≤ L.start
          exact hbL
        · rw [if_neg hp1] at hcp
          simp at hcp
      · by_cases hp2 : R.start < inter.start
        · rw [if_pos hp2] at hcp
          simp only [List.mem_singleton] at hcp
          subst hcp
          show b ≤ R.start
          exact hbR
        · rw [if_neg hp2] at hcp
          simp at hcp
    · rcases List.mem_cons.1 hc2 with rfl | hc5
      · omega
      · have := hrecLB c hc5
        omega

/-- Full specification of the refinement sweep loop: given valid effective
partitions on both sides, the output is a valid partition whose members are
exactly the union, and every common lower bound on the starts persists. -/
theorem gcr_loop_spec (fuel : Nat) :
    ∀ (ls rs : List ContiguousIntegerSet) (lr rr : Option ContiguousIntegerSet),
    ls.length + rs.length < fuel →
    (∀ r, lr = some r → ls ≠ []) →
    (∀ r, rr = some r → rs ≠ []) →
    PartOK (effList ls lr) → PartOK (effList rs rr) →
    PartOK (gcr_loop fuel ls rs lr rr) ∧
      (∀ x, memL (gcr_loop fuel ls rs lr rr) x ↔
        memL (effList ls lr) x ∨ memL (effList rs rr) x) ∧
      (∀ b : Int, (∀ c ∈ effList ls lr, b ≤ c.start) →
        (∀ c ∈ effList rs rr, b ≤ c.start) →
        ∀ c ∈ gcr_loop fuel ls rs lr rr, b ≤ c.start) := by
  induction fuel with
  | zero => intro ls rs lr rr hfuel; omega
  | succ fuel ih =>
    intro ls rs lr rr hfuel hl hr hPL hPR
    cases ls with
    | nil =>
      have hlr : lr = none := by
        cases lr with
        | none => rfl
        | some r => exact absurd rfl (hl r rfl)
      subst hlr
      cases rs with
      | nil =>
        have hrr : rr = none := by
          cases rr with
          | none => rfl
          | some r => exact absurd rfl (hr r rfl)
        subst hrr
        refine ⟨partOK_nil, ?_, ?_⟩
        · intro x
          simp [gcr_loop, effList, memL_nil_iff]
        · intro b _ _ c hc
          simp [gcr_loop] at hc
      | cons r0 rtail =>
        cases rr with
        | none =>
          have hres : gcr_loop (fuel + 1) [] (r0 :: rtail) none none = r0 :: rtail := by
            simp [gcr_loop]
          rw [hres]
          refine ⟨hPR, ?_, ?_⟩
          · intro x
            simp only [effList_none, memL_nil_iff, false_or]
          · intro b _ h2 c hc
            exact h2 c hc
        | some r =>
          have hres : gcr_loop (fuel + 1) [] (r0 :: rtail) none (some r) = r :: rtail := by
            simp [gcr_loop]
          rw [hres]
          refine ⟨hPR, ?_, ?_⟩
          · intro x
            simp only [effList_none, memL_nil_iff, false_or]
            exact Iff.rfl
          · intro b _ h2 c hc
            exact h2 c hc
    | cons l0 ltail =>
      cases rs with
      | nil =>
        have hrr : rr = none := by
          cases rr with
          | none => rfl
          | some r => exact absurd rfl (hr r rfl)
        subst hrr
        cases lr with
        | none =>
          have hres : gcr_loop (fuel + 1) (l0 :: ltail) [] none none = l0 :: ltail := by
            simp [gcr_loop]
          rw [hres]
          refine ⟨hPL, ?_, ?_⟩
          · intro x
            simp only [effList_none, memL_nil_iff, or_false]
          · intro b h1 _ c hc
            exact h1 c hc
        | some r =>
          have hres : gcr_loop (fuel + 1) (l0 :: ltail) [] (some r) none = r :: ltail := by
            simp [gcr_loop]
          rw [hres]
          refine ⟨hPL, ?_, ?_⟩
          · intro x
            simp only [effList_none, memL_nil_iff, or_false]
            exact Iff.rfl
          · intro b h1 _ c hc
            exact h1 c hc
      | cons r0 rtail =>
        simp only [List.length_cons] at hfuel
        have hPLc : PartOK (lr.getD l0 :: ltail) := by
          rw [← effList_cons]; exact hPL
        have hPRc : PartOK (rr.getD r0 :: rtail) := by
          rw [← effList_cons]; exact hPR
        obtain ⟨hLne, hPLt, _⟩ := (partOK_cons_iff _ _).1 hPLc
        obtain ⟨hRne, hPRt, _⟩ := (partOK_cons_iff _ _).1 hPRc
        have hLlt := partOK_head_lt_tail hPLc
        have hRlt := partOK_head_lt_tail hPRc
        simp only [effList_cons]
        cases hint : (lr.getD l0).intersect (rr.getD r0) with
        | none =>
          have hdisj := intersect_none_cases hLne hRne hint
          by_cases hle : (lr.getD l0).start ≤ (rr.getD r0).start
          · have hgap : (lr.getD l0).end_ < (rr.getD r0).start := by
              rcases hdisj with h | h
              · exact h
              · omega
            have hres : gcr_loop (fuel + 1) (l0 :: ltail) (r0 :: rtail) lr rr =
                (lr.getD l0) :: gcr_loop fuel ltail (r0 :: rtail) none rr := by
              simp only [gcr_loop, hint]
              rw [if_pos hle]
            rw [hres]
            obtain ⟨ihP, ihM, ihB⟩ := ih ltail (r0 :: rtail) none rr
              (by simp only [List.length_cons]; omega)
              (fun r h => by cases h) (fun r _ => by simp)
              hPLt hPR
            simp only [effList_none, effList_cons] at ihM ihB
            have hLB2 : ∀ c ∈ rr.getD r0 :: rtail, (lr.getD l0).end_ + 1 ≤ c.start := by
              intro c hc
              rcases List.mem_cons.1 hc with rfl | hc'
              · omega
              · have := hRlt c hc'
                omega
            refine ⟨?_, ?_, ?_⟩
            · refine (partOK_cons_iff _ _).2 ⟨hLne, ihP, ?_⟩
              intro c hc
              have h1 := ihB ((lr.getD l0).end_ + 1)
                (fun d hd => by have := hLlt d hd; omega) hLB2
                c (List.mem_of_mem_head? hc)
              omega
            · intro x
              simp only [memL_cons, ihM x]
              tauto
            · intro b hb1 hb2 c hc
              rcases List.mem_cons.1 hc with rfl | hc'
              · exact hb1 _ (List.mem_cons_self _ _)
              · exact ihB b (fun d hd => hb1 d (List.mem_cons_of_mem _ hd)) hb2 c hc'
          · have hgap : (rr.getD r0).end_ < (lr.getD l0).start := by
              rcases hdisj with h | h
              · omega
              · exact h
            have hres : gcr_loop (fuel + 1) (l0 :: ltail) (r0 :: rtail) lr rr =
                (rr.getD r0) :: gcr_loop fuel (l0 :: ltail) rtail lr none := by
              simp only [gcr_loop, hint]
              rw [if_neg hle]
            rw [hres]
            obtain ⟨ihP, ihM, ihB⟩ := ih (l0 :: ltail) rtail lr none
              (by simp only [List.length_cons]; omega)
              (fun r _ => by simp) (fun r h => by cases h)
              hPL hPRt
            simp only [effList_none, effList_cons] at ihM ihB
            have hLB1 : ∀ c ∈ lr.getD l0 :: ltail, (rr.getD r0).end_ + 1 ≤ c.start := by
              intro c hc
              rcases List.mem_cons.1 hc with rfl | hc'
              · omega
              · have := hLlt c hc'
                omega
            refine ⟨?_, ?_, ?_⟩
            · refine (partOK_cons_iff _ _).2 ⟨hRne, ihP, ?_⟩
              intro c hc
              have h1 := ihB ((rr.getD r0).end_ + 1) hLB1
                (fun d hd => by have := hRlt d hd; omega)
                c (List.mem_of_mem_head? hc)
              omega
            · intro x
              simp only [memL_cons, ihM x]
              tauto
            · intro b hb1 hb2 c hc
              rcases List.mem_cons.1 hc with rfl | hc'
              · exact hb2 _ (List.mem_cons_self _ _)
              · exact ihB b hb1 (fun d hd => hb2 d (List.mem_cons_of_mem _ hd)) c hc'
        | some inter =>
          obtain ⟨hIs, hIe, hIne⟩ := intersect_some_bounds hint
          have hIsL : (lr.getD l0).start ≤ inter.start := by
            rw [hIs]; exact le_max_left _ _
          have hIsR : (rr.getD r0).start ≤ inter.start := by
            rw [hIs]; exact le_max_right _ _
          have hIeL : inter.end_ ≤ (lr.getD l0).end_ := by
            rw [hIe]; exact min_le_left _ _
          have hIeR : inter.end_ ≤ (rr.getD r0).end_ := by
            rw [hIe]; exact min_le_right _ _
          have hnotboth : ¬((lr.getD l0).end_ > inter.end_ ∧
              (rr.getD r0).end_ > inter.end_) := by
            rintro ⟨hx, hy⟩
            rcases min_choice (lr.getD l0).end_ (rr.getD r0).end_ with h | h <;>
              rw [h] at hIe <;> omega
          by_cases hL2 : (lr.getD l0).end_ > inter.end_
          · have hR2 : ¬((rr.getD r0).end_ > inter.end_) := fun h => hnotboth ⟨hL2, h⟩
            have hres : gcr_loop (fuel + 1) (l0 :: ltail) (r0 :: rtail) lr rr =
                (if (lr.getD l0).start < inter.start
                  then [⟨(lr.getD l0).start, inter.start - 1⟩] else []) ++
                (if (rr.getD r0).start < inter.start
                  then [⟨(rr.getD r0).start, inter.start - 1⟩] else []) ++
                inter :: gcr_loop fuel (l0 :: ltail) rtail
                  (some ⟨inter.end_ + 1, (lr.getD l0).end_⟩) none := by
              simp only [gcr_loop, hint, hL2, hR2, if_true, if_false]
            rw [hres]
            have hPL' : PartOK (effList (l0 :: ltail)
                (some ⟨inter.end_ + 1, (lr.getD l0).end_⟩)) := by
              rw [effList_cons]
              show PartOK (ContiguousIntegerSet.mk (inter.end_ + 1)
                (lr.getD l0).end_ :: ltail)
              refine (partOK_cons_iff _ _).2 ⟨?_, hPLt, ?_⟩
              · show inter.end_ + 1 ≤ (lr.getD l0).end_
                omega
              · intro c hc
                have := hLlt c (List.mem_of_mem_head? hc)
                show (lr.getD l0).end_ < c.start
                omega
            obtain ⟨ihP, ihM, ihB⟩ := ih (l0 :: ltail) rtail
              (some ⟨inter.end_ + 1, (lr.getD l0).end_⟩) none
              (by simp only [List.length_cons]; omega)
              (fun r _ => by simp) (fun r h => by cases h)
              hPL' hPRt
            simp only [effList_none, effList_cons, Option.getD_some] at ihM ihB
            have hrecLB : ∀ c ∈ gcr_loop fuel (l0 :: ltail) rtail
                (some ⟨inter.end_ + 1, (lr.getD l0).end_⟩) none,
                inter.end_ + 1 ≤ c.start := by
              refine ihB (inter.end_ + 1) ?_ ?_
              · intro c hc
                rcases List.mem_cons.1 hc with rfl | hc'
                · exact le_refl _
                · have := hLlt c hc'
                  omega
              · intro c hc
                have := hRlt c hc
                omega
            have hrecM : ∀ x, memL (gcr_loop fuel (l0 :: ltail) rtail
                (some ⟨inter.end_ + 1, (lr.getD l0).end_⟩) none) x ↔
                ((if inter.end_ < (lr.getD l0).end_
                  then memC ⟨inter.end_ + 1, (lr.getD l0).end_⟩ x else False) ∨
                  memL ltail x) ∨
                ((if inter.end_ < (rr.getD r0).end_
                  then memC ⟨inter.end_ + 1, (rr.getD r0).end_⟩ x else False) ∨
                  memL rtail x) := by
              intro x
              rw [ihM x, memL_cons, if_pos hL2, if_neg hR2, false_or]
            obtain ⟨g1, g2, g3⟩ := glue_spec (lr.getD l0) (rr.getD r0) inter
              (gcr_loop fuel (l0 :: ltail) rtail
                (some ⟨inter.end_ + 1, (lr.getD l0).end_⟩) none)
              (memL ltail) (memL rtail) hLne hRne hIs hIe hIne ihP hrecLB hrecM
            refine ⟨g1, ?_, ?_⟩
            · intro x
              rw [memL_cons, memL_cons]
              exact g2 x
            · intro b hb1 hb2
              exact g3 b (hb1 _ (List.mem_cons_self _ _)) (hb2 _ (List.mem_cons_self _ _))
          · by_cases hR2 : (rr.getD r0).end_ > inter.end_
            · have hres : gcr_loop (fuel + 1) (l0 :: ltail) (r0 :: rtail) lr rr =
                  (if (lr.getD l0).start < inter.start
                    then [⟨(lr.getD l0).start, inter.start - 1⟩] else []) ++
                  (if (rr.getD r0).start < inter.start
                    then [⟨(rr.getD r0).start, inter.start - 1⟩] else []) ++
                  inter :: gcr_loop fuel ltail (r0 :: rtail)
                    none (some ⟨inter.end_ + 1, (rr.getD r0).end_⟩) := by
                simp only [gcr_loop, hint, hL2, hR2, if_true, if_false]
              rw [hres]
              have hPR' : PartOK (effList (r0 :: rtail)
                  (some ⟨inter.end_ + 1, (rr.getD r0).end_⟩)) := by
                rw [effList_cons]
                show PartOK (ContiguousIntegerSet.mk (inter.end_ + 1)
                  (rr.getD r0).end_ :: rtail)
                refine (partOK_cons_iff _ _).2 ⟨?_, hPRt, ?_⟩
                · show inter.end_ + 1 ≤ (rr.getD r0).end_
                  omega
                · intro c hc
                  have := hRlt c (List.mem_of_mem_head? hc)
                  show (rr.getD r0).end_ < c.start
                  omega
              obtain ⟨ihP, ihM, ihB⟩ := ih ltail (r0 :: rtail)
                none (some ⟨inter.end_ + 1, (rr.getD r0).end_⟩)
                (by simp only [List.length_cons]; omega)
                (fun r h => by cases h) (fun r _ => by simp)
                hPLt hPR'
              simp only [effList_none, effList_cons, Option.getD_some] at ihM ihB
              have hrecLB : ∀ c ∈ gcr_loop fuel ltail (r0 :: rtail)
                  none (some ⟨inter.end_ + 1, (rr.getD r0).end_⟩),
                  inter.end_ + 1 ≤ c.start := by
                refine ihB (inter.end_ + 1) ?_ ?_
                · intro c hc
                  have := hLlt c hc
                  omega
                · intro c hc
                  rcases List.mem_cons.1 hc with rfl | hc'
                  · exact le_refl _
                  · have := hRlt c hc'
                    omega
              have hrecM : ∀ x, memL (gcr_loop fuel ltail (r0 :: rtail)
                  none (some ⟨inter.end_ + 1, (rr.getD r0).end_⟩)) x ↔
                  ((if inter.end_ < (lr.getD l0).end_
                    then memC ⟨inter.end_ + 1, (lr.getD l0).end_⟩ x else False) ∨
                    memL ltail x) ∨
                  ((if inter.end_ < (rr.getD r0).end_
                    then memC ⟨inter.end_ + 1, (rr.getD r0).end_⟩ x else False) ∨
                    memL rtail x) := by
                intro x
                rw [ihM x, memL_cons, if_pos hR2, if_neg hL2, false_or]
              obtain ⟨g1, g2, g3⟩ := glue_spec (lr.getD l0) (rr.getD r0) inter
                (gcr_loop fuel ltail (r0 :: rtail)
                  none (some ⟨inter.end_ + 1, (rr.getD r0).end_⟩))
                (memL ltail) (memL rtail) hLne hRne hIs hIe hIne ihP hrecLB hrecM
              refine ⟨g1, ?_, ?_⟩
              · intro x
                rw [memL_cons, memL_cons]
                exact g2 x
              · intro b hb1 hb2
                exact g3 b (hb1 _ (List.mem_cons_self _ _)) (hb2 _ (List.mem_cons_self _ _))
            · have hres : gcr_loop (fuel + 1) (l0 :: ltail) (r0 :: rtail) lr rr =
                  (if (lr.getD l0).start < inter.start
                    then [⟨(lr.getD l0).start, inter.start - 1⟩] else []) ++
                  (if (rr.getD r0).start < inter.start
                    then [⟨(rr.getD r0).start, inter.start - 1⟩] else []) ++
                  inter :: gcr_loop fuel ltail rtail none none := by
                simp only [gcr_loop, hint, hL2, hR2, if_true, if_false]
              rw [hres]
              obtain ⟨ihP, ihM, ihB⟩ := ih ltail rtail none none
                (by omega)
                (fun r h => by cases h) (fun r h => by cases h)
                hPLt hPRt
              simp only [effList_none] at ihM ihB
              have hrecLB : ∀ c ∈ gcr_loop fuel ltail rtail none none,
                  inter.end_ + 1 ≤ c.start := by
                refine ihB (inter.end_ + 1) ?_ ?_
                · intro c hc
                  have := hLlt c hc
                  omega
                · intro c hc
                  have := hRlt c hc
                  omega
              have hrecM : ∀ x, memL (gcr_loop fuel ltail rtail none none) x ↔
                  ((if inter.end_ < (lr.getD l0).end_
                    then memC ⟨inter.end_ + 1, (lr.getD l0).end_⟩ x else False) ∨
                    memL ltail x) ∨
                  ((if inter.end_ < (rr.getD r0).end_
                    then memC ⟨inter.end_ + 1, (rr.getD r0).end_⟩ x else False) ∨
                    memL rtail x) := by
                intro x
                rw [ihM x, if_neg hL2, if_neg hR2, false_or, false_or]
              obtain ⟨g1, g2, g3⟩ := glue_spec (lr.getD l0) (rr.getD r0) inter
                (gcr_loop fuel ltail rtail none none)
                (memL ltail) (memL rtail) hLne hRne hIs hIe hIne ihP hrecLB hrecM
              refine ⟨g1, ?_, ?_⟩
              · intro x
                rw [memL_cons, memL_cons]
                exact g2 x
              · intro b hb1 hb2
                exact g3 b (hb1 _ (List.mem_cons_self _ _)) (hb2 _ (List.mem_cons_self _ _))

theorem chainDisjB_iff : ∀ (l : List ContiguousIntegerSet),
    chainDisjB l = true ↔ l.Chain' (fun a b => a.end_ < b.start) := by
  intro l
  induction l with
  | nil => simp [chainDisjB]
  | cons a t ih =>
    cases t with
    | nil => simp [chainDisjB]
    | cons b rest =>
      rw [List.chain'_cons, ← ih]
      show ((decide (a.end_ < b.start)) && chainDisjB (b :: rest)) = true ↔ _
      rw [Bool.and_eq_true, decide_eq_true_eq]

theorem partB_iff (l : List ContiguousIntegerSet) : partB l = true ↔ PartOK l := by
  unfold partB PartOK
  rw [Bool.and_eq_true, List.all_eq_true, chainDisjB_iff]
  simp

/-- **C2.** For ordered interval partitions P and Q (ascending lists of
non-empty, pairwise-disjoint ranges), `get_common_refinement` returns an
ascending list of non-empty, pairwise non-overlapping ranges whose union as a
set of integers is the union of all ranges of P and Q; in particular the
common refinement of [[-1,4],[8,10]] with [[3,7]] is
[[-1,2],[3,4],[5,7],[8,10]]. -/
theorem claim_C2 (P Q : OrderedIntervalPartitions)
    (hP : PartOK P.partitions) (hQ : PartOK Q.partitions) :
    (PartOK (P.get_common_refinement Q).partitions ∧
      (∀ x : Int, memL (P.get_common_refinement Q).partitions x ↔
        memL P.partitions x ∨ memL Q.partitions x)) ∧
    OrderedIntervalPartitions.get_common_refinement ⟨[⟨-1, 4⟩, ⟨8, 10⟩]⟩ ⟨[⟨3, 7⟩]⟩ =
      ⟨[⟨-1, 2⟩, ⟨3, 4⟩, ⟨5, 7⟩, ⟨8, 10⟩]⟩ := by
  refine ⟨?_, by decide⟩
  obtain ⟨g1, g2, _⟩ := gcr_loop_spec (P.partitions.length + Q.partitions.length + 1)
    P.partitions Q.partitions none none (by omega)
    (fun r h => by cases h) (fun r h => by cases h) hP hQ
  exact ⟨g1, g2⟩

theorem claim_C2_witness :
    (PartOK (OrderedIntervalPartitions.mk [⟨-1, 4⟩, ⟨8, 10⟩]).partitions ∧
      PartOK (OrderedIntervalPartitions.mk [⟨3, 7⟩]).partitions) ∧
    (PartOK ((OrderedIntervalPartitions.mk [⟨-1, 4⟩, ⟨8, 10⟩]).get_common_refinement
        ⟨[⟨3, 7⟩]⟩).partitions ∧
      (∀ x : Int, memL ((OrderedIntervalPartitions.mk
          [⟨-1, 4⟩, ⟨8, 10⟩]).get_common_refinement ⟨[⟨3, 7⟩]⟩).partitions x ↔
        memL [⟨-1, 4⟩, ⟨8, 10⟩] x ∨ memL [⟨3, 7⟩] x)) ∧
    OrderedIntervalPartitions.get_common_refinement ⟨[⟨-1, 4⟩, ⟨8, 10⟩]⟩ ⟨[⟨3, 7⟩]⟩ =
      ⟨[⟨-1, 2⟩, ⟨3, 4⟩, ⟨5, 7⟩, ⟨8, 10⟩]⟩ := by
  refine ⟨⟨(partB_iff _).1 (by decide), (partB_iff _).1 (by decide)⟩, ?_⟩
  exact claim_C2 ⟨[⟨-1, 4⟩, ⟨8, 10⟩]⟩ ⟨[⟨3, 7⟩]⟩
    ((partB_iff _).1 (by decide)) ((partB_iff _).1 (by decide))

theorem membersC_length (c : ContiguousIntegerSet) :
    (membersC c).length = c.size := by
  unfold membersC
  rw [List.length_map, List.length_range]

theorem membersJ_cons (c : ContiguousIntegerSet) (l : List ContiguousIntegerSet) :
    membersJ (c :: l) = membersC c ++ membersJ l := by
  simp [membersJ]

theorem mem_membersC (c : ContiguousIntegerSet) (x : Int) :
    x ∈ membersC c ↔ memC c x := by
  unfold membersC ContiguousIntegerSet.size memC
  simp only [List.mem_map, List.mem_range]
  constructor
  · rintro ⟨i, hi, rfl⟩
    split_ifs at hi with h
    · omega
    · omega
  · rintro ⟨h1, h2⟩
    refine ⟨(x - c.start).toNat, ?_, by omega⟩
    split_ifs with h
    · omega
    · omega

/-- A positional segment of a contiguous range's member list is the member
list of the corresponding sub-range. -/
theorem membersC_segment (c : ContiguousIntegerSet) (a t : Nat) (h : a + t ≤ c.size) :
    ((membersC c).drop a).take t =
      membersC ⟨c.start + (a : Int), c.start + (a : Int) + (t : Int) - 1⟩ := by
  have hlen : (((membersC c).drop a).take t).length = t := by
    rw [List.length_take, List.length_drop, membersC_length]
    omega
  have hlen2 : (membersC ⟨c.start + (a : Int),
      c.start + (a : Int) + (t : Int) - 1⟩).length = t := by
    rw [membersC_length]
    show (if (c.start + (a : Int)) > (c.start + (a : Int) + (t : Int) - 1) then 0
      else ((c.start + (a : Int) + (t : Int) - 1) - (c.start + (a : Int)) + 1).toNat) = t
    split_ifs with h1
    · omega
    · omega
  apply List.ext_getElem (by rw [hlen, hlen2])
  intro n hn1 hn2
  rw [List.getElem_take, List.getElem_drop]
  unfold membersC
  rw [List.getElem_map, List.getElem_map, List.getElem_range, List.getElem_range]
  push_cast
  omega

theorem size_cast_of_nonempty {c : ContiguousIntegerSet} (hc : c.start ≤ c.end_) :
    (c.size : Int) = c.end_ - c.start + 1 := by
  unfold ContiguousIntegerSet.size
  rw [if_neg (not_lt.2 hc)]
  omega

theorem size_eq_zero_iff (c : ContiguousIntegerSet) :
    c.size = 0 ↔ c.end_ < c.start := by
  unfold ContiguousIntegerSet.size
  split_ifs with h
  · simp [h]
  · omega

/-- The members of the slice loop's output are exactly the `skip`/`remaining`
positional window of the concatenated member list. -/
theorem slice_go_mem : ∀ (l : List ContiguousIntegerSet) (skip rem : Nat) (x : Int),
    memL (slice_go l skip rem) x ↔ x ∈ ((membersJ l).drop skip).take rem := by
  intro l
  induction l with
  | nil =>
    intro skip rem x
    cases rem with
    | zero => simp [slice_go, membersJ, memL_nil_iff]
    | succ r => simp [slice_go, membersJ, memL_nil_iff]
  | cons c rest ih =>
    intro skip rem x
    cases rem with
    | zero => simp [slice_go, memL_nil_iff]
    | succ r =>
      rw [membersJ_cons]
      by_cases hpos : skip > 0
      · by_cases hge : skip ≥ c.size
        · have hres : slice_go (c :: rest) skip (r + 1) =
              slice_go rest (skip - c.size) (r + 1) := by
            simp only [slice_go]
            rw [if_pos hpos, if_pos hge]
          rw [hres, ih, List.drop_append_eq_append_drop,
            show (membersC c).drop skip = [] from
              List.drop_eq_nil_of_le (by rw [membersC_length]; omega),
            List.nil_append, membersC_length]
        · have hlt : skip < c.size := by omega
          have hsc : slice_contiguous skip (min (skip + (r + 1)) c.size) c =
              some ⟨c.start + (skip : Int),
                c.start + ((min (skip + (r + 1)) c.size : Nat) : Int) - 1⟩ := by
            unfold slice_contiguous
            rw [if_neg]
            push_neg
            exact ⟨lt_min (by omega) hlt, hlt⟩
          have hres : slice_go (c :: rest) skip (r + 1) =
              [(⟨c.start + (skip : Int),
                c.start + ((min (skip + (r + 1)) c.size : Nat) : Int) - 1⟩ :
                ContiguousIntegerSet)] ++
              slice_go rest 0 ((r + 1) - (min (skip + (r + 1)) c.size - skip)) := by
            simp only [slice_go]
            rw [if_pos hpos, if_neg (not_le.2 hlt), hsc]
          rw [hres, memL_append, memL_single, ih, List.drop_zero,
            List.drop_append_eq_append_drop,
            show skip - (membersC c).length = 0 by rw [membersC_length]; omega,
            List.drop_zero, List.take_append_eq_append_take, List.length_drop,
            membersC_length, List.mem_append]
          rcases le_total (skip + (r + 1)) c.size with hm | hm
          · rw [min_eq_left hm, show skip + (r + 1) - skip = r + 1 by omega,
              membersC_segment c skip (r + 1) (by omega), mem_membersC]
            refine or_congr ?_ ?_
            · rw [memC_mk, memC_mk]
              push_cast
              omega
            · rw [show r + 1 - (r + 1) = r + 1 - (c.size - skip) by omega]
          · rw [min_eq_right hm]
            have hlend : ((membersC c).drop skip).length = c.size - skip := by
              rw [List.length_drop, membersC_length]
            have ht : ((membersC c).drop skip).take (r + 1) =
                ((membersC c).drop skip).take (c.size - skip) :=
              (List.take_of_length_le (by rw [hlend]; omega)).trans
                (List.take_of_length_le (by rw [hlend])).symm
            rw [ht, membersC_segment c skip (c.size - skip) (by omega), mem_membersC]
            refine or_congr ?_ ?_
            · rw [memC_mk, memC_mk]
              push_cast
              omega
            · rfl
      · have hskip0 : skip = 0 := by omega
        subst hskip0
        by_cases hsz : c.size = 0
        · have hmem : membersC c = [] := by
            unfold membersC
            rw [hsz]
            rfl
          have hsc : slice_contiguous 0 (min (r + 1) c.size) c = none := by
            unfold slice_contiguous
            rw [if_pos]
            left
            omega
          have hres : slice_go (c :: rest) 0 (r + 1) =
              slice_go rest 0 ((r + 1) - min (r + 1) c.size) := by
            simp only [slice_go]
            rw [if_neg (by omega), hsc]
            rw [List.nil_append]
          rw [hres, ih, hmem, List.nil_append, hsz,
            show (r + 1) - min (r + 1) 0 = r + 1 by omega]
        · have hszpos : 0 < c.size := by omega
          have hsc : slice_contiguous 0 (min (r + 1) c.size) c =
              some ⟨c.start + ((0 : Nat) : Int),
                c.start + ((min (r + 1) c.size : Nat) : Int) - 1⟩ := by
            unfold slice_contiguous
            rw [if_neg]
            push_neg
            exact ⟨lt_min (by omega) hszpos, hszpos⟩
          have hres : slice_go (c :: rest) 0 (r + 1) =
              [(⟨c.start + ((0 : Nat) : Int),
                c.start + ((min (r + 1) c.size : Nat) : Int) - 1⟩ :
                ContiguousIntegerSet)] ++
              slice_go rest 0 ((r + 1) - min (r + 1) c.size) := by
            simp only [slice_go]
            rw [if_neg (by omega), hsc]
          rw [hres, memL_append, memL_single, ih, List.drop_zero, List.drop_zero,
            List.take_append_eq_append_take, membersC_length, List.mem_append]
          rcases le_total (r + 1) c.size with hm | hm
          · rw [min_eq_left hm]
            have ht : (membersC c).take (r + 1) =
                ((membersC c).drop 0).take (r + 1) := by
              rw [List.drop_zero]
            rw [ht, membersC_segment c 0 (r + 1) (by omega), mem_membersC]
            refine or_congr ?_ ?_
            · rw [memC_mk, memC_mk]
              push_cast
              omega
            · rw [show r + 1 - (r + 1) = r + 1 - c.size by omega]
          · rw [min_eq_right hm]
            have ht : (membersC c).take (r + 1) = ((membersC c).drop 0).take (c.size - 0) := by
              rw [List.drop_zero]
              exact (List.take_of_length_le (by rw [membersC_length]; omega)).trans
                (List.take_of_length_le (by rw [membersC_length]; omega)).symm
            rw [ht, membersC_segment c 0 (c.size - 0) (by omega), mem_membersC]
            refine or_congr ?_ ?_
            · rw [memC_mk, memC_mk]
              push_cast
              omega
            · rw [show (r + 1) - c.size = (r + 1) - (c.size - 0) by omega]

theorem slice_contiguous_some_nonempty {s e : Nat} {c p : ContiguousIntegerSet}
    (h : slice_contiguous s e c = some p) : p.start ≤ p.end_ := by
  unfold slice_contiguous at h
  split_ifs at h with hc
  push_neg at hc
  injection h with h
  subst h
  show c.start + (s : Int) ≤ c.start + (e : Int) - 1
  omega

theorem slice_go_nonempty : ∀ (l : List ContiguousIntegerSet) (skip rem : Nat),
    ∀ p ∈ slice_go l skip rem, p.start ≤ p.end_ := by
  intro l
  induction l with
  | nil =>
    intro skip rem p hp
    cases rem <;> simp [slice_go] at hp
  | cons c rest ih =>
    intro skip rem p hp
    cases rem with
    | zero => simp [slice_go] at hp
    | succ r =>
      simp only [slice_go] at hp
      by_cases hpos : skip > 0
      · rw [if_pos hpos] at hp
        by_cases hge : skip ≥ c.size
        · rw [if_pos hge] at hp
          exact ih _ _ p hp
        · rw [if_neg hge] at hp
          rcases List.mem_append.1 hp with h1 | h1
          · cases hsc : slice_contiguous skip (min (skip + (r + 1)) c.size) c with
            | none =>
              rw [hsc] at h1
              simp at h1
            | some q =>
              rw [hsc] at h1
              simp only [List.mem_singleton] at h1
              subst h1
              exact slice_contiguous_some_nonempty hsc
          · exact ih _ _ p h1
      · rw [if_neg hpos] at hp
        rcases List.mem_append.1 hp with h1 | h1
        · cases hsc : slice_contiguous 0 (min (r + 1) c.size) c with
          | none =>
            rw [hsc] at h1
            simp at h1
          | some q =>
            rw [hsc] at h1
            simp only [List.mem_singleton] at h1
            subst h1
            exact slice_contiguous_some_nonempty hsc
        · exact ih _ _ p h1

/-- **C10.** Positional slicing of an OrderedIntegerSet is total and silently
truncating: for a canonical set S and index range i..j, if i >= j the result is
the empty set; otherwise the result is canonical and its members are exactly
the members of S whose ordinal positions (in ascending member order) lie in
[i, min(j, size S)) — an upper index past the set's size yields only the
available trailing elements rather than an error. -/
theorem claim_C10 (S : OrderedIntegerSet) (hS : Canon S.intervals) (i j : Nat) :
    (i ≥ j → slice_ordered i j S = OrderedIntegerSet.new) ∧
    Canon (slice_ordered i j S).intervals ∧
    (∀ x : Int, memL (slice_ordered i j S).intervals x ↔
      x ∈ ((membersO S).drop i).take (j - i)) := by
  by_cases hij : i ≥ j
  · refine ⟨fun _ => ?_, ?_, ?_⟩
    · unfold slice_ordered
      rw [if_pos hij]
    · unfold slice_ordered
      rw [if_pos hij]
      exact ⟨(by intro cc hc; cases hc), List.chain'_nil⟩
    · intro x
      unfold slice_ordered
      rw [if_pos hij, show j - i = 0 by omega]
      simp [OrderedIntegerSet.new, memL_nil_iff]
  · have hres : slice_ordered i j S =
        OrderedIntegerSet.from_contiguous_integer_sets (slice_go S.intervals i (j - i)) := by
      unfold slice_ordered
      rw [if_neg hij]
    obtain ⟨hc, hm⟩ := coalesce_intervals_spec (slice_go S.intervals i (j - i))
      (slice_go_nonempty _ _ _)
    refine ⟨fun h => absurd h hij, ?_, ?_⟩
    · rw [hres]
      exact hc
    · intro x
      rw [hres]
      exact (hm x).trans (slice_go_mem S.intervals i (j - i) x)

theorem claim_C10_witness :
    Canon (OrderedIntegerSet.mk [⟨1, 3⟩, ⟨6, 8⟩]).intervals ∧
    ((1 ≥ 5 → slice_ordered 1 5 ⟨[⟨1, 3⟩, ⟨6, 8⟩]⟩ = OrderedIntegerSet.new) ∧
      Canon (slice_ordered 1 5 ⟨[⟨1, 3⟩, ⟨6, 8⟩]⟩).intervals ∧
      (∀ x : Int, memL (slice_ordered 1 5 ⟨[⟨1, 3⟩, ⟨6, 8⟩]⟩).intervals x ↔
        x ∈ ((membersO ⟨[⟨1, 3⟩, ⟨6, 8⟩]⟩).drop 1).take (5 - 1))) :=
  ⟨(canonB_iff _).1 (by decide),
    claim_C10 ⟨[⟨1, 3⟩, ⟨6, 8⟩]⟩ ((canonB_iff _).1 (by decide)) 1 5⟩

theorem mem_setInsert (x y : Int) : ∀ (l : List Int),
    y ∈ setInsert x l ↔ y = x ∨ y ∈ l := by
  intro l
  induction l with
  | nil => simp [setInsert]
  | cons a t ih =>
    unfold setInsert
    split_ifs with h1 h2
    · simp
    · subst h2
      simp
    · rw [List.mem_cons, List.mem_cons, ih]
      tauto

theorem chain_lt_mem_tail : ∀ {l : List Int} {a : Int},
    List.Chain' (fun p q => p < q) (a :: l) → ∀ x ∈ l, a < x := by
  intro l
  induction l with
  | nil =>
    intro a _ x hx
    cases hx
  | cons b t ih =>
    intro a h x hx
    rw [List.chain'_cons] at h
    rcases List.mem_cons.1 hx with rfl | hx'
    · exact h.1
    · exact lt_trans h.1 (ih h.2 x hx')

theorem chain_setInsert (x : Int) : ∀ (l : List Int),
    List.Chain' (fun p q => p < q) l →
    List.Chain' (fun p q => p < q) (setInsert x l) := by
  intro l
  induction l with
  | nil =>
    intro _
    simp [setInsert]
  | cons a t ih =>
    intro h
    unfold setInsert
    split_ifs with h1 h2
    · exact List.chain'_cons.2 ⟨h1, h⟩
    · exact h
    · rw [List.chain'_cons']
      refine ⟨?_, ih (List.chain'_cons'.1 h).2⟩
      intro y hy
      have hy2 := List.mem_of_mem_head? hy
      rw [mem_setInsert] at hy2
      rcases hy2 with rfl | hy3
      · omega
      · exact chain_lt_mem_tail h y hy3

theorem mem_btreeSet (y : Int) : ∀ (l : List Int), y ∈ btreeSet l ↔ y ∈ l := by
  intro l
  induction l with
  | nil => simp [btreeSet]
  | cons a t ih =>
    show y ∈ setInsert a (btreeSet t) ↔ _
    rw [mem_setInsert, ih, List.mem_cons]

theorem chain_btreeSet : ∀ (l : List Int), List.Chain' (fun p q => p < q) (btreeSet l) := by
  intro l
  induction l with
  | nil => simp [btreeSet]
  | cons a t ih => exact chain_setInsert a (btreeSet t) ih

/-- `has_non_empty_intersection_with` holds exactly when the two ranges share
a member. -/
theorem hnei_iff (i b : ContiguousIntegerSet) :
    i.has_non_empty_intersection_with b = true ↔ ∃ x, memC i x ∧ memC b x := by
  unfold ContiguousIntegerSet.has_non_empty_intersection_with
  rw [Option.isSome_iff_exists]
  constructor
  · rintro ⟨j, hj⟩
    obtain ⟨h1, h2, h3⟩ := intersect_some_bounds hj
    exact ⟨j.start, (intersect_mem i b j.start).1 ⟨j, hj, le_refl _, h3⟩⟩
  · rintro ⟨x, h1, h2⟩
    obtain ⟨c, hc, _⟩ := (intersect_mem i b x).2 ⟨h1, h2⟩
    exact ⟨c, hc⟩

theorem slotStep_fst_of_inter {mr : ContiguousIntegerSet} {sl : ZipSlot}
    {i : ContiguousIntegerSet} (hi : sl.interval = some i)
    (hb : i.has_non_empty_intersection_with mr = true) :
    (slotStep mr sl).1 = sl.value := by
  simp only [slotStep, hi]
  rw [if_pos hb]
  split_ifs with hrem
  · rcases sl.iter with _ | ⟨⟨p, v⟩, tl⟩ <;> rfl
  · rfl

theorem slotStep_fst_of_no_inter {mr : ContiguousIntegerSet} {sl : ZipSlot} :
    (∀ i, sl.interval = some i → i.has_non_empty_intersection_with mr = false) →
    (slotStep mr sl).1 = none := by
  intro h
  cases hi : sl.interval with
  | none => simp only [slotStep, hi]
  | some i =>
    simp only [slotStep, hi]
    rw [if_neg (by rw [h i hi]; exact Bool.false_ne_true)]

theorem zip_vals_spec (mr : ContiguousIntegerSet) (s : List ZipSlot)
    (hval : ∀ sl ∈ s, sl.interval ≠ none → sl.value ≠ none) :
    ∀ (k : Nat) (sl : ZipSlot), s[k]? = some sl →
      ((∃ i, sl.interval = some i ∧ ∃ x, memC i x ∧ memC mr x) →
        ∃ v, sl.value = some v ∧
          ((s.map (slotStep mr)).map Prod.fst)[k]? = some (some v)) ∧
      ((¬∃ i, sl.interval = some i ∧ ∃ x, memC i x ∧ memC mr x) →
        ((s.map (slotStep mr)).map Prod.fst)[k]? = some none) := by
  intro k sl hk
  have hv : ((s.map (slotStep mr)).map Prod.fst)[k]? = some ((slotStep mr sl).1) := by
    rw [List.getElem?_map, List.getElem?_map, hk]
    rfl
  constructor
  · rintro ⟨i, hi, x, hx1, hx2⟩
    have hb : i.has_non_empty_intersection_with mr = true := (hnei_iff i mr).2 ⟨x, hx1, hx2⟩
    have hmem : sl ∈ s := List.getElem?_mem hk
    have hcv : sl.value ≠ none := hval sl hmem (by rw [hi]; exact Option.some_ne_none _)
    obtain ⟨v, hv'⟩ := Option.ne_none_iff_exists'.1 hcv
    refine ⟨v, hv', ?_⟩
    rw [slotStep_fst_of_inter hi hb, hv'] at hv
    exact hv
  · intro hni
    rw [slotStep_fst_of_no_inter ?_] at hv
    · exact hv
    · intro i hi
      by_contra hb
      rw [Bool.not_eq_false] at hb
      exact hni ⟨i, hi, (hnei_iff i mr).1 hb⟩

/-- **C3.** Every step of the common-refinement zip with at least one
non-exhausted source emits the boundary [minStart, min(minEnd,
secondSmallestStart - 1)] — minStart the least current start, minEnd the least
current end, the second-smallest start only capping the end when it exists and
reaches into the boundary — paired with Some(value) exactly for the sources
whose current range shares a member with the boundary and None for the others;
and zipping {[0,5]:5,[8,10]:2} with {[2,4]:8,[12,13]:9} yields the five steps
([0,1],[5,None]), ([2,4],[5,8]), ([5,5],[5,None]), ([8,10],[2,None]),
([12,13],[None,9]). -/
theorem claim_C3 (s : List ZipSlot)
    (hpresent : ∃ sl ∈ s, sl.interval ≠ none)
    (hval : ∀ sl ∈ s, sl.interval ≠ none → sl.value ≠ none) :
    (∃ b vals s', zip_next s = some ((b, vals), s') ∧
      IsLeast (zipStarts s) b.start ∧
      (∀ E, IsLeast (zipEnds s) E →
        (∀ s2, IsLeast {x | x ∈ zipStarts s ∧ b.start < x} s2 → s2 ≤ E →
          b.end_ = min E (s2 - 1)) ∧
        ((¬∃ s2, IsLeast {x | x ∈ zipStarts s ∧ b.start < x} s2 ∧ s2 ≤ E) →
          b.end_ = E)) ∧
      vals.length = s.length ∧
      (∀ (k : Nat) (sl : ZipSlot), s[k]? = some sl →
        ((∃ i, sl.interval = some i ∧ ∃ x, memC i x ∧ memC b x) →
          ∃ v, sl.value = some v ∧ vals[k]? = some (some v)) ∧
        ((¬∃ i, sl.interval = some i ∧ ∃ x, memC i x ∧ memC b x) →
          vals[k]? = some none))) ∧
    runZip 6 (common_refinement_zip [(⟨0, 5⟩, 5), (⟨8, 10⟩, 2)]
        [(⟨2, 4⟩, 8), (⟨12, 13⟩, 9)]) =
      [(⟨0, 1⟩, [some 5, none]), (⟨2, 4⟩, [some 5, some 8]),
        (⟨5, 5⟩, [some 5, none]), (⟨8, 10⟩, [some 2, none]),
        (⟨12, 13⟩, [none, some 9])] := by
  refine ⟨?_, by decide⟩
  obtain ⟨sl0, hsl0, hne0⟩ := hpresent
  cases hsl0i : sl0.interval with
  | none => exact absurd hsl0i hne0
  | some i0 =>
  have hbase : i0 ∈ s.filterMap ZipSlot.interval :=
    List.mem_filterMap.2 ⟨sl0, hsl0, hsl0i⟩
  have hst : i0.start ∈
      btreeSet ((s.filterMap ZipSlot.interval).map ContiguousIntegerSet.start) :=
    (mem_btreeSet _ _).2 (List.mem_map_of_mem _ hbase)
  have hen : i0.end_ ∈
      btreeSet ((s.filterMap ZipSlot.interval).map ContiguousIntegerSet.end_) :=
    (mem_btreeSet _ _).2 (List.mem_map_of_mem _ hbase)
  cases hs : btreeSet ((s.filterMap ZipSlot.interval).map ContiguousIntegerSet.start) with
  | nil =>
    rw [hs] at hst
    cases hst
  | cons min_start rest =>
  cases he : btreeSet ((s.filterMap ZipSlot.interval).map ContiguousIntegerSet.end_) with
  | nil =>
    rw [he] at hen
    cases hen
  | cons min_end erest =>
  have hmemS : ∀ x, x ∈ min_start :: rest ↔ x ∈ zipStarts s := by
    intro x
    rw [← hs, mem_btreeSet]
    simp only [List.mem_map, List.mem_filterMap, zipStarts, Set.mem_setOf_eq]
    constructor
    · rintro ⟨i, ⟨sl, hsl, hint⟩, rfl⟩
      exact ⟨sl, hsl, i, hint, rfl⟩
    · rintro ⟨sl, hsl, i, hint, rfl⟩
      exact ⟨i, ⟨sl, hsl, hint⟩, rfl⟩
  have hmemE : ∀ x, x ∈ min_end :: erest ↔ x ∈ zipEnds s := by
    intro x
    rw [← he, mem_btreeSet]
    simp only [List.mem_map, List.mem_filterMap, zipEnds, Set.mem_setOf_eq]
    constructor
    · rintro ⟨i, ⟨sl, hsl, hint⟩, rfl⟩
      exact ⟨sl, hsl, i, hint, rfl⟩
    · rintro ⟨sl, hsl, i, hint, rfl⟩
      exact ⟨i, ⟨sl, hsl, hint⟩, rfl⟩
  have hchainS : List.Chain' (fun p q => p < q) (min_start :: rest) := by
    have := chain_btreeSet ((s.filterMap ZipSlot.interval).map ContiguousIntegerSet.start)
    rw [hs] at this
    exact this
  have hchainE : List.Chain' (fun p q => p < q) (min_end :: erest) := by
    have := chain_btreeSet ((s.filterMap ZipSlot.interval).map ContiguousIntegerSet.end_)
    rw [he] at this
    exact this
  have hleastS : IsLeast (zipStarts s) min_start := by
    constructor
    · rw [← hmemS]
      exact List.mem_cons_self _ _
    · intro x hx
      rw [← hmemS] at hx
      rcases List.mem_cons.1 hx with rfl | hx'
      · exact le_refl _
      · exact le_of_lt (chain_lt_mem_tail hchainS x hx')
  have hleastE : IsLeast (zipEnds s) min_end := by
    constructor
    · rw [← hmemE]
      exact List.mem_cons_self _ _
    · intro x hx
      rw [← hmemE] at hx
      rcases List.mem_cons.1 hx with rfl | hx'
      · exact le_refl _
      · exact le_of_lt (chain_lt_mem_tail hchainE x hx')
  cases rest with
  | nil =>
    have hnone2 : ∀ s2, ¬ IsLeast {x | x ∈ zipStarts s ∧ min_start < x} s2 := by
      rintro s2 ⟨⟨hmem, hgt⟩, _⟩
      rw [← hmemS] at hmem
      rcases List.mem_cons.1 hmem with rfl | hmem'
      · omega
      · cases hmem'
    refine ⟨⟨min_start, min_end⟩,
      (s.map (slotStep ⟨min_start, min_end⟩)).map Prod.fst,
      (s.map (slotStep ⟨min_start, min_end⟩)).map Prod.snd, ?_, hleastS, ?_, ?_, ?_⟩
    · unfold zip_next
      rw [hs, he]
    · intro E hE
      have hEeq : E = min_end := hE.unique hleastE
      subst hEeq
      exact ⟨fun s2 hs2 _ => absurd hs2 (hnone2 s2), fun _ => rfl⟩
    · rw [List.length_map, List.length_map]
    · exact zip_vals_spec _ s hval
  | cons second rest2 =>
    have hleast2 : IsLeast {x | x ∈ zipStarts s ∧ min_start < x} second := by
      constructor
      · refine ⟨(hmemS second).1 (by simp), ?_⟩
        exact (List.chain'_cons.1 hchainS).1
      · rintro x ⟨hx, hgt⟩
        rw [← hmemS] at hx
        rcases List.mem_cons.1 hx with rfl | hx'
        · omega
        · rcases List.mem_cons.1 hx' with rfl | hx''
          · exact le_refl _
          · exact le_of_lt (chain_lt_mem_tail (List.chain'_cons.1 hchainS).2 x hx'')
    by_cases hcmp : second ≤ min_end
    · refine ⟨⟨min_start, second - 1⟩,
        (s.map (slotStep ⟨min_start, second - 1⟩)).map Prod.fst,
        (s.map (slotStep ⟨min_start, second - 1⟩)).map Prod.snd, ?_, hleastS, ?_, ?_, ?_⟩
      · unfold zip_next
        rw [hs, he]
        simp only [if_pos hcmp]
      · intro E hE
        have hEeq : E = min_end := hE.unique hleastE
        constructor
        · intro s2 hs2 hle
          have h2 : s2 = second := hs2.unique hleast2
          show second - 1 = min E (s2 - 1)
          rw [h2, hEeq, min_eq_right (by omega)]
        · intro hn
          exact absurd ⟨second, hleast2, by omega⟩ hn
      · rw [List.length_map, List.length_map]
      · exact zip_vals_spec _ s hval
    · refine ⟨⟨min_start, min_end⟩,
        (s.map (slotStep ⟨min_start, min_end⟩)).map Prod.fst,
        (s.map (slotStep ⟨min_start, min_end⟩)).map Prod.snd, ?_, hleastS, ?_, ?_, ?_⟩
      · unfold zip_next
        rw [hs, he]
        simp only [if_neg hcmp]
      · intro E hE
        have hEeq : E = min_end := hE.unique hleastE
        constructor
        · intro s2 hs2 hle
          have h2 : s2 = second := hs2.unique hleast2
          exact absurd hle (by rw [h2, hEeq]; exact hcmp)
        · intro _
          show min_end = E
          omega
      · rw [List.length_map, List.length_map]
      · exact zip_vals_spec _ s hval

theorem claim_C3_witness :
    ((∃ sl ∈ common_refinement_zip [((⟨0, 5⟩ : ContiguousIntegerSet), (5 : Int)),
        (⟨8, 10⟩, 2)] [(⟨2, 4⟩, 8), (⟨12, 13⟩, 9)], sl.interval ≠ none) ∧
      (∀ sl ∈ common_refinement_zip [((⟨0, 5⟩ : ContiguousIntegerSet), (5 : Int)),
        (⟨8, 10⟩, 2)] [(⟨2, 4⟩, 8), (⟨12, 13⟩, 9)],
        sl.interval ≠ none → sl.value ≠ none)) ∧
    ((∃ b vals s', zip_next (common_refinement_zip
        [((⟨0, 5⟩ : ContiguousIntegerSet), (5 : Int)), (⟨8, 10⟩, 2)]
        [(⟨2, 4⟩, 8), (⟨12, 13⟩, 9)]) = some ((b, vals), s') ∧
      IsLeast (zipStarts (common_refinement_zip
        [((⟨0, 5⟩ : ContiguousIntegerSet), (5 : Int)), (⟨8, 10⟩, 2)]
        [(⟨2, 4⟩, 8), (⟨12, 13⟩, 9)])) b.start ∧
      (∀ E, IsLeast (zipEnds (common_refinement_zip
          [((⟨0, 5⟩ : ContiguousIntegerSet), (5 : Int)), (⟨8, 10⟩, 2)]
          [(⟨2, 4⟩, 8), (⟨12, 13⟩, 9)])) E →
        (∀ s2, IsLeast {x | x ∈ zipStarts (common_refinement_zip
            [((⟨0, 5⟩ : ContiguousIntegerSet), (5 : Int)), (⟨8, 10⟩, 2)]
            [(⟨2, 4⟩, 8), (⟨12, 13⟩, 9)]) ∧ b.start < x} s2 → s2 ≤ E →
          b.end_ = min E (s2 - 1)) ∧
        ((¬∃ s2, IsLeast {x | x ∈ zipStarts (common_refinement_zip
            [((⟨0, 5⟩ : ContiguousIntegerSet), (5 : Int)), (⟨8, 10⟩, 2)]
            [(⟨2, 4⟩, 8), (⟨12, 13⟩, 9)]) ∧ b.start < x} s2 ∧ s2 ≤ E) →
          b.end_ = E)) ∧
      vals.length = (common_refinement_zip
        [((⟨0, 5⟩ : ContiguousIntegerSet), (5 : Int)), (⟨8, 10⟩, 2)]
        [(⟨2, 4⟩, 8), (⟨12, 13⟩, 9)]).length ∧
      (∀ (k : Nat) (sl : ZipSlot), (common_refinement_zip
          [((⟨0, 5⟩ : ContiguousIntegerSet), (5 : Int)), (⟨8, 10⟩, 2)]
          [(⟨2, 4⟩, 8), (⟨12, 13⟩, 9)])[k]? = some sl →
        ((∃ i, sl.interval = some i ∧ ∃ x, memC i x ∧ memC b x) →
          ∃ v, sl.value = some v ∧ vals[k]? = some (some v)) ∧
        ((¬∃ i, sl.interval = some i ∧ ∃ x, memC i x ∧ memC b x) →
          vals[k]? = some none))) ∧
    runZip 6 (common_refinement_zip [(⟨0, 5⟩, 5), (⟨8, 10⟩, 2)]
        [(⟨2, 4⟩, 8), (⟨12, 13⟩, 9)]) =
      [(⟨0, 1⟩, [some 5, none]), (⟨2, 4⟩, [some 5, some 8]),
        (⟨5, 5⟩, [some 5, none]), (⟨8, 10⟩, [some 2, none]),
        (⟨12, 13⟩, [none, some 9])]) :=
  ⟨⟨by decide, by decide⟩, claim_C3 _ (by decide) (by decide)⟩

theorem memL_filter_nonempty (l : List ContiguousIntegerSet) (x : Int) :
    memL (l.filter fun i => !i.is_empty) x ↔ memL l x := by
  unfold memL
  constructor
  · rintro ⟨c, hc, hm⟩
    exact ⟨c, List.mem_of_mem_filter hc, hm⟩
  · rintro ⟨c, hc, hm⟩
    refine ⟨c, List.mem_filter.2 ⟨hc, ?_⟩, hm⟩
    rw [Bool.not_eq_true', is_empty_false_iff]
    rcases hm with ⟨h1, h2⟩
    omega

theorem filter_nonempty_id {l : List ContiguousIntegerSet}
    (h : ∀ c ∈ l, c.start ≤ c.end_) : (l.filter fun i => !i.is_empty) = l := by
  induction l with
  | nil => rfl
  | cons c t ih =>
    rw [List.filter_cons, if_pos (by
      rw [Bool.not_eq_true', is_empty_false_iff]
      exact h c (by simp)), ih (fun d hd => h d (by simp [hd]))]

theorem canon_ois_is_empty_iff {l : List ContiguousIntegerSet} (h : Canon l) :
    OrderedIntegerSet.is_empty ⟨l⟩ = true ↔ l = [] := by
  unfold OrderedIntegerSet.is_empty
  rw [show (⟨l⟩ : OrderedIntegerSet).intervals = l from rfl, filter_nonempty_id h.1,
    List.isEmpty_iff]

theorem canon_into_non_empty_id {s : OrderedIntegerSet} (h : Canon s.intervals) :
    s.into_non_empty_intervals = s := by
  unfold OrderedIntegerSet.into_non_empty_intervals
  rw [filter_nonempty_id h.1]

theorem canon_pairwise {l : List ContiguousIntegerSet} (h : Canon l) :
    l.Pairwise (fun a b => ∀ x, ¬(memC a x ∧ memC b x)) := by
  induction l with
  | nil => exact List.Pairwise.nil
  | cons c t ih =>
    refine List.Pairwise.cons ?_ (ih (Canon.of_cons h))
    intro b hb x ⟨hxc, hxb⟩
    have h1 := Canon.mem_head_lt_tail h ⟨b, hb, hxb⟩
    rcases hxc with ⟨_, h2⟩
    omega

/-- The skip loop drops only fragments strictly left of `interval`. -/
theorem ois_inter_skip_spec (interval : ContiguousIntegerSet) :
    ∀ (l : List ContiguousIntegerSet),
    (Canon l → Canon (ois_inter_skip interval l)) ∧
    (∀ x, memC interval x →
      (memL (ois_inter_skip interval l) x ↔ memL l x)) := by
  intro l
  induction l with
  | nil => exact ⟨fun h => h, fun x _ => Iff.rfl⟩
  | cons r rest ih =>
    by_cases hr : r.end_ < interval.start
    · have hres : ois_inter_skip interval (r :: rest) = ois_inter_skip interval rest := by
        show (if r.end_ < interval.start then ois_inter_skip interval rest
          else r :: rest) = _
        rw [if_pos hr]
      rw [hres]
      refine ⟨fun h => ih.1 (Canon.of_cons h), ?_⟩
      intro x hx
      rw [ih.2 x hx, memL_cons]
      constructor
      · exact Or.inr
      · rintro (hm | hm)
        · rcases hm with ⟨h1, h2⟩
          rcases hx with ⟨h3, h4⟩
          omega
        · exact hm
    · have hres : ois_inter_skip interval (r :: rest) = r :: rest := by
        show (if r.end_ < interval.start then ois_inter_skip interval rest
          else r :: rest) = _
        rw [if_neg hr]
      rw [hres]
      exact ⟨fun h => h, fun x _ => Iff.rfl⟩

theorem mem_piece (c r : ContiguousIntegerSet) (x : Int) :
    memL (match c.intersect r with | some i => [i] | none => []) x ↔
      memC c x ∧ memC r x := by
  cases hint : c.intersect r with
  | none =>
    constructor
    · intro h
      exact absurd h (memL_nil x)
    · intro h
      exact absurd h (intersect_none_disjoint hint x)
  | some i =>
    rw [memL_single]
    have hm := intersect_mem c r x
    rw [hint] at hm
    rw [← hm]
    unfold memOptC
    constructor
    · intro h
      exact ⟨i, rfl, h⟩
    · rintro ⟨j, hj, hmj⟩
      injection hj with hj
      rw [hj]
      exact hmj

theorem nonempty_piece (c r : ContiguousIntegerSet) :
    ∀ p ∈ (match c.intersect r with | some i => [i] | none => []), p.start ≤ p.end_ := by
  cases hint : c.intersect r with
  | none =>
    intro p hp
    cases hp
  | some i =>
    intro p hp
    rcases List.mem_singleton.1 hp with rfl
    exact (intersect_some_bounds hint).2.2

/-- The collecting loop yields exactly the common members of `c` and a
canonical fragment list, in non-empty pieces. -/
theorem ois_inter_inner_spec (c : ContiguousIntegerSet) :
    ∀ (l : List ContiguousIntegerSet), Canon l →
    (∀ x, memL (ois_inter_inner c l).1 x ↔ memC c x ∧ memL l x) ∧
    (∀ p ∈ (ois_inter_inner c l).1, p.start ≤ p.end_) := by
  intro l
  induction l with
  | nil =>
    intro _
    refine ⟨fun x => ?_, fun p hp => ?_⟩
    · show memL [] x ↔ _
      rw [memL_nil_iff]
      simp [memL_nil_iff]
    · cases hp
  | cons r rest ih =>
    intro hc
    by_cases h1 : r.start ≤ c.end_
    · by_cases h2 : r.end_ ≤ c.end_
      · have hres : (ois_inter_inner c (r :: rest)).1 =
            (match c.intersect r with | some i => [i] | none => []) ++
              (ois_inter_inner c rest).1 := by
          simp only [ois_inter_inner, h1, h2, if_true]
        rw [hres]
        obtain ⟨ihm, ihne⟩ := ih (Canon.of_cons hc)
        refine ⟨fun x => ?_, fun p hp => ?_⟩
        · rw [memL_append, mem_piece, ihm x, memL_cons]
          tauto
        · rcases List.mem_append.1 hp with hp1 | hp1
          · exact nonempty_piece c r p hp1
          · exact ihne p hp1
      · have hres : (ois_inter_inner c (r :: rest)).1 =
            (match c.intersect r with | some i => [i] | none => []) := by
          simp only [ois_inter_inner, h1, h2, if_true, if_false]
        rw [hres]
        refine ⟨fun x => ?_, nonempty_piece c r⟩
        rw [mem_piece, memL_cons]
        constructor
        · rintro ⟨hxc, hxr⟩
          exact ⟨hxc, Or.inl hxr⟩
        · rintro ⟨hxc, hxr | hxr⟩
          · exact ⟨hxc, hxr⟩
          · have := Canon.mem_head_lt_tail hc hxr
            rcases hxc with ⟨_, h4⟩
            omega
    · have hres : (ois_inter_inner c (r :: rest)).1 = [] := by
        simp only [ois_inter_inner, h1, if_false]
      rw [hres]
      refine ⟨fun x => ?_, fun p hp => by cases hp⟩
      rw [memL_nil_iff, memL_cons]
      constructor
      · intro h
        exact h.elim
      · rintro ⟨hxc, hxr | hxr⟩
        · rcases hxc with ⟨_, h4⟩
          rcases hxr with ⟨h5, _⟩
          omega
        · have h5 := Canon.head_start_le_mem hc ((memL_cons _ _ _).2 (Or.inr hxr))
          rcases hxc with ⟨_, h4⟩
          omega

/-- Specification of `ContiguousIntegerSet ∩ &OrderedIntegerSet`: the result
is canonical and its members are the common members. -/
theorem cis_intersect_ois_spec (c : ContiguousIntegerSet) (other : OrderedIntegerSet)
    (h : Canon other.intervals) :
    Canon (cis_intersect_ois c other).intervals ∧
    (∀ x, memO (cis_intersect_ois c other) x ↔ memC c x ∧ memO other x) := by
  by_cases hc : c.is_empty = true
  · rw [is_empty_iff] at hc
    have hres : cis_intersect_ois c other = OrderedIntegerSet.new := by
      unfold cis_intersect_ois
      rw [if_pos (by rw [is_empty_iff]; exact hc)]
    rw [hres]
    refine ⟨Canon.nil, fun x => ?_⟩
    show memL [] x ↔ _
    rw [memL_nil_iff]
    constructor
    · intro hf
      exact hf.elim
    · rintro ⟨⟨h1, h2⟩, _⟩
      omega
  · have hres : cis_intersect_ois c other =
        OrderedIntegerSet.from_contiguous_integer_sets
          (ois_inter_outer [c] other.intervals) := by
      unfold cis_intersect_ois
      rw [if_neg hc]
      rfl
    have houter : ois_inter_outer [c] other.intervals =
        (ois_inter_inner c (ois_inter_skip c other.intervals)).1 := by
      show (ois_inter_inner c (ois_inter_skip c other.intervals)).1 ++
        ois_inter_outer [] (ois_inter_inner c (ois_inter_skip c other.intervals)).2 = _
      rw [show ois_inter_outer []
          (ois_inter_inner c (ois_inter_skip c other.intervals)).2 =
          ([] : List ContiguousIntegerSet) from rfl,
        List.append_nil]
    obtain ⟨hskipC, hskipM⟩ := ois_inter_skip_spec c other.intervals
    obtain ⟨hinnM, hinnNE⟩ := ois_inter_inner_spec c _ (hskipC h)
    obtain ⟨hcoalC, hcoalM⟩ := coalesce_intervals_spec
      (ois_inter_inner c (ois_inter_skip c other.intervals)).1 hinnNE
    rw [hres]
    constructor
    · show Canon (coalesce_intervals (ois_inter_outer [c] other.intervals))
      rw [houter]
      exact hcoalC
    · intro x
      show memL (coalesce_intervals (ois_inter_outer [c] other.intervals)) x ↔ _
      rw [houter, hcoalM x, hinnM x]
      constructor
      · rintro ⟨hxc, hxm⟩
        exact ⟨hxc, (hskipM x hxc).1 hxm⟩
      · rintro ⟨hxc, hxm⟩
        exact ⟨hxc, (hskipM x hxc).2 hxm⟩

theorem canon_take {l : List ContiguousIntegerSet} (h : Canon l) (p : Nat) :
    Canon (l.take p) := by
  refine ⟨fun c hc => h.1 c (List.take_subset p l hc), ?_⟩
  have h2 := h.2
  rw [← List.take_append_drop p l] at h2
  exact (List.chain'_append.1 h2).1

theorem canon_drop {l : List ContiguousIntegerSet} (h : Canon l) (p : Nat) :
    Canon (l.drop p) := by
  refine ⟨fun c hc => h.1 c (List.drop_subset p l hc), ?_⟩
  have h2 := h.2
  rw [← List.take_append_drop p l] at h2
  exact (List.chain'_append.1 h2).2.1

theorem mem_take_idx : ∀ (l : List ContiguousIntegerSet) (p : Nat)
    (c : ContiguousIntegerSet), c ∈ l.take p →
    ∃ i, i < p ∧ i < l.length ∧ l.getD i default = c := by
  intro l
  induction l with
  | nil =>
    intro p c hc
    rw [List.take_nil] at hc
    cases hc
  | cons a t ih =>
    intro p c hc
    cases p with
    | zero => cases hc
    | succ p =>
      rw [List.take_succ_cons] at hc
      rcases List.mem_cons.1 hc with rfl | hc'
      · exact ⟨0, by omega, by simp, rfl⟩
      · obtain ⟨i, h1, h2, h3⟩ := ih p c hc'
        exact ⟨i + 1, by omega, by simp; omega, h3⟩

theorem mem_drop_idx : ∀ (l : List ContiguousIntegerSet) (p : Nat)
    (c : ContiguousIntegerSet), c ∈ l.drop p →
    ∃ j, p ≤ j ∧ j < l.length ∧ l.getD j default = c := by
  intro l
  induction l with
  | nil =>
    intro p c hc
    rw [List.drop_nil] at hc
    cases hc
  | cons a t ih =>
    intro p c hc
    cases p with
    | zero =>
      rw [List.drop_zero] at hc
      obtain ⟨i, hilt, hieq⟩ := List.getElem_of_mem hc
      refine ⟨i, by omega, hilt, ?_⟩
      rw [List.getD_eq_getElem?_getD, List.getElem?_eq_getElem hilt]
      exact hieq
    | succ p =>
      rw [List.drop_succ_cons] at hc
      obtain ⟨j, h1, h2, h3⟩ := ih p c hc
      refine ⟨j + 1, by omega, by simp; omega, ?_⟩
      rw [List.getD_eq_getElem?_getD, List.getElem?_cons_succ,
        ← List.getD_eq_getElem?_getD]
      exact h3

/-- The piece list appended by one fragment of the subtraction loop equals the
fragment-minus-rhs interval list (the emptiness test is redundant). -/
theorem sub_piece_list (c rhs : ContiguousIntegerSet) :
    (if (c.sub rhs).is_empty then [] else (c.sub rhs).intervals) =
      (c.sub rhs).intervals := by
  obtain ⟨hPC, _⟩ := sub_cc_spec c rhs
  by_cases he : (c.sub rhs).is_empty = true
  · rw [if_pos he]
    have : (c.sub rhs).intervals = [] := (canon_ois_is_empty_iff hPC).1 he
    rw [this]
  · rw [if_neg he]

theorem ois_sub_loop_spec (rhs : ContiguousIntegerSet) :
    ∀ (l : List ContiguousIntegerSet), Canon l →
    Canon (ois_sub_loop rhs l) ∧
    (∀ x, memL (ois_sub_loop rhs l) x ↔ memL l x ∧ ¬ memC rhs x) ∧
    (∀ b : Int, (∀ d ∈ l, b ≤ d.start) → ∀ p ∈ ois_sub_loop rhs l, b ≤ p.start) := by
  intro l
  induction l with
  | nil =>
    intro _
    refine ⟨Canon.nil, fun x => ?_, fun b _ p hp => by cases hp⟩
    show memL [] x ↔ _
    rw [memL_nil_iff]
    constructor
    · intro h
      exact h.elim
    · rintro ⟨hm, _⟩
      exact hm
  | cons c rest ih =>
    intro hc
    by_cases h1 : c.start > rhs.end_
    · have hres : ois_sub_loop rhs (c :: rest) = c :: rest := by
        show (if c.start > rhs.end_ then c :: rest else _) = _
        rw [if_pos h1]
      rw [hres]
      refine ⟨hc, fun x => ?_, fun b hb p hp => hb p hp⟩
      constructor
      · intro hm
        refine ⟨hm, ?_⟩
        have := Canon.head_start_le_mem hc hm
        rintro ⟨h2, h3⟩
        omega
      · rintro ⟨hm, _⟩
        exact hm
    · have hres : ois_sub_loop rhs (c :: rest) =
          (c.sub rhs).intervals ++ ois_sub_loop rhs rest := by
        show (if c.start > rhs.end_ then c :: rest else
          (if (c.sub rhs).is_empty then [] else (c.sub rhs).intervals) ++
            ois_sub_loop rhs rest) = _
        rw [if_neg h1, sub_piece_list]
      rw [hres]
      obtain ⟨hPC, hPM⟩ := sub_cc_spec c rhs
      obtain ⟨ihC, ihM, ihB⟩ := ih (Canon.of_cons hc)
      have hgap : ∀ d ∈ rest, c.end_ + 1 < d.start := by
        intro d hd
        have hdne := (Canon.of_cons hc).1 d hd
        exact Canon.mem_head_lt_tail hc ⟨d, hd, le_refl _, hdne⟩
      have hPhigh : ∀ p ∈ (c.sub rhs).intervals, p.start ≤ p.end_ ∧
          c.start ≤ p.start ∧ p.end_ ≤ c.end_ := by
        intro p hp
        have hpne := hPC.1 p hp
        have hs : memL (c.sub rhs).intervals p.start := ⟨p, hp, le_refl _, hpne⟩
        have he : memL (c.sub rhs).intervals p.end_ := ⟨p, hp, hpne, le_refl _⟩
        exact ⟨hpne, ((hPM p.start).1 hs).1.1, ((hPM p.end_).1 he).1.2⟩
      refine ⟨⟨?_, ?_⟩, fun x => ?_, ?_⟩
      · intro d hd
        rcases List.mem_append.1 hd with hd1 | hd1
        · exact (hPhigh d hd1).1
        · exact ihC.1 d hd1
      · rw [List.chain'_append]
        refine ⟨hPC.2, ihC.2, ?_⟩
        intro a ha b hb
        have ha' := List.mem_of_mem_getLast? ha
        have hb' := List.mem_of_mem_head? hb
        have h2 := (hPhigh a ha').2.2
        have h3 := ihB (c.end_ + 2) (fun d hd => by have := hgap d hd; omega) b hb'
        omega
      · rw [memL_append, hPM x, ihM x, memL_cons]
        tauto
      · intro b hb p hp
        rcases List.mem_append.1 hp with hp1 | hp1
        · have := (hPhigh p hp1).2.1
          have := hb c (by simp)
          omega
        · exact ihB b (fun d hd => hb d (by simp [hd])) p hp1

theorem sub_cmp_lt_iff (rhs iv : ContiguousIntegerSet) :
    ((if iv.end_ < rhs.start then Ordering.lt else Ordering.gt) = Ordering.lt) ↔
      iv.end_ < rhs.start := by
  split_ifs with h <;> simp [h]

theorem sub_cmp_gt_iff (rhs iv : ContiguousIntegerSet) :
    ((if iv.end_ < rhs.start then Ordering.lt else Ordering.gt) = Ordering.gt) ↔
      ¬ iv.end_ < rhs.start := by
  split_ifs with h <;> simp [h]

/-- Specification of `OrderedIntegerSet - &ContiguousIntegerSet`: the result
is canonical and removes exactly the members of `rhs`. -/
theorem ois_sub_contiguous_spec (s : OrderedIntegerSet) (rhs : ContiguousIntegerSet)
    (h : Canon s.intervals) :
    Canon (ois_sub_contiguous s rhs).intervals ∧
    (∀ x, memO (ois_sub_contiguous s rhs) x ↔ memO s x ∧ ¬ memC rhs x) := by
  by_cases g1 : s.is_empty = true
  · have hres : ois_sub_contiguous s rhs = s := by
      unfold ois_sub_contiguous
      rw [if_pos g1]
    have hnil : s.intervals = [] := by
      have := (canon_ois_is_empty_iff h).1
      exact this g1
    rw [hres]
    refine ⟨h, fun x => ?_⟩
    unfold memO
    rw [hnil, memL_nil_iff]
    constructor
    · intro hf
      exact hf.elim
    · rintro ⟨hf, _⟩
      exact hf
  · by_cases g2 : rhs.is_empty = true
    · have hres : ois_sub_contiguous s rhs = s := by
        unfold ois_sub_contiguous
        rw [if_neg g1, if_pos g2]
      rw [hres]
      refine ⟨h, fun x => ?_⟩
      rw [is_empty_iff] at g2
      constructor
      · intro hm
        refine ⟨hm, ?_⟩
        rintro ⟨h3, h4⟩
        omega
      · rintro ⟨hm, _⟩
        exact hm
    · have hnn : s.intervals ≠ [] := by
        intro hcon
        rw [canon_ois_is_empty_iff h] at g1
        exact g1 hcon
      obtain ⟨h0, t0, hst⟩ : ∃ h0 t0, s.intervals = h0 :: t0 := by
        cases hl : s.intervals with
        | nil => exact absurd hl hnn
        | cons a b => exact ⟨a, b, rfl⟩
      by_cases g3 : rhs.end_ < (s.intervals.headD default).start
      · have hres : ois_sub_contiguous s rhs = s := by
          unfold ois_sub_contiguous
          rw [if_neg g1, if_neg g2, if_pos g3]
        rw [hres]
        refine ⟨h, fun x => ?_⟩
        constructor
        · intro hm
          refine ⟨hm, ?_⟩
          rintro ⟨h3, h4⟩
          have hx : h0.start ≤ x := by
            have hcc : Canon (h0 :: t0) := hst ▸ h
            exact Canon.head_start_le_mem hcc (by rw [← hst]; exact hm)
          rw [hst] at g3
          simp only [List.headD_cons] at g3
          omega
        · rintro ⟨hm, _⟩
          exact hm
      · by_cases g4 : rhs.start > (s.intervals.getLastD default).end_
        · have hres : ois_sub_contiguous s rhs = s := by
            unfold ois_sub_contiguous
            rw [if_neg g1, if_neg g2, if_neg g3, if_pos g4]
          rw [hres]
          refine ⟨h, fun x => ?_⟩
          obtain ⟨last, hlast⟩ : ∃ la, s.intervals.getLast? = some la := by
            rw [hst]
            exact ⟨(h0 :: t0).getLast (by simp), List.getLast?_eq_getLast _ _⟩
          have hld : s.intervals.getLastD default = last := by
            rw [List.getLastD_eq_getLast?, hlast]
            rfl
          constructor
          · intro hm
            refine ⟨hm, ?_⟩
            rintro ⟨h3, h4⟩
            have hx := canon_mem_le_last s.intervals last h hlast x hm
            rw [hld] at g4
            omega
          · rintro ⟨hm, _⟩
            exact hm
        · have hlen : 0 < s.intervals.length := by
            rw [hst]
            simp
          have hmono : CmpMono s.intervals
              (fun iv => if iv.end_ < rhs.start then Ordering.lt else Ordering.gt)
              0 (s.intervals.length - 1) := by
            intro i j h0i hij hjn
            constructor
            · intro hj
              rw [sub_cmp_lt_iff] at hj ⊢
              rcases Nat.eq_or_lt_of_le hij with rfl | hlt2
              · exact hj
              · have hg := canon_getD_lt h i j hlt2 (by omega)
                have hne := canon_getD_nonempty h j (by omega)
                omega
            · intro hi
              rw [sub_cmp_gt_iff] at hi ⊢
              rcases Nat.eq_or_lt_of_le hij with rfl | hlt2
              · exact hi
              · have hg := canon_getD_lt h i j hlt2 (by omega)
                have hne := canon_getD_nonempty h j (by omega)
                omega
          have hspec := binary_search_with_cmp_spec s.intervals
            (fun iv => if iv.end_ < rhs.start then Ordering.lt else Ordering.gt)
            0 s.intervals.length hmono hlen
          cases hbs : binary_search_with_cmp s.intervals 0 s.intervals.length
            (fun iv => if iv.end_ < rhs.start then Ordering.lt else Ordering.gt) with
          | ok idx =>
            rw [hbs] at hspec
            obtain ⟨_, _, hq⟩ := hspec
            rw [show ((fun iv => if iv.end_ < rhs.start then Ordering.lt
              else Ordering.gt) (s.intervals.getD idx default)) =
              (if (s.intervals.getD idx default).end_ < rhs.start then Ordering.lt
                else Ordering.gt) from rfl] at hq
            split_ifs at hq
          | error op =>
            cases op with
            | none =>
              rw [hbs] at hspec
              exact hspec.elim
            | some p =>
              rw [hbs] at hspec
              obtain ⟨hp0, hpn, hleft, hright⟩ := hspec
              have hleft' : ∀ i, i < p → (s.intervals.getD i default).end_ < rhs.start := by
                intro i hi
                have := hleft i (by omega) hi
                rw [show ((fun iv => if iv.end_ < rhs.start then Ordering.lt
                  else Ordering.gt) (s.intervals.getD i default)) =
                  (if (s.intervals.getD i default).end_ < rhs.start then Ordering.lt
                    else Ordering.gt) from rfl, sub_cmp_lt_iff] at this
                exact this
              have hres : ois_sub_contiguous s rhs =
                  OrderedIntegerSet.from_ordered_coalesced_contiguous_integer_sets
                    (s.intervals.take p ++ ois_sub_loop rhs (s.intervals.drop p)) := by
                unfold ois_sub_contiguous
                rw [if_neg g1, if_neg g2, if_neg g3, if_neg g4]
                simp only [hbs]
              obtain ⟨hLC, hLM, hLB⟩ := ois_sub_loop_spec rhs (s.intervals.drop p)
                (canon_drop h p)
              rw [hres]
              constructor
              · show Canon (s.intervals.take p ++ ois_sub_loop rhs (s.intervals.drop p))
                refine ⟨?_, ?_⟩
                · intro d hd
                  rcases List.mem_append.1 hd with hd1 | hd1
                  · exact h.1 d (List.take_subset p _ hd1)
                  · exact hLC.1 d hd1
                · rw [List.chain'_append]
                  refine ⟨(canon_take h p).2, hLC.2, ?_⟩
                  intro a ha b hb
                  obtain ⟨i, hi1, hi2, hi3⟩ := mem_take_idx _ _ _ (List.mem_of_mem_getLast? ha)
                  have hblb := hLB ((s.intervals.getD i default).end_ + 2) ?_ b
                    (List.mem_of_mem_head? hb)
                  · rw [hi3] at hblb
                    omega
                  · intro d hd
                    obtain ⟨j, hj1, hj2, hj3⟩ := mem_drop_idx _ _ _ hd
                    have := canon_getD_lt h i j (by omega) hj2
                    rw [hj3] at this
                    omega
              · intro x
                show memL (s.intervals.take p ++ ois_sub_loop rhs (s.intervals.drop p)) x ↔ _
                rw [memL_append, hLM x]
                have htk : memL (s.intervals.take p) x → ¬ memC rhs x := by
                  rintro ⟨d, hd, hmd⟩ ⟨h3, h4⟩
                  obtain ⟨i, hi1, hi2, hi3⟩ := mem_take_idx _ _ _ hd
                  have := hleft' i hi1
                  rw [hi3] at this
                  rcases hmd with ⟨_, h6⟩
                  omega
                have hsplitm : memO s x ↔ memL (s.intervals.take p) x ∨
                    memL (s.intervals.drop p) x := by
                  unfold memO
                  rw [← memL_append, List.take_append_drop]
                constructor
                · rintro (hm | ⟨hm, hnr⟩)
                  · exact ⟨hsplitm.2 (Or.inl hm), htk hm⟩
                  · exact ⟨hsplitm.2 (Or.inr hm), hnr⟩
                · rintro ⟨hm, hnr⟩
                  rcases hsplitm.1 hm with hm1 | hm1
                  · exact Or.inl hm1
                  · exact Or.inr ⟨hm1, hnr⟩

/-- Folding `-= fragment` over a fragment list removes exactly the members of
all the fragments. -/
theorem fold_sub_spec : ∀ (fs : List ContiguousIntegerSet) (acc : OrderedIntegerSet),
    Canon acc.intervals →
    Canon (fs.foldl (fun a ci => ois_sub_contiguous a ci) acc).intervals ∧
    (∀ x, memO (fs.foldl (fun a ci => ois_sub_contiguous a ci) acc) x ↔
      memO acc x ∧ ∀ f ∈ fs, ¬ memC f x) := by
  intro fs
  induction fs with
  | nil =>
    intro acc hC
    refine ⟨hC, fun x => ?_⟩
    simp
  | cons f rest ih =>
    intro acc hC
    obtain ⟨hC1, hM1⟩ := ois_sub_contiguous_spec acc f hC
    obtain ⟨hC2, hM2⟩ := ih (ois_sub_contiguous acc f) hC1
    rw [List.foldl_cons]
    refine ⟨hC2, fun x => ?_⟩
    rw [hM2 x, hM1 x]
    constructor
    · rintro ⟨⟨hm, hf⟩, hrest⟩
      refine ⟨hm, ?_⟩
      intro g hg
      rcases List.mem_cons.1 hg with rfl | hg'
      · exact hf
      · exact hrest g hg'
    · rintro ⟨hm, hall⟩
      exact ⟨⟨hm, hall f (by simp)⟩, fun g hg => hall g (by simp [hg])⟩

/-- `into_coalesced` produces a canonical set with the same members. -/
theorem into_coalesced_spec (s : OrderedIntegerSet) :
    Canon s.into_coalesced.intervals ∧
    (∀ x, memO s.into_coalesced x ↔ memO s x) := by
  unfold OrderedIntegerSet.into_coalesced
  obtain ⟨hC, hM⟩ := coalesce_intervals_spec (s.intervals.filter fun i => !i.is_empty)
    (by
      intro c hc
      have := List.mem_filter.1 hc
      rw [Bool.not_eq_true', is_empty_false_iff] at this
      exact this.2)
  refine ⟨hC, fun x => ?_⟩
  show memL (coalesce_intervals (s.intervals.filter fun i => !i.is_empty)) x ↔ _
  rw [hM x, memL_filter_nonempty]
  exact Iff.rfl

/-- Specification of `ContiguousIntegerSet - &OrderedIntegerSet`: canonical
result containing exactly the members of `c` not in `rhs`. -/
theorem cis_sub_ois_spec (c : ContiguousIntegerSet) (rhs : OrderedIntegerSet) :
    Canon (cis_sub_ois c rhs).intervals ∧
    (∀ x, memO (cis_sub_ois c rhs) x ↔ memC c x ∧ ¬ memO rhs x) := by
  have hbase : Canon (ois_from_vec [c]).intervals ∧
      (∀ x, memO (ois_from_vec [c]) x ↔ memC c x) := by
    unfold ois_from_vec
    obtain ⟨hC, hM⟩ := into_coalesced_spec ⟨[c]⟩
    refine ⟨hC, fun x => ?_⟩
    rw [hM x]
    show memL [c] x ↔ _
    rw [memL_single]
  obtain ⟨hFC, hFM⟩ := fold_sub_spec rhs.intervals (ois_from_vec [c]) hbase.1
  unfold cis_sub_ois
  obtain ⟨hIC, hIM⟩ := into_coalesced_spec
    (rhs.intervals.foldl (fun a ci => ois_sub_contiguous a ci) (ois_from_vec [c]))
  refine ⟨hIC, fun x => ?_⟩
  rw [hIM x, hFM x, hbase.2 x]
  unfold memO
  constructor
  · rintro ⟨hm, hall⟩
    refine ⟨hm, ?_⟩
    rintro ⟨g, hg, hmg⟩
    exact hall g hg hmg
  · rintro ⟨hm, hno⟩
    exact ⟨hm, fun g hg hmg => hno ⟨g, hg, hmg⟩⟩

theorem sumAt_cons (e : ContiguousIntegerSet × Int) (l : List (ContiguousIntegerSet × Int))
    (x : Int) : sumAt (e :: l) x = (if memC e.1 x then e.2 else 0) + sumAt l x := rfl

theorem sumAt_append (a b : List (ContiguousIntegerSet × Int)) (x : Int) :
    sumAt (a ++ b) x = sumAt a x + sumAt b x := by
  induction a with
  | nil =>
    show sumAt b x = sumAt [] x + sumAt b x
    show sumAt b x = 0 + sumAt b x
    omega
  | cons e t ih =>
    rw [List.cons_append, sumAt_cons, sumAt_cons, ih]
    omega

theorem sumAt_zero {l : List (ContiguousIntegerSet × Int)} {x : Int}
    (h : ∀ e ∈ l, ¬ memC e.1 x) : sumAt l x = 0 := by
  induction l with
  | nil => rfl
  | cons e t ih =>
    rw [sumAt_cons, if_neg (h e (by simp)), ih (fun d hd => h d (by simp [hd]))]
    omega

theorem sum_pieces_const (w : Int) (x : Int) :
    ∀ (pieces : List ContiguousIntegerSet),
    pieces.Pairwise (fun a b => ∀ y, ¬(memC a y ∧ memC b y)) →
    sumAt (pieces.map (fun ci => (ci, w))) x = if memL pieces x then w else 0 := by
  intro pieces
  induction pieces with
  | nil =>
    intro _
    rw [if_neg (memL_nil x)]
    rfl
  | cons p rest ih =>
    intro hd
    rw [List.map_cons, sumAt_cons]
    rcases List.pairwise_cons.1 hd with ⟨hp, ht⟩
    by_cases hm : memC p x
    · rw [if_pos hm, if_pos ((memL_cons _ _ _).2 (Or.inl hm)), sumAt_zero]
      · omega
      · rintro e he
        obtain ⟨ci, hci, rfl⟩ := List.mem_map.1 he
        intro hc
        exact hp ci hci x ⟨hm, hc⟩
    · rw [if_neg hm, ih ht]
      have hiff : memL (p :: rest) x ↔ memL rest x := by
        rw [memL_cons]
        constructor
        · rintro (hc | hc)
          · exact absurd hc hm
          · exact hc
        · exact Or.inr
      by_cases hr : memL rest x
      · rw [if_pos hr, if_pos (hiff.2 hr)]
        omega
      · rw [if_neg hr, if_neg (fun hc => hr (hiff.1 hc))]
        omega

theorem keys_distinct_of_disjoint {l : List (ContiguousIntegerSet × Int)}
    (h : l.Pairwise (fun a b => ∀ x, ¬(memC a.1 x ∧ memC b.1 x)))
    (hne : ∀ e ∈ l, e.1.start ≤ e.1.end_) : KeysDistinct l := by
  refine List.Pairwise.imp_of_mem ?_ h
  intro a b ha _ hdisj heq
  exact hdisj a.1.start ⟨⟨le_refl _, hne a ha⟩, by rw [← heq]; exact ⟨le_refl _, hne a ha⟩⟩

theorem map_remove_mem_iff {k : ContiguousIntegerSet} :
    ∀ {m : IntegerIntervalMap}, KeysDistinct m →
    ∀ e, e ∈ map_remove k m ↔ e ∈ m ∧ e.1 ≠ k := by
  intro m
  induction m with
  | nil =>
    intro _ e
    constructor
    · intro h
      cases h
    · rintro ⟨h, _⟩
      cases h
  | cons a t ih =>
    intro hd e
    rcases List.pairwise_cons.1 hd with ⟨ha, ht⟩
    show e ∈ (if k = a.1 then t else (a.1, a.2) :: map_remove k t) ↔ _
    split_ifs with hk
    · constructor
      · intro he
        refine ⟨by simp [he], ?_⟩
        intro hek
        exact ha e he (by rw [hek, hk])
      · rintro ⟨he, hek⟩
        rcases List.mem_cons.1 he with rfl | he'
        · exact absurd hk.symm hek
        · exact he'
    · constructor
      · intro he
        rcases List.mem_cons.1 he with rfl | he'
        · exact ⟨by simp, fun hc => hk (by rw [hc])⟩
        · obtain ⟨h1, h2⟩ := (ih ht e).1 he'
          exact ⟨by simp [h1], h2⟩
      · rintro ⟨he, hek⟩
        rcases List.mem_cons.1 he with rfl | he'
        · exact List.mem_cons_self _ _
        · exact List.mem_cons_of_mem _ ((ih ht e).2 ⟨he', hek⟩)

theorem map_remove_sublist (k : ContiguousIntegerSet) :
    ∀ (m : IntegerIntervalMap), (map_remove k m).Sublist m := by
  intro m
  induction m with
  | nil => exact List.Sublist.refl _
  | cons a t ih =>
    show (if k = a.1 then t else (a.1, a.2) :: map_remove k t).Sublist (a :: t)
    split_ifs with hk
    · exact List.sublist_cons_self a t
    · exact List.Sublist.cons₂ _ ih

theorem sumAt_map_remove {k : ContiguousIntegerSet} {v : Int} :
    ∀ {m : IntegerIntervalMap}, KeysDistinct m → (k, v) ∈ m → ∀ x,
    sumAt (map_remove k m) x = sumAt m x - (if memC k x then v else 0) := by
  intro m
  induction m with
  | nil =>
    intro _ hm
    cases hm
  | cons a t ih =>
    intro hd hm x
    rcases List.pairwise_cons.1 hd with ⟨ha, ht⟩
    show sumAt (if k = a.1 then t else (a.1, a.2) :: map_remove k t) x = _
    by_cases hk : k = a.1
    · rw [if_pos hk]
      have hav : a = (k, v) := by
        rcases List.mem_cons.1 hm with h | h
        · exact h.symm
        · exact absurd hk.symm (ha (k, v) h)
      rw [hav, sumAt_cons]
      show sumAt t x =
        (if memC k x then v else 0) + sumAt t x - (if memC k x then v else 0)
      by_cases hmx : memC k x
      · rw [if_pos hmx]
        omega
      · rw [if_neg hmx]
        omega
    · rw [if_neg hk]
      have hm' : (k, v) ∈ t := by
        rcases List.mem_cons.1 hm with h | h
        · rw [← h] at hk
          exact absurd rfl hk
        · exact h
      have hih := ih ht hm' x
      rw [show ((a.1, a.2) : ContiguousIntegerSet × Int) = a from rfl,
        sumAt_cons, hih, sumAt_cons]
      omega

theorem map_insert_mem {k : ContiguousIntegerSet} {v : Int} :
    ∀ {m : IntegerIntervalMap} {e}, e ∈ map_insert k v m → e = (k, v) ∨ e ∈ m := by
  intro m
  induction m with
  | nil =>
    intro e he
    rcases List.mem_singleton.1 he with rfl
    exact Or.inl rfl
  | cons a t ih =>
    intro e he
    have he' : e ∈ (if lex_lt k a.1 then (k, v) :: (a.1, a.2) :: t
      else if k = a.1 then (k, v) :: t else (a.1, a.2) :: map_insert k v t) := he
    by_cases h1 : lex_lt k a.1
    · rw [if_pos h1] at he'
      rcases List.mem_cons.1 he' with rfl | he2
      · exact Or.inl rfl
      · right
        rcases List.mem_cons.1 he2 with rfl | he3
        · exact List.mem_cons_self _ _
        · exact List.mem_cons_of_mem _ he3
    · by_cases h2 : k = a.1
      · rw [if_neg h1, if_pos h2] at he'
        rcases List.mem_cons.1 he' with rfl | he2
        · exact Or.inl rfl
        · exact Or.inr (List.mem_cons_of_mem _ he2)
      · rw [if_neg h1, if_neg h2] at he'
        rcases List.mem_cons.1 he' with rfl | he2
        · exact Or.inr (List.mem_cons_self _ _)
        · rcases ih he2 with h | h
          · exact Or.inl h
          · exact Or.inr (List.mem_cons_of_mem _ h)

theorem sumAt_map_insert_fresh {k : ContiguousIntegerSet} {v : Int} :
    ∀ {m : IntegerIntervalMap}, (∀ e ∈ m, e.1 ≠ k) → ∀ x,
    sumAt (map_insert k v m) x = (if memC k x then v else 0) + sumAt m x := by
  intro m
  induction m with
  | nil =>
    intro _ x
    rfl
  | cons a t ih =>
    intro hf x
    show sumAt (if lex_lt k a.1 then (k, v) :: (a.1, a.2) :: t
      else if k = a.1 then (k, v) :: t else (a.1, a.2) :: map_insert k v t) x = _
    by_cases h1 : lex_lt k a.1
    · rw [if_pos h1]
      rfl
    · by_cases h2 : k = a.1
      · exact absurd h2.symm (hf a (by simp))
      · rw [if_neg h1, if_neg h2,
          show ((a.1, a.2) : ContiguousIntegerSet × Int) = a from rfl,
          sumAt_cons, ih (fun e he => hf e (by simp [he])) x, sumAt_cons]
        omega

/-- Removing a list of present, distinct-keyed entries: the totals drop by the
entries' contributions, and exactly the other entries survive. -/
theorem fold_remove_spec : ∀ (cs : List (ContiguousIntegerSet × Int))
    (mm : IntegerIntervalMap), KeysDistinct mm → (∀ e ∈ cs, e ∈ mm) →
    KeysDistinct cs →
    KeysDistinct (cs.foldl (fun acc e => map_remove e.1 acc) mm) ∧
    (∀ e, e ∈ cs.foldl (fun acc e => map_remove e.1 acc) mm ↔
      e ∈ mm ∧ ∀ c ∈ cs, e.1 ≠ c.1) ∧
    (∀ x, sumAt (cs.foldl (fun acc e => map_remove e.1 acc) mm) x =
      sumAt mm x - sumAt cs x) := by
  intro cs
  induction cs with
  | nil =>
    intro mm hd _ _
    refine ⟨hd, fun e => ?_, fun x => ?_⟩
    · simp
    · show sumAt mm x = sumAt mm x - sumAt [] x
      show sumAt mm x = sumAt mm x - 0
      omega
  | cons c rest ih =>
    intro mm hd hin hcd
    rcases List.pairwise_cons.1 hcd with ⟨hc1, hcd'⟩
    have hd' : KeysDistinct (map_remove c.1 mm) :=
      List.Pairwise.sublist (map_remove_sublist c.1 mm) hd
    have hin' : ∀ e ∈ rest, e ∈ map_remove c.1 mm := by
      intro e he
      exact (map_remove_mem_iff hd e).2 ⟨hin e (by simp [he]), (hc1 e he).symm⟩
    obtain ⟨g1, g2, g3⟩ := ih (map_remove c.1 mm) hd' hin' hcd'
    rw [List.foldl_cons]
    refine ⟨g1, fun e => ?_, fun x => ?_⟩
    · rw [g2 e, map_remove_mem_iff hd e]
      constructor
      · rintro ⟨⟨h1, h2⟩, h3⟩
        refine ⟨h1, ?_⟩
        intro d hdm
        rcases List.mem_cons.1 hdm with rfl | hdm'
        · exact h2
        · exact h3 d hdm'
      · rintro ⟨h1, h2⟩
        exact ⟨⟨h1, h2 c (by simp)⟩, fun d hdm => h2 d (by simp [hdm])⟩
    · rw [g3 x, sumAt_map_remove hd (show (c.1, c.2) ∈ mm by
        rw [show ((c.1, c.2) : ContiguousIntegerSet × Int) = c from rfl]
        exact hin c (by simp)) x, sumAt_cons]
      omega

/-- Inserting a list of fresh, distinct-keyed entries: the totals add up. -/
theorem fold_insert_spec : ∀ (as : List (ContiguousIntegerSet × Int))
    (mm : IntegerIntervalMap),
    (∀ e ∈ as, ∀ e' ∈ mm, e.1 ≠ e'.1) → KeysDistinct as →
    (∀ x, sumAt (as.foldl (fun acc e => map_insert e.1 e.2 acc) mm) x =
      sumAt mm x + sumAt as x) := by
  intro as
  induction as with
  | nil =>
    intro mm _ _ x
    show sumAt mm x = sumAt mm x + sumAt [] x
    show sumAt mm x = sumAt mm x + 0
    omega
  | cons a rest ih =>
    intro mm hf had x
    rcases List.pairwise_cons.1 had with ⟨ha1, had'⟩
    have hf' : ∀ e ∈ rest, ∀ e' ∈ map_insert a.1 a.2 mm, e.1 ≠ e'.1 := by
      intro e he e' he'
      rcases map_insert_mem he' with rfl | he2
      · exact (ha1 e he).symm
      · exact hf e (by simp [he]) e' he2
    rw [List.foldl_cons, ih (map_insert a.1 a.2 mm) hf' had' x,
      sumAt_map_insert_fresh (fun e' he' => (hf a (by simp) e' he').symm) x,
      sumAt_cons]
    omega

theorem sumContrib_cons (value : Int) (e : ContiguousIntegerSet × Int)
    (rest : List (ContiguousIntegerSet × Int)) (rem : OrderedIntegerSet) (x : Int) :
    sumContrib value (e :: rest) rem x =
      (if memC e.1 x then (if memO rem x then e.2 + value else e.2) else 0) +
        sumContrib value rest rem x := rfl

theorem sumContrib_congr (value : Int) :
    ∀ (cs : List (ContiguousIntegerSet × Int)) (r1 r2 : OrderedIntegerSet) (x : Int),
    (∀ e ∈ cs, memC e.1 x → (memO r1 x ↔ memO r2 x)) →
    sumContrib value cs r1 x = sumContrib value cs r2 x := by
  intro cs
  induction cs with
  | nil =>
    intro r1 r2 x _
    rfl
  | cons e rest ih =>
    intro r1 r2 x h
    rw [sumContrib_cons, sumContrib_cons, ih r1 r2 x (fun d hd => h d (by simp [hd]))]
    by_cases hm : memC e.1 x
    · rw [if_pos hm, if_pos hm]
      by_cases h1 : memO r1 x
      · rw [if_pos h1, if_pos ((h e (by simp) hm).1 h1)]
      · rw [if_neg h1, if_neg (fun h2 => h1 ((h e (by simp) hm).2 h2))]
    · rw [if_neg hm, if_neg hm]

theorem not_memO_iff_forall (s : OrderedIntegerSet) (x : Int) :
    (∀ f ∈ s.intervals, ¬ memC f x) ↔ ¬ memO s x := by
  unfold memO memL
  constructor
  · rintro h ⟨c, hc, hm⟩
    exact h c hc hm
  · intro h f hf hm
    exact h ⟨f, hf, hm⟩

/-- Full invariant of the candidate loop of `aggregate`: the remaining set
shrinks to the key minus all candidates, and the staged additions are
non-empty, pairwise disjoint, disjoint from the remaining set, covered by the
original remaining set and candidates, and carry the superposed totals. -/
theorem aggLoop_spec (value : Int) : ∀ (cs : List (ContiguousIntegerSet × Int))
    (rem : OrderedIntegerSet) (adds : List (ContiguousIntegerSet × Int)),
    Canon rem.intervals →
    cs.Pairwise (fun a b => ∀ x, ¬(memC a.1 x ∧ memC b.1 x)) →
    (∀ e ∈ adds, e.1.start ≤ e.1.end_) →
    adds.Pairwise (fun a b => ∀ x, ¬(memC a.1 x ∧ memC b.1 x)) →
    (∀ e ∈ adds, ∀ x, memC e.1 x → ¬ memO rem x ∧ ∀ c ∈ cs, ¬ memC c.1 x) →
    Canon (aggLoop value cs rem adds).1.intervals ∧
    (∀ x, memO (aggLoop value cs rem adds).1 x ↔
      memO rem x ∧ ∀ e ∈ cs, ¬ memC e.1 x) ∧
    (∀ e ∈ (aggLoop value cs rem adds).2, e.1.start ≤ e.1.end_) ∧
    (aggLoop value cs rem adds).2.Pairwise
      (fun a b => ∀ x, ¬(memC a.1 x ∧ memC b.1 x)) ∧
    (∀ e ∈ (aggLoop value cs rem adds).2, ∀ x, memC e.1 x →
      ¬ memO (aggLoop value cs rem adds).1 x) ∧
    (∀ e ∈ (aggLoop value cs rem adds).2, ∀ x, memC e.1 x →
      (∃ a ∈ adds, memC a.1 x) ∨ memO rem x ∨ ∃ c ∈ cs, memC c.1 x) ∧
    (∀ x, sumAt (aggLoop value cs rem adds).2 x =
      sumAt adds x + sumContrib value cs rem x) := by
  intro cs
  induction cs with
  | nil =>
    intro rem adds hRC _ hANE hAP hAI
    have hid : aggLoop value [] rem adds = (rem, adds) := rfl
    rw [hid]
    refine ⟨hRC, fun x => ?_, hANE, hAP, ?_, ?_, fun x => ?_⟩
    · simp
    · intro e he x hx
      exact (hAI e he x hx).1
    · intro e he x hx
      exact Or.inl ⟨e, he, hx⟩
    · show sumAt adds x = sumAt adds x + sumContrib value [] rem x
      show sumAt adds x = sumAt adds x + 0
      omega
  | cons cv rest ih =>
    intro rem adds hRC hCP hANE hAP hAI
    obtain ⟨interval, val⟩ := cv
    rcases List.pairwise_cons.1 hCP with ⟨hHead, hRest⟩
    obtain ⟨hIC, hIM⟩ := cis_intersect_ois_spec interval rem hRC
    obtain ⟨hRC', hRM'⟩ := fold_sub_spec
      (cis_intersect_ois interval rem).intervals rem hRC
    obtain ⟨hSC, hSM⟩ := cis_sub_ois_spec interval (cis_intersect_ois interval rem)
    have hRM : ∀ x, memO ((cis_intersect_ois interval rem).intervals.foldl
        (fun a ci => ois_sub_contiguous a ci) rem) x ↔
        memO rem x ∧ ¬ memO (cis_intersect_ois interval rem) x := by
      intro x
      rw [hRM' x, not_memO_iff_forall]
    have hres : aggLoop value ((interval, val) :: rest) rem adds =
        aggLoop value rest
          ((cis_intersect_ois interval rem).intervals.foldl
            (fun a ci => ois_sub_contiguous a ci) rem)
          (adds ++
            (cis_intersect_ois interval rem).intervals.map (fun ci => (ci, val + value)) ++
            (cis_sub_ois interval (cis_intersect_ois interval rem)).intervals.map
              (fun ci => (ci, val))) := rfl
    have hA1mem : ∀ p ∈ (cis_intersect_ois interval rem).intervals, ∀ x, memC p x →
        memO (cis_intersect_ois interval rem) x :=
      fun p hp x hx => ⟨p, hp, hx⟩
    have hA2mem : ∀ p ∈ (cis_sub_ois interval (cis_intersect_ois interval rem)).intervals,
        ∀ x, memC p x → memC interval x ∧
          ¬ memO (cis_intersect_ois interval rem) x :=
      fun p hp x hx => (hSM x).1 ⟨p, hp, hx⟩
    have hANE' : ∀ e ∈ (adds ++
        (cis_intersect_ois interval rem).intervals.map (fun ci => (ci, val + value)) ++
        (cis_sub_ois interval (cis_intersect_ois interval rem)).intervals.map
          (fun ci => (ci, val))), e.1.start ≤ e.1.end_ := by
      intro e he
      rcases List.mem_append.1 he with he1 | he1
      · rcases List.mem_append.1 he1 with he2 | he2
        · exact hANE e he2
        · obtain ⟨p, hp, rfl⟩ := List.mem_map.1 he2
          exact hIC.1 p hp
      · obtain ⟨p, hp, rfl⟩ := List.mem_map.1 he1
        exact hSC.1 p hp
    have hAP' : (adds ++
        (cis_intersect_ois interval rem).intervals.map (fun ci => (ci, val + value)) ++
        (cis_sub_ois interval (cis_intersect_ois interval rem)).intervals.map
          (fun ci => (ci, val))).Pairwise
        (fun a b => ∀ x, ¬(memC a.1 x ∧ memC b.1 x)) := by
      rw [List.pairwise_append]
      refine ⟨?_, ?_, ?_⟩
      · rw [List.pairwise_append]
        refine ⟨hAP, ?_, ?_⟩
        · rw [List.pairwise_map]
          exact List.Pairwise.imp (fun h x hx => h x hx) (canon_pairwise hIC)
        · intro a ha b hb x ⟨hxa, hxb⟩
          obtain ⟨p, hp, rfl⟩ := List.mem_map.1 hb
          have h1 := (hAI a ha x hxa).1
          have h2 := (hIM x).1 (hA1mem p hp x hxb)
          exact h1 h2.2
      · rw [List.pairwise_map]
        exact List.Pairwise.imp (fun h x hx => h x hx) (canon_pairwise hSC)
      · intro a ha b hb x ⟨hxa, hxb⟩
        obtain ⟨p, hp, rfl⟩ := List.mem_map.1 hb
        have h2 := hA2mem p hp x hxb
        rcases List.mem_append.1 ha with ha1 | ha1
        · exact (hAI a ha1 x hxa).2 (interval, val) (by simp) h2.1
        · obtain ⟨q, hq, rfl⟩ := List.mem_map.1 ha1
          exact h2.2 (hA1mem q hq x hxa)
    have hAI' : ∀ e ∈ (adds ++
        (cis_intersect_ois interval rem).intervals.map (fun ci => (ci, val + value)) ++
        (cis_sub_ois interval (cis_intersect_ois interval rem)).intervals.map
          (fun ci => (ci, val))), ∀ x, memC e.1 x →
        ¬ memO ((cis_intersect_ois interval rem).intervals.foldl
          (fun a ci => ois_sub_contiguous a ci) rem) x ∧
        ∀ c ∈ rest, ¬ memC c.1 x := by
      intro e he x hx
      rcases List.mem_append.1 he with he1 | he1
      · rcases List.mem_append.1 he1 with he2 | he2
        · have h1 := hAI e he2 x hx
          refine ⟨fun hm => h1.1 ((hRM x).1 hm).1, fun c hc => h1.2 c (by simp [hc])⟩
        · obtain ⟨p, hp, rfl⟩ := List.mem_map.1 he2
          have h2 := hA1mem p hp x hx
          refine ⟨fun hm => ((hRM x).1 hm).2 h2, ?_⟩
          intro c hc
          have h3 := (hIM x).1 h2
          exact fun hcx => hHead c hc x ⟨h3.1, hcx⟩
      · obtain ⟨p, hp, rfl⟩ := List.mem_map.1 he1
        have h2 := hA2mem p hp x hx
        refine ⟨?_, ?_⟩
        · intro hm
          exact h2.2 ((hIM x).2 ⟨h2.1, ((hRM x).1 hm).1⟩)
        · intro c hc
          exact fun hcx => hHead c hc x ⟨h2.1, hcx⟩
    obtain ⟨g1, g2, g3, g4, g5, g6, g7⟩ := ih
      ((cis_intersect_ois interval rem).intervals.foldl
        (fun a ci => ois_sub_contiguous a ci) rem)
      (adds ++
        (cis_intersect_ois interval rem).intervals.map (fun ci => (ci, val + value)) ++
        (cis_sub_ois interval (cis_intersect_ois interval rem)).intervals.map
          (fun ci => (ci, val)))
      hRC' hRest hANE' hAP' hAI'
    rw [hres]
    refine ⟨g1, fun x => ?_, g3, g4, g5, ?_, fun x => ?_⟩
    · rw [g2 x, hRM x]
      constructor
      · rintro ⟨⟨hm, hni⟩, hall⟩
        refine ⟨hm, ?_⟩
        intro e he
        rcases List.mem_cons.1 he with rfl | he'
        · exact fun hcx => hni ((hIM x).2 ⟨hcx, hm⟩)
        · exact hall e he'
      · rintro ⟨hm, hall⟩
        refine ⟨⟨hm, fun hni => ?_⟩, fun e he => hall e (by simp [he])⟩
        have := (hIM x).1 hni
        exact hall (interval, val) (by simp) this.1
    · intro e he x hx
      rcases g6 e he x hx with h1 | h1 | h1
      · obtain ⟨a, ha, hax⟩ := h1
        rcases List.mem_append.1 ha with ha1 | ha1
        · rcases List.mem_append.1 ha1 with ha2 | ha2
          · exact Or.inl ⟨a, ha2, hax⟩
          · obtain ⟨p, hp, rfl⟩ := List.mem_map.1 ha2
            exact Or.inr (Or.inl ((hIM x).1 (hA1mem p hp x hax)).2)
        · obtain ⟨p, hp, rfl⟩ := List.mem_map.1 ha1
          exact Or.inr (Or.inr ⟨(interval, val), by simp, (hA2mem p hp x hax).1⟩)
      · exact Or.inr (Or.inl ((hRM x).1 h1).1)
      · obtain ⟨c, hc, hcx⟩ := h1
        exact Or.inr (Or.inr ⟨c, by simp [hc], hcx⟩)
    · rw [g7 x, sumAt_append, sumAt_append,
        sum_pieces_const (val + value) x _ (canon_pairwise hIC),
        sum_pieces_const val x _ (canon_pairwise hSC),
        sumContrib_congr value rest _ rem x (fun e he hex => by
          rw [hRM x]
          constructor
          · rintro ⟨hm, _⟩
            exact hm
          · intro hm
            refine ⟨hm, fun hni => ?_⟩
            exact hHead e he x ⟨((hIM x).1 hni).1, hex⟩),
        sumContrib_cons]
      have he1 : memL (cis_intersect_ois interval rem).intervals x ↔
          memC interval x ∧ memO rem x := hIM x
      have he2 : memL (cis_sub_ois interval
          (cis_intersect_ois interval rem)).intervals x ↔
          memC interval x ∧ ¬ memO (cis_intersect_ois interval rem) x := hSM x
      by_cases hcx : memC interval x <;> by_cases hrx : memO rem x
      · rw [if_pos (he1.2 ⟨hcx, hrx⟩),
          if_neg (fun hm => (he2.1 hm).2 (he1.2 ⟨hcx, hrx⟩)),
          if_pos hcx, if_pos hrx]
        omega
      · rw [if_neg (fun hm => hrx (he1.1 hm).2),
          if_pos (he2.2 ⟨hcx, fun hm => hrx ((hIM x).1 hm).2⟩),
          if_pos hcx, if_neg hrx]
        omega
      · rw [if_neg (fun hm => hcx (he1.1 hm).1),
          if_neg (fun hm => hcx (he2.1 hm).1), if_neg hcx]
        omega
      · rw [if_neg (fun hm => hcx (he1.1 hm).1),
          if_neg (fun hm => hcx (he2.1 hm).1), if_neg hcx]
        omega

theorem aggregate_eq (m : IntegerIntervalMap) (key : ContiguousIntegerSet)
    (value : Int) (h : ¬ key.start > key.end_ + 1) :
    m.aggregate key value = some
      (((aggLoop value (aggCands m key)
          (OrderedIntegerSet.from_contiguous_integer_sets [key]) []).2 ++
        ((aggLoop value (aggCands m key)
          (OrderedIntegerSet.from_contiguous_integer_sets [key])
          []).1.into_non_empty_intervals).intervals.map
          (fun i => (i, value))).foldl (fun acc e => map_insert e.1 e.2 acc)
        ((aggCands m key).foldl (fun acc e => map_remove e.1 acc) m)) := by
  unfold IntegerIntervalMap.aggregate
  rw [if_neg h]
  rfl

theorem pairwise_getLast {α : Type} {R : α → α → Prop} :
    ∀ (l : List α), l.Pairwise R → ∀ f, l.getLast? = some f →
    ∀ x ∈ l, x = f ∨ R x f := by
  intro l
  induction l with
  | nil =>
    intro _ f hf
    cases hf
  | cons a t ih =>
    intro hp f hf x hx
    rcases List.pairwise_cons.1 hp with ⟨ha, ht⟩
    cases t with
    | nil =>
      simp only [List.getLast?_singleton, Option.some.injEq] at hf
      rcases List.mem_singleton.1 hx with rfl
      exact Or.inl hf
    | cons b t' =>
      have hf' : (b :: t').getLast? = some f := by
        rw [← hf]
        rw [List.getLast?_cons_cons]
      rcases List.mem_cons.1 hx with rfl | hx'
      · right
        exact ha f (List.mem_of_mem_getLast? hf')
      · exact ih ht f hf' x hx'

theorem lex_lt_trans {a b c : ContiguousIntegerSet} (h1 : lex_lt a b)
    (h2 : lex_lt b c) : lex_lt a c := by
  rcases h1 with h1 | ⟨h1a, h1b⟩ <;> rcases h2 with h2 | ⟨h2a, h2b⟩
  · left; omega
  · left; omega
  · left; omega
  · right; omega

theorem lex_lt_irrefl (a : ContiguousIntegerSet) : ¬ lex_lt a a := by
  rintro (h | ⟨_, h⟩) <;> omega

theorem sumContrib_zero {value : Int} {rem : OrderedIntegerSet} {x : Int} :
    ∀ {l : List (ContiguousIntegerSet × Int)}, (∀ e ∈ l, ¬ memC e.1 x) →
    sumContrib value l rem x = 0 := by
  intro l
  induction l with
  | nil => intro _; rfl
  | cons e t ih =>
    intro h
    rw [sumContrib_cons, if_neg (h e (by simp)), ih (fun d hd => h d (by simp [hd]))]
    omega

theorem sumContrib_split (value : Int) (rem : OrderedIntegerSet) (x : Int) :
    ∀ (cs : List (ContiguousIntegerSet × Int)),
    cs.Pairwise (fun a b => ∀ y, ¬(memC a.1 y ∧ memC b.1 y)) →
    sumContrib value cs rem x = sumAt cs x +
      (if memO rem x ∧ ∃ e ∈ cs, memC e.1 x then value else 0) := by
  intro cs
  induction cs with
  | nil =>
    intro _
    rw [if_neg (by rintro ⟨_, e, he, _⟩; cases he)]
    rfl
  | cons e rest ih =>
    intro hp
    rcases List.pairwise_cons.1 hp with ⟨he1, ht⟩
    rw [sumContrib_cons, sumAt_cons, ih ht]
    by_cases hm : memC e.1 x
    · have hz1 : sumAt rest x = 0 :=
        sumAt_zero (fun d hd hc => he1 d hd x ⟨hm, hc⟩)
      have hz2 : ¬ (memO rem x ∧ ∃ d ∈ rest, memC d.1 x) := by
        rintro ⟨_, d, hd, hc⟩
        exact he1 d hd x ⟨hm, hc⟩
      rw [if_pos hm, if_pos hm, if_neg hz2, hz1]
      by_cases hr : memO rem x
      · rw [if_pos hr, if_pos ⟨hr, e, by simp, hm⟩]
        omega
      · rw [if_neg hr, if_neg (by rintro ⟨hr', _⟩; exact hr hr')]
        omega
    · rw [if_neg hm, if_neg hm]
      have hiff : (memO rem x ∧ ∃ d ∈ e :: rest, memC d.1 x) ↔
          (memO rem x ∧ ∃ d ∈ rest, memC d.1 x) := by
        constructor
        · rintro ⟨hr, d, hd, hc⟩
          rcases List.mem_cons.1 hd with rfl | hd'
          · exact absurd hc hm
          · exact ⟨hr, d, hd', hc⟩
        · rintro ⟨hr, d, hd, hc⟩
          exact ⟨hr, d, by simp [hd], hc⟩
      by_cases hA : memO rem x ∧ ∃ d ∈ rest, memC d.1 x
      · rw [if_pos hA, if_pos (hiff.2 hA)]
        omega
      · rw [if_neg hA, if_neg (fun hc => hA (hiff.1 hc))]
        omega

theorem aggCands_spec (m : IntegerIntervalMap) (key : ContiguousIntegerSet)
    (hsorted : List.Chain' (fun a b => lex_lt a.1 b.1) m)
    (hne : ∀ e ∈ m, e.1.start ≤ e.1.end_)
    (hdisj : List.Pairwise (fun a b => ∀ x, ¬(memC a.1 x ∧ memC b.1 x)) m)
    (hkey : key.start ≤ key.end_) :
    (∀ e ∈ aggCands m key, e ∈ m) ∧
    List.Pairwise (fun a b => ∀ x, ¬(memC a.1 x ∧ memC b.1 x)) (aggCands m key) ∧
    (∀ e ∈ m, (∀ x, ¬(memC e.1 x ∧ memC key x)) ∨ e ∈ aggCands m key) := by
  have hsym : Symmetric (α := ContiguousIntegerSet × Int)
      (fun a b => ∀ x, ¬(memC a.1 x ∧ memC b.1 x)) := by
    intro a b h x hx
    exact h x ⟨hx.2, hx.1⟩
  have hdf := hdisj.forall hsym
  haveI : IsTrans (ContiguousIntegerSet × Int) (fun a b => lex_lt a.1 b.1) :=
    ⟨fun _ _ _ h1 h2 => lex_lt_trans h1 h2⟩
  have hpw : List.Pairwise (fun a b => lex_lt a.1 b.1) m :=
    List.chain'_iff_pairwise.1 hsorted
  have hmem : ∀ e ∈ aggCands m key, e ∈ m := by
    intro e he
    rcases List.mem_append.1 he with h1 | h2
    · exact List.mem_of_mem_filter h1
    · rcases hl : (m.filter fun e =>
          decide (lex_lt e.1 ⟨key.start, key.start⟩)).getLast? with _ | f
      · rw [hl] at h2
        cases h2
      · rw [hl] at h2
        rcases List.mem_singleton.1 h2 with rfl
        exact List.mem_of_mem_filter (List.mem_of_mem_getLast? hl)
  refine ⟨hmem, ?_, ?_⟩
  · rw [aggCands, List.pairwise_append]
    refine ⟨hdisj.filter _, ?_, ?_⟩
    · rcases hl : (m.filter fun e =>
          decide (lex_lt e.1 ⟨key.start, key.start⟩)).getLast? with _ | f
      · rw [hl]
        exact List.Pairwise.nil
      · rw [hl]
        exact List.pairwise_singleton _ _
    · intro a ha b hb
      rcases hl : (m.filter fun e =>
          decide (lex_lt e.1 ⟨key.start, key.start⟩)).getLast? with _ | f
      · rw [hl] at hb
        cases hb
      · rw [hl] at hb
        rcases List.mem_singleton.1 hb with rfl
        have ham : a ∈ m := List.mem_of_mem_filter ha
        have hbm : b ∈ m := List.mem_of_mem_filter (List.mem_of_mem_getLast? hl)
        have hap := (List.mem_filter.1 ha).2
        have hbp := (List.mem_filter.1 (List.mem_of_mem_getLast? hl)).2
        rw [Bool.and_eq_true, Bool.not_eq_true', decide_eq_false_iff_not] at hap
        rw [decide_eq_true_eq] at hbp
        have hne' : a ≠ b := by
          rintro rfl
          exact hap.1 hbp
        exact hdf ham hbm hne'
  · intro e he
    by_cases hint : ∃ x, memC e.1 x ∧ memC key x
    · right
      obtain ⟨x, hex, hkx⟩ := hint
      have hene : e.1.start ≤ e.1.end_ := hne e he
      by_cases hstart : key.start ≤ e.1.start
      · refine List.mem_append.2 (Or.inl (List.mem_filter.2 ⟨he, ?_⟩))
        rw [Bool.and_eq_true, Bool.not_eq_true', decide_eq_false_iff_not,
          decide_eq_true_eq]
        constructor
        · rintro (h | ⟨h1, h2⟩)
          · exact absurd (show e.1.start < key.start from h) (by omega)
          · have h2' : e.1.end_ < key.start := h2
            omega
        · rcases hex with ⟨he1, he2⟩
          rcases hkx with ⟨hk1, hk2⟩
          exact Or.inl (show e.1.start < key.end_ + 1 by omega)
      · push_neg at hstart
        refine List.mem_append.2 (Or.inr ?_)
        have hbmem : e ∈ m.filter fun d =>
            decide (lex_lt d.1 ⟨key.start, key.start⟩) := by
          refine List.mem_filter.2 ⟨he, ?_⟩
          rw [decide_eq_true_eq]
          exact Or.inl hstart
        obtain ⟨f, hf⟩ : ∃ f, (m.filter fun d =>
            decide (lex_lt d.1 ⟨key.start, key.start⟩)).getLast? = some f := by
          cases hl : (m.filter fun d =>
              decide (lex_lt d.1 ⟨key.start, key.start⟩)).getLast? with
          | none =>
            rw [List.getLast?_eq_none_iff] at hl
            rw [hl] at hbmem
            cases hbmem
          | some f => exact ⟨f, rfl⟩
        have hef : e = f ∨ lex_lt e.1 f.1 :=
          pairwise_getLast _ (hpw.filter _) f hf e hbmem
        rcases hef with rfl | hlt
        · rw [hf]
          exact List.mem_singleton.2 rfl
        · exfalso
          have hfm : f ∈ m := List.mem_of_mem_filter (List.mem_of_mem_getLast? hf)
          have hffilter := (List.mem_filter.1 (List.mem_of_mem_getLast? hf)).2
          rw [decide_eq_true_eq] at hffilter
          have hfne : f.1.start ≤ f.1.end_ := hne f hfm
          have hnefe : e ≠ f := by
            rintro rfl
            exact lex_lt_irrefl e.1 hlt
          have hdisj_ef := hdf he hfm hnefe
          have hgt : e.1.end_ < f.1.start := by
            rcases hlt with h | ⟨h1, h2⟩
            · by_contra hle
              push_neg at hle
              exact hdisj_ef f.1.start ⟨⟨le_of_lt h, hle⟩, ⟨le_refl _, hfne⟩⟩
            · exact absurd (hdisj_ef e.1.start
                ⟨⟨le_refl _, hene⟩, ⟨by omega, by omega⟩⟩) not_false
          have hfs : f.1.start < key.start := by
            rcases hffilter with h | ⟨h1, h2⟩
            · exact h
            · have h1' : f.1.start = key.start := h1
              have h2' : f.1.end_ < key.start := h2
              omega
          rcases hkx with ⟨hk1, hk2⟩
          rcases hex with ⟨he1, he2⟩
          omega
    · left
      intro x hx
      exact hint ⟨x, hx⟩

/-- C1 (amended): for every map whose stored keys are sorted, pairwise
disjoint and non-empty, and every NON-EMPTY key range, `aggregate key value`
succeeds and the total stored value at every integer x grows by `value`
exactly when x lies in the key range, and is unchanged otherwise; the spec's
three-call example on the empty map is verified by evaluation. (For a key
range with start > end + 1 the underlying `BTreeMap::range` call panics,
modeled as `none`; see the counterexample.) -/
theorem claim_C1 (m : IntegerIntervalMap) (key : ContiguousIntegerSet) (value : Int)
    (hsorted : List.Chain' (fun a b => lex_lt a.1 b.1) m)
    (hne : ∀ e ∈ m, e.1.start ≤ e.1.end_)
    (hdisj : List.Pairwise (fun a b => ∀ x, ¬(memC a.1 x ∧ memC b.1 x)) m)
    (hkey : key.start ≤ key.end_) :
    (∃ m', m.aggregate key value = some m' ∧
      ∀ x : Int, sumAt m' x = sumAt m x + (if memC key x then value else 0)) ∧
    (((IntegerIntervalMap.aggregate ([] : IntegerIntervalMap) ⟨-1, 4⟩ 2).bind
        (fun m1 => (m1.aggregate ⟨6, 8⟩ 4).bind
          (fun m2 => m2.aggregate ⟨4, 7⟩ 1))).map
        (fun md => (md.get ⟨-1, 3⟩, md.get ⟨4, 4⟩, md.get ⟨5, 5⟩,
          md.get ⟨6, 7⟩, md.get ⟨8, 8⟩)) =
      some (some 2, some 3, some 1, some 5, some 4)) := by
  constructor
  · have hsym : Symmetric (α := ContiguousIntegerSet × Int)
        (fun a b => ∀ x, ¬(memC a.1 x ∧ memC b.1 x)) := by
      intro a b h x hx
      exact h x ⟨hx.2, hx.1⟩
    have hdf := hdisj.forall hsym
    obtain ⟨hcmem, hcpw, hcomp⟩ := aggCands_spec m key hsorted hne hdisj hkey
    have hco := coalesce_intervals_spec [key] (by
      intro c hc
      rcases List.mem_singleton.1 hc with rfl
      exact hkey)
    have hrem0canon : Canon
        (OrderedIntegerSet.from_contiguous_integer_sets [key]).intervals := hco.1
    have hrem0mem : ∀ x,
        memO (OrderedIntegerSet.from_contiguous_integer_sets [key]) x ↔
          memC key x := by
      intro x
      have h1 : memO (OrderedIntegerSet.from_contiguous_integer_sets [key]) x ↔
          memL [key] x := hco.2 x
      rw [h1, memL_cons]
      constructor
      · rintro (h | h)
        · exact h
        · exact absurd h (memL_nil x)
      · exact Or.inl
    obtain ⟨A1, A2, A3, A4, A5, A6, A7⟩ := aggLoop_spec value (aggCands m key)
      (OrderedIntegerSet.from_contiguous_integer_sets [key]) [] hrem0canon hcpw
      (by intro e he; cases he) List.Pairwise.nil (by intro e he; cases he)
    have hpieces : (aggLoop value (aggCands m key)
        (OrderedIntegerSet.from_contiguous_integer_sets [key])
          []).1.into_non_empty_intervals =
        (aggLoop value (aggCands m key)
          (OrderedIntegerSet.from_contiguous_integer_sets [key]) []).1 :=
      canon_into_non_empty_id A1
    refine ⟨_, aggregate_eq m key value (by omega), ?_⟩
    intro x
    rw [hpieces]
    set res := aggLoop value (aggCands m key)
      (OrderedIntegerSet.from_contiguous_integer_sets [key]) [] with hresdef
    have hKD : KeysDistinct m := keys_distinct_of_disjoint hdisj hne
    have hcne : ∀ e ∈ aggCands m key, e.1.start ≤ e.1.end_ :=
      fun e he => hne e (hcmem e he)
    have hcKD : KeysDistinct (aggCands m key) := keys_distinct_of_disjoint hcpw hcne
    obtain ⟨R1, R2, R3⟩ := fold_remove_spec (aggCands m key) m hKD hcmem hcKD
    have hTne : ∀ e ∈ res.2 ++ res.1.intervals.map (fun i => (i, value)),
        e.1.start ≤ e.1.end_ := by
      intro e he
      rcases List.mem_append.1 he with h1 | h2
      · exact A3 e h1
      · obtain ⟨ci, hci, rfl⟩ := List.mem_map.1 h2
        exact A1.1 ci hci
    have hTpw : (res.2 ++ res.1.intervals.map (fun i => (i, value))).Pairwise
        (fun a b => ∀ y, ¬(memC a.1 y ∧ memC b.1 y)) := by
      rw [List.pairwise_append]
      refine ⟨A4, ?_, ?_⟩
      · exact (canon_pairwise A1).map _ (fun a b h => h)
      · intro a ha b hb y hy
        obtain ⟨ci, hci, rfl⟩ := List.mem_map.1 hb
        exact A5 a ha y hy.1 ⟨ci, hci, hy.2⟩
    have hTKD : KeysDistinct (res.2 ++ res.1.intervals.map (fun i => (i, value))) :=
      keys_distinct_of_disjoint hTpw hTne
    have hfresh : ∀ e ∈ res.2 ++ res.1.intervals.map (fun i => (i, value)),
        ∀ e' ∈ (aggCands m key).foldl (fun acc d => map_remove d.1 acc) m,
        e.1 ≠ e'.1 := by
      intro e he e' he' heq
      obtain ⟨he'm, he'k⟩ := (R2 e').1 he'
      have hene : e.1.start ≤ e.1.end_ := hTne e he
      have hx : memC e.1 e.1.start := ⟨le_refl _, hene⟩
      have hx' : memC e'.1 e.1.start := by rw [← heq]; exact hx
      have horig : memC key e.1.start ∨
          ∃ c ∈ aggCands m key, memC c.1 e.1.start := by
        rcases List.mem_append.1 he with h1 | h2
        · rcases A6 e h1 e.1.start hx with ⟨a, ha, _⟩ | hmem | hc
          · cases ha
          · exact Or.inl ((hrem0mem e.1.start).1 hmem)
          · exact Or.inr hc
        · obtain ⟨ci, hci, rfl⟩ := List.mem_map.1 h2
          exact Or.inl ((hrem0mem _).1 ((A2 _).1 ⟨ci, hci, hx⟩).1)
      rcases horig with hk | ⟨c, hc, hcx⟩
      · rcases hcomp e' he'm with hd | hin
        · exact hd e.1.start ⟨hx', hk⟩
        · exact he'k e' hin rfl
      · by_cases hec : e' = c
        · exact he'k c hc (by rw [hec])
        · exact hdf he'm (hcmem c hc) hec e.1.start ⟨hx', hcx⟩
    have hins := fold_insert_spec
      (res.2 ++ res.1.intervals.map (fun i => (i, value)))
      ((aggCands m key).foldl (fun acc d => map_remove d.1 acc) m) hfresh hTKD x
    rw [hins, R3 x, sumAt_append, A7 x,
      sum_pieces_const value x res.1.intervals (canon_pairwise A1),
      sumContrib_split value (OrderedIntegerSet.from_contiguous_integer_sets [key])
        x (aggCands m key) hcpw]
    have hnil : sumAt ([] : List (ContiguousIntegerSet × Int)) x = 0 := rfl
    rw [hnil]
    by_cases hk : memC key x
    · by_cases hcand : ∃ e ∈ aggCands m key, memC e.1 x
      · have h1 : memO (OrderedIntegerSet.from_contiguous_integer_sets [key]) x ∧
            ∃ e ∈ aggCands m key, memC e.1 x := ⟨(hrem0mem x).2 hk, hcand⟩
        have h2 : ¬ memL res.1.intervals x := by
          intro hmem
          obtain ⟨e0, he0, hm0⟩ := hcand
          exact ((A2 x).1 hmem).2 e0 he0 hm0
        rw [if_pos h1, if_pos hk, if_neg h2]
        omega
      · have h1 : ¬ (memO (OrderedIntegerSet.from_contiguous_integer_sets [key]) x ∧
            ∃ e ∈ aggCands m key, memC e.1 x) := fun hc => hcand hc.2
        have h2 : memL res.1.intervals x := by
          refine (A2 x).2 ⟨(hrem0mem x).2 hk, ?_⟩
          intro e he hm
          exact hcand ⟨e, he, hm⟩
        rw [if_neg h1, if_pos hk, if_pos h2]
        omega
    · have h1 : ¬ (memO (OrderedIntegerSet.from_contiguous_integer_sets [key]) x ∧
          ∃ e ∈ aggCands m key, memC e.1 x) := by
        rintro ⟨hr, _⟩
        exact hk ((hrem0mem x).1 hr)
      have h2 : ¬ memL res.1.intervals x := by
        intro hmem
        exact hk ((hrem0mem x).1 ((A2 x).1 hmem).1)
      rw [if_neg h1, if_neg hk, if_neg h2]
      omega
  · decide

theorem claim_C1_counterexample :
    IntegerIntervalMap.aggregate ([] : IntegerIntervalMap) ⟨2, 0⟩ 5 = none := by
  decide

theorem claim_C1_witness :
    (∃ m', IntegerIntervalMap.aggregate [(⟨0, 2⟩, 7)] ⟨1, 5⟩ 3 = some m' ∧
      ∀ x : Int, sumAt m' x = sumAt [(⟨0, 2⟩, 7)] x +
        (if memC ⟨1, 5⟩ x then 3 else 0)) ∧
    (((IntegerIntervalMap.aggregate ([] : IntegerIntervalMap) ⟨-1, 4⟩ 2).bind
        (fun m1 => (m1.aggregate ⟨6, 8⟩ 4).bind
          (fun m2 => m2.aggregate ⟨4, 7⟩ 1))).map
        (fun md => (md.get ⟨-1, 3⟩, md.get ⟨4, 4⟩, md.get ⟨5, 5⟩,
          md.get ⟨6, 7⟩, md.get ⟨8, 8⟩)) =
      some (some 2, some 3, some 1, some 5, some 4)) :=
  claim_C1 [(⟨0, 2⟩, 7)] ⟨1, 5⟩ 3 (List.chain'_singleton _) (by decide)
    (List.pairwise_singleton _ _) (by decide)
